import Mathlib

/-!
YoloCache: the LRU store, the consistent-hash ring, single flight and the group.

A shallow embedding of `yolocache/lru/lru.go`,
`yolocache/consistenthash/consistenthash.go`,
`yolocache/singleflight/singleflight.go`, `yolocache/cache.go`, `byteview.go` and
`yolocache/yolocache.go`, with the properties of the store, the ring, the concurrent
cache and the group proved over it.

Conventions of the embedding:

* a Go `map[K]V` is an association list with at most one pair per key;
* `container/list` is a Lean list whose head is the front of the Go list;
  every element carries the address it was allocated at (`ptr`), and the
  index map of the store holds such addresses, as the Go map holds
  `*list.Element`;
* byte totals (`int64` in the source) are integers kept in the range of `int64`:
  every sum and difference the source takes is reduced by `wrap64`, as Go's
  arithmetic wraps around;
* the eviction callback is a flag (nil or not), a log of the calls made and a log of
  the store as each call found it;
* the concurrent cache, single flight and the group are run one call at a time:
  mutexes are left out, and a call returns `Except Fault`, the fault being a panic or
  a call that never comes back;
* the loader, the picker and the peers of a group are functions, and the group logs
  the calls it makes on them and on its cache (`events`).
-/

namespace YoloCache

/-! ## Go maps -/

/-- Go map as an association list: `m[k]` with the comma-ok form. -/
def mapGet {κ ν : Type} [DecidableEq κ] (m : List (κ × ν)) (k : κ) : Option ν :=
  match m with
  | [] => none
  | (k', v) :: rest => if k' = k then some v else mapGet rest k

/-- Go `delete(m, k)`. -/
def mapDelete {κ ν : Type} [DecidableEq κ] (m : List (κ × ν)) (k : κ) : List (κ × ν) :=
  m.filter (fun p => decide (p.1 ≠ k))

/-- Go `m[k] = v`. -/
def mapSet {κ ν : Type} [DecidableEq κ] (m : List (κ × ν)) (k : κ) (v : ν) : List (κ × ν) :=
  (k, v) :: mapDelete m k

namespace lru

/-- The `Value` interface: anything that reports a size through `Len() int`.
`data` stands for the payload, which the store never inspects. -/
structure Value where
  data : String
  Len : Int
deriving DecidableEq

/-- The test suite's `type String string` with `Len() = len(d)`. -/
def StringValue (d : String) : Value := ⟨d, d.utf8ByteSize⟩

/-- Node payload of the recency list: `type entry struct { key; value }`. -/
structure entry where
  key : String
  value : Value
deriving DecidableEq

/-- A `*list.Element`: its address and the `*entry` stored in its `Value` field. -/
structure Element where
  ptr : Nat
  kv : entry
deriving DecidableEq

/-- The value of an integer as an `int64`: Go's integer arithmetic wraps around, so a
sum or a difference of `int64` values is the exact one reduced modulo 2^64 into the
range from -2^63 to 2^63 - 1. -/
def wrap64 (x : Int) : Int :=
  (x + 9223372036854775808) % 18446744073709551616 - 9223372036854775808

/-- What the eviction callback can read of the store while it runs: the recency list,
the index and the byte total. -/
structure Snapshot where
  ll : List Element
  cache : List (String × Nat)
  nbytes : Int
deriving DecidableEq

/-- The store: `type Cache struct`. `ll` is front first. `OnEvicted` tells whether the
callback is non-nil; `evicted` logs its invocations, oldest first, and `seen` the store
as each invocation found it; `nextPtr` is the next fresh element address. `maxBytes`
and `nbytes` are `int64` values. -/
structure Cache where
  maxBytes : Int
  nbytes : Int
  ll : List Element
  cache : List (String × Nat)
  OnEvicted : Bool
  evicted : List entry
  nextPtr : Nat
  seen : List Snapshot := []
deriving DecidableEq

/-! ### container/list -/

/-- The `l.PushFront(v)` of container/list, at a fresh address. -/
def PushFront (l : List Element) (e : Element) : List Element := e :: l

/-- The `l.MoveToFront(e)` of container/list: nothing happens when `e` is not an
element of `l`. -/
def MoveToFront (l : List Element) (p : Nat) : List Element :=
  match l.find? (fun e => decide (e.ptr = p)) with
  | some e => e :: l.filter (fun x => decide (x.ptr ≠ p))
  | none => l

/-- The `l.Back()` of container/list. -/
def Back (l : List Element) : Option Element := l.getLast?

/-- The `l.Remove(e)` of container/list. -/
def Remove (l : List Element) (p : Nat) : List Element :=
  l.filter (fun x => decide (x.ptr ≠ p))

/-- Reading `ele.Value.(*entry)` through the address of a list element. -/
def deref (l : List Element) (p : Nat) : Option entry :=
  (l.find? (fun e => decide (e.ptr = p))).map Element.kv

/-- The assignment `kv.value = value` through the address of a list element. -/
def setValue (l : List Element) (p : Nat) (value : Value) : List Element :=
  l.map (fun e => if e.ptr = p then { e with kv := { e.kv with value := value } } else e)

/-! ### The store -/

/-- The size of an entry as an integer: `len(kv.key) + kv.value.Len()` without the
limits of `int64`. -/
def entrySize (kv : entry) : Int := (kv.key.utf8ByteSize : Int) + kv.value.Len

/-- Bytes charged for one entry: `int64(len(kv.key)) + int64(kv.value.Len())`, an
`int64` sum. -/
def entryBytes (kv : entry) : Int := wrap64 ((kv.key.utf8ByteSize : Int) + kv.value.Len)

/-- `func New(maxBytes int64, onEvicted func(string, Value)) *Cache`. -/
def New (maxBytes : Int) (onEvicted : Bool) : Cache :=
  { maxBytes := maxBytes, nbytes := 0, ll := [], cache := [],
    OnEvicted := onEvicted, evicted := [], nextPtr := 0, seen := [] }

/-- `func (c *Cache) Len() int`. -/
def Len (c : Cache) : Nat := c.ll.length

/-- `func (c *Cache) Get(key string) (value Value, ok bool)`: the store after the call
and the result (`none` is `ok == false`). The inner `none` branch stands for an index
entry whose element is not in the list, which no sequence of calls produces. -/
def Get (c : Cache) (key : String) : Cache × Option Value :=
  match mapGet c.cache key with
  | some ele =>
    match deref c.ll ele with
    | some kv => ({ c with ll := MoveToFront c.ll ele }, some kv.value)
    | none => (c, none)
  | none => (c, none)

/-- Lines 94 to 96 of `RemoveOldest`:
`if c.OnEvicted != nil { c.OnEvicted(kv.key, kv.value) }`. The callback is logged with
the store as it stands when the callback is called. -/
def RemoveOldest.notify (c : Cache) (kv : entry) : Cache :=
  { c with
    evicted := if c.OnEvicted then c.evicted ++ [kv] else c.evicted
    seen := if c.OnEvicted then c.seen ++ [⟨c.ll, c.cache, c.nbytes⟩] else c.seen }

/-- `func (c *Cache) RemoveOldest()`: lines 89 to 93 take the back element out of the
list and of the index and deduct its bytes (an `int64` subtraction), then the callback
step runs on the store so changed. -/
def RemoveOldest (c : Cache) : Cache :=
  match Back c.ll with
  | some ele =>
    RemoveOldest.notify
      { c with
        ll := Remove c.ll ele.ptr
        cache := mapDelete c.cache ele.kv.key
        nbytes := wrap64 (c.nbytes - entryBytes ele.kv) }
      ele.kv
  | none => c

/-- First half of `Add` (the `if ele, ok := c.cache[key]; ok { ... } else { ... }`):
refresh the live entry or push a new one. The two updates of `nbytes` are `int64`
additions. -/
def Add.upsert (c : Cache) (key : String) (value : Value) : Cache :=
  match mapGet c.cache key with
  | some ele =>
    match deref c.ll ele with
    | some kv =>
      { c with
        ll := setValue (MoveToFront c.ll ele) ele value
        nbytes := wrap64 (c.nbytes + wrap64 (value.Len - kv.value.Len)) }
    | none => c
  | none =>
    { c with
      ll := PushFront c.ll ⟨c.nextPtr, ⟨key, value⟩⟩
      cache := mapSet c.cache key c.nextPtr
      nbytes := wrap64 (c.nbytes + entryBytes ⟨key, value⟩)
      nextPtr := c.nextPtr + 1 }

/-- Second half of `Add`: `for c.maxBytes != 0 && c.maxBytes < c.nbytes { c.RemoveOldest() }`,
run for at most `fuel` tests of the guard. `none`: the guard still held when the fuel
ran out. -/
def Add.evict : Nat → Cache → Option Cache
  | 0, _ => none
  | fuel + 1, c =>
    if c.maxBytes ≠ 0 ∧ c.maxBytes < c.nbytes then Add.evict fuel (RemoveOldest c)
    else some c

/-- `func (c *Cache) Add(key string, value Value)`. The loop gets one test of the guard
per list element and one more: with the list empty `RemoveOldest` changes nothing, so a
guard that holds then holds forever and `none` is a call that does not return
(see `evict_fuel_irrelevant`). -/
def Add (c : Cache) (key : String) (value : Value) : Option Cache :=
  let c1 := Add.upsert c key value
  Add.evict (c1.ll.length + 1) c1

/-- One call on the store. -/
inductive Op where
  | add (key : String) (value : Value)
  | get (key : String)
  | removeOldest
deriving DecidableEq

/-- Effect of one call on the store (`none`: the call does not return). -/
def step (c : Cache) : Op → Option Cache
  | .add key value => Add c key value
  | .get key => some (Get c key).1
  | .removeOldest => some (RemoveOldest c)

/-- Effect of a finite sequence of calls, first call first. -/
def run (c : Cache) : List Op → Option Cache
  | [] => some c
  | op :: ops => (step c op).bind (fun c' => run c' ops)

/-- Sum of the sizes of the entries of a recency list, as an integer. -/
def liveBytes (l : List Element) : Int := (l.map (fun e => entrySize e.kv)).sum

/-- The (key, address) pair under which an element is indexed. -/
def indexPair (e : Element) : String × Nat := (e.kv.key, e.ptr)

/-- Representation invariant of the store. -/
structure WF (c : Cache) : Prop where
  ptrNodup : (c.ll.map Element.ptr).Nodup
  keyNodup : (c.ll.map (fun e => e.kv.key)).Nodup
  index : c.cache.Perm (c.ll.map indexPair)
  fresh : ∀ e ∈ c.ll, e.ptr < c.nextPtr
  bytes : c.nbytes = wrap64 (liveBytes c.ll)

/-! ### Histories of calls -/

/-- Whether the call passes a value whose `Len()` is not negative (calls that pass no
value do). -/
def Op.sizeNonneg : Op → Bool
  | .add _ value => decide (0 ≤ value.Len)
  | _ => true

/-- Whether the call is an `Add` or a `Get`. -/
def Op.isAddOrGet : Op → Bool
  | .removeOldest => false
  | _ => true

/-- The latest value added under each key, after one more call. -/
def recordAdd (f : String → Option Value) : Op → String → Option Value
  | .add key value => fun k => if k = key then some value else f k
  | _ => f

/-- The value of the latest `Add` under `key` in a sequence of calls, if there is one. -/
def lastAdded (ops : List Op) (key : String) : Option Value :=
  ops.foldl recordAdd (fun _ => none) key


/-- The second seed scenario of the test suite: three insertions under a budget of 20. -/
def seedOps : List Op :=
  [.add "key1" (StringValue "value1"), .add "key2" (StringValue "value2"),
    .add "k3" (StringValue "v3")]

/-- The store the second seed scenario ends in. -/
def seedStore : Cache :=
  { maxBytes := 20, nbytes := 14,
    ll := [⟨2, ⟨"k3", StringValue "v3"⟩⟩, ⟨1, ⟨"key2", StringValue "value2"⟩⟩],
    cache := [("k3", 2), ("key2", 1)],
    OnEvicted := false, evicted := [], nextPtr := 3 }

/-- Every resident value reports a size that is not negative. -/
def Nonneg (c : Cache) : Prop := ∀ e ∈ c.ll, 0 ≤ e.kv.value.Len


/-- The store of the first seed scenario: unlimited, after `Add("key1", "1234")`. -/
def hitStore : Cache :=
  { maxBytes := 0, nbytes := 8, ll := [⟨0, ⟨"key1", StringValue "1234"⟩⟩],
    cache := [("key1", 0)], OnEvicted := false, evicted := [], nextPtr := 1 }

/-- Every resident entry holds the value that `f` records for its key. -/
def Tracks (f : String → Option Value) (c : Cache) : Prop :=
  ∀ e ∈ c.ll, f e.kv.key = some e.kv.value


/-- The store of the second seed scenario before its third insertion. -/
def seedTwo : Cache :=
  { maxBytes := 20, nbytes := 20,
    ll := [⟨1, ⟨"key2", StringValue "value2"⟩⟩, ⟨0, ⟨"key1", StringValue "value1"⟩⟩],
    cache := [("key2", 1), ("key1", 0)],
    OnEvicted := false, evicted := [], nextPtr := 2 }


/-- Every value that `f` records for a key is resident under that key. -/
def Holds (f : String → Option Value) (c : Cache) : Prop :=
  ∀ key v, f key = some v → ∃ e ∈ c.ll, e.kv.key = key ∧ e.kv.value = v

end lru

/-! ## The consistent-hash ring -/

namespace consistenthash

/-- The bytes of a string (`[]byte(s)`). -/
def bytes (s : String) : List Nat :=
  s.data.flatMap (fun ch => (String.utf8EncodeChar ch).map UInt8.toNat)

/-- One bit step of the reflected CRC-32 register (polynomial 0xEDB88320). -/
def crcShift (crc : Nat) : Nat :=
  if crc % 2 = 1 then Nat.xor (crc / 2) 3988292384 else crc / 2

/-- One byte step of CRC-32. -/
def crcByte (crc b : Nat) : Nat :=
  crcShift (crcShift (crcShift (crcShift (crcShift (crcShift (crcShift (crcShift
    (Nat.xor crc b))))))))

/-- The default hash `crc32.ChecksumIEEE` of the Go standard library. -/
def ChecksumIEEE (s : String) : Nat :=
  Nat.xor ((bytes s).foldl crcByte 4294967295) 4294967295

/-- The ring: `type Map struct`. `hash` is a `Hash`, a function to `uint32`,
taken on the bytes of a string. -/
structure Map where
  hash : String → Nat
  replicas : Int
  keys : List Int
  hashMap : List (Int × String)

/-- `func New(replicas int, fn Hash) *Map`; `none` is a nil `fn`. -/
def New (replicas : Int) (fn : Option (String → Nat)) : Map :=
  { hash := fn.getD ChecksumIEEE, replicas := replicas, keys := [], hashMap := [] }

/-- The conversion `int(m.hash([]byte(s)))` of a `uint32` result to `int`. -/
def hashInt (m : Map) (s : String) : Int := ((m.hash s % 4294967296 : Nat) : Int)

/-- `sort.Ints`: the ascending rearrangement of an int slice. -/
def sortInts (l : List Int) : List Int := l.insertionSort (· ≤ ·)

/-- Body of the inner loop of `Add` for virtual node `i` of peer `key`. -/
def Add.replica (key : String) (m : Map) (i : Nat) : Map :=
  let hash := hashInt m (toString i ++ key)
  { m with keys := m.keys ++ [hash], hashMap := mapSet m.hashMap hash key }

/-- The inner loop of `Add`: `for i := 0; i < m.replicas; i++`. -/
def Add.peer (m : Map) (key : String) : Map :=
  (List.range m.replicas.toNat).foldl (Add.replica key) m

/-- `func (m *Map) Add(keys ...string)`. -/
def Add (m : Map) (keys : List String) : Map :=
  let m' := keys.foldl Add.peer m
  { m' with keys := sortInts m'.keys }

/-- The loop of `sort.Search`, `for i < j { h := int(uint(i+j) >> 1); ... }`, for at most
`fuel` rounds; a probe may fail (`none`), as an index expression can. -/
def Search.loop (f : Nat → Option Bool) : Nat → Nat → Nat → Option Nat
  | 0, i, j => if i < j then none else some i
  | fuel + 1, i, j =>
    if i < j then
      let h := (i + j) / 2
      match f h with
      | none => none
      | some false => Search.loop f fuel (h + 1) j
      | some true => Search.loop f fuel i h
    else some i

/-- `sort.Search(n, f)`. Every round shrinks `j - i`, which starts at `n`, so `n`
rounds are never used up (see `Search_loop_fuel`). -/
def Search (n : Nat) (f : Nat → Option Bool) : Option Nat := Search.loop f n 0 n

/-- `func (m *Map) Get(key string) string`; `none` is an index out of range. -/
def Get (m : Map) (key : String) : Option String :=
  if m.keys.length = 0 then some ""
  else
    let hash := hashInt m key
    match Search m.keys.length (fun i => (m.keys[i]?).map (fun k => decide (k ≥ hash))) with
    | none => none
    | some idx =>
      match m.keys[idx % m.keys.length]? with
      | none => none
      | some k => some ((mapGet m.hashMap k).getD "")

/-- The lookup as the specification words it: the first index whose hash is at least
the key's hash, index 0 when there is none. -/
def GetSpec (m : Map) (key : String) : String :=
  if m.keys = [] then ""
  else
    let h := hashInt m key
    let i := (m.keys.findIdx? (fun k => decide (k ≥ h))).getD 0
    (mapGet m.hashMap (m.keys.getD i 0)).getD ""

/-- The ring after a sequence of `Add` calls on `New(replicas, fn)`. -/
def ringAfter (replicas : Int) (fn : Option (String → Nat)) (calls : List (List String)) : Map :=
  calls.foldl Add (New replicas fn)

/-- The hashes of the virtual nodes of the peers of one `Add` call, in insertion order. -/
def replicaHashes (m : Map) (keys : List String) : List Int :=
  keys.flatMap (fun key => (List.range m.replicas.toNat).map (fun i => hashInt m (toString i ++ key)))

end consistenthash

/-! ## Faults -/

/-- How a call can fail to return: a Go panic, or never coming back (a loop that does not
stop, a wait that nobody ends). -/
inductive Fault where
  | panic (msg : String)
  | hang
deriving DecidableEq

/-! ## Single flight -/

namespace singleflight

/-- The `type call struct`: `wg` is the counter of the `sync.WaitGroup`, `val` the
`interface{}` result (`none` is nil), `err` the error (`none` is nil). -/
structure call (ρ ε : Type) where
  wg : Nat
  val : Option ρ
  err : Option ε

/-- The `type Group struct`: the index `m` of the calls in flight, `none` while the map
is nil. The mutex is not part of the sequential view. -/
structure Group (ρ ε : Type) where
  m : Option (List (String × call ρ ε))

/-- `func (g *Group) Do(key string, fn func() (interface{}, error)) (interface{}, error)`,
one call run alone. `fn` acts on the world `w` around the group. A call found in the
index is waited for: `Wait` returns at once when its counter is zero and never
otherwise, as no other goroutine runs. The result is the returned pair, the group and
the world after the call. -/
def Do {σ ρ ε : Type} (g : Group ρ ε) (key : String)
    (fn : σ → Except Fault ((Option ρ × Option ε) × σ)) (w : σ) :
    Except Fault ((Option ρ × Option ε) × Group ρ ε × σ) :=
  let m := g.m.getD []
  match mapGet m key with
  | some c =>
    if c.wg = 0 then .ok ((c.val, c.err), { m := some m }, w)
    else .error .hang
  | none =>
    let c : call ρ ε := { wg := 1, val := none, err := none }
    let m1 := mapSet m key c
    match fn w with
    | .error f => .error f
    | .ok ((val, err), w') =>
      let m2 := mapSet m1 key { wg := c.wg - 1, val := val, err := err }
      .ok ((val, err), { m := some (mapDelete m2 key) }, w')

end singleflight

/-! ## The group -/

namespace yolocache

/-- The `type ByteView struct { b []byte }`; a byte slice is written as the string of its
bytes. -/
structure ByteView where
  b : String
deriving DecidableEq

/-- `func (v ByteView) Len() int`. -/
def ByteView.Len (v : ByteView) : Int := (v.b.utf8ByteSize : Int)

/-- `func cloneBytes(b []byte) []byte`: a copy has the same bytes. -/
def cloneBytes (b : String) : String := b

/-- `func (v ByteView) ByteSlice() []byte`. -/
def ByteView.ByteSlice (v : ByteView) : String := cloneBytes v.b

/-- `func (v ByteView) String() string`. -/
def ByteView.String (v : ByteView) : String := v.b

/-- A ByteView passed as an `lru.Value`. -/
def ByteView.toValue (v : ByteView) : lru.Value := ⟨v.b, v.Len⟩

/-- The type assertion `v.(ByteView)` on an `lru.Value`: it holds for the values that
are ByteViews, whose `Len()` is the length of their bytes. -/
def asByteView (v : lru.Value) : Option ByteView :=
  if v.Len = (v.data.utf8ByteSize : Int) then some ⟨v.data⟩ else none

/-- The `type cache struct`: the store (`none` while `c.lru` is nil), the budget, and
whether `c.once` has run. The mutex is not part of the sequential view. -/
structure cache where
  lru : Option lru.Cache
  cacheBytes : Int
  once : Bool
deriving DecidableEq

/-- `func (c *cache) add(key string, value ByteView)`. -/
def cache.add (c : cache) (key : String) (value : ByteView) : Except Fault cache :=
  let c1 := if c.once then c else { c with lru := some (lru.New c.cacheBytes false), once := true }
  match c1.lru with
  | none => .error (.panic "invalid memory address or nil pointer dereference")
  | some l =>
    match lru.Add l key value.toValue with
    | none => .error .hang
    | some l' => .ok { c1 with lru := some l' }

/-- `func (c *cache) get(key string) (value ByteView, ok bool)`: the cache after the call
and the result (`none` is `ok == false`). -/
def cache.get (c : cache) (key : String) : Except Fault (cache × Option ByteView) :=
  match c.lru with
  | none => .ok (c, none)
  | some l =>
    match lru.Get l key with
    | (l', some v) =>
      match asByteView v with
      | some view => .ok ({ c with lru := some l' }, some view)
      | none => .error (.panic "interface conversion: lru.Value is not ByteView")
    | (l', none) => .ok ({ c with lru := some l' }, none)

/-- The `Getter` interface, the loader: `Get(key string) ([]byte, error)`. -/
abbrev Getter := String → Except String String

/-- The peer getter as `getFromPeer` calls it: `Get(group, key) ([]byte, error)`. -/
abbrev PeerGetter := String → String → Except String String

/-- The `PeerPicker` interface: `PickPeer(key string) (peer PeerGetter, ok bool)`. -/
abbrev PeerPicker := String → Option PeerGetter

/-- The calls a group makes on its collaborators, as they are logged. -/
inductive Event where
  | cacheGet (key : String)
  | pickPeer (key : String)
  | peerGet (group key : String)
  | getterGet (key : String)
  | cacheAdd (key : String)
deriving DecidableEq

/-- The `type Group struct`. `peers` is `none` while the interface value is nil;
`events` logs, oldest first, the calls made on the cache, the picker, the peers and the
loader. -/
structure Group where
  name : String
  getter : Getter
  mainCache : cache
  peers : Option PeerPicker
  loader : singleflight.Group ByteView String
  events : List Event

/-- The pair `(ByteView, error)` a group call returns; `none` is a nil error. -/
abbrev Reply := ByteView × Option String

/-- `func NewGroup(name string, cacheBytes int64, getter Getter) *Group`; `none` is a nil
getter. The entry made in the package-level `groups` map is not part of the group. -/
def NewGroup (name : String) (cacheBytes : Int) (getter : Option Getter) : Except Fault Group :=
  match getter with
  | none => .error (.panic "nil Getter")
  | some getter =>
    .ok { name := name, getter := getter,
          mainCache := { lru := none, cacheBytes := cacheBytes, once := false },
          peers := none, loader := { m := none }, events := [] }

/-- `func (g *Group) RegisterPeers(peers PeerPicker)`; `none` is a nil picker. The
result is the group as the call leaves it and the panic that the call ends in, if it
does: the group outlives the panic, for a caller that recovers from it. -/
def Group.RegisterPeers (g : Group) (peers : Option PeerPicker) : Group × Option Fault :=
  if g.peers.isSome then (g, some (.panic "RegisterPeerPicker called more than once"))
  else ({ g with peers := peers }, none)

/-- `func (g *Group) populateCache(key string, value ByteView)`. -/
def Group.populateCache (g : Group) (key : String) (value : ByteView) : Except Fault Group :=
  match g.mainCache.add key value with
  | .error f => .error f
  | .ok c => .ok { g with mainCache := c, events := g.events ++ [Event.cacheAdd key] }

/-- `func (g *Group) getLocally(key string) (ByteView, error)`. -/
def Group.getLocally (g : Group) (key : String) : Except Fault (Group × Reply) :=
  let g1 := { g with events := g.events ++ [Event.getterGet key] }
  match g.getter key with
  | .error err => .ok (g1, (⟨""⟩, some err))
  | .ok bytes =>
    let value : ByteView := ⟨cloneBytes bytes⟩
    match g1.populateCache key value with
    | .error f => .error f
    | .ok g2 => .ok (g2, (value, none))

/-- `func (g *Group) getFromPeer(peer PeerGetter, key string) (ByteView, error)`. -/
def Group.getFromPeer (g : Group) (peer : PeerGetter) (key : String) : Group × Reply :=
  let g1 := { g with events := g.events ++ [Event.peerGet g.name key] }
  match peer g.name key with
  | .error err => (g1, (⟨""⟩, some err))
  | .ok bytes => (g1, (⟨bytes⟩, none))

/-- The function literal that `load` passes to `Do`. Its world is the group and the named
results `value, err` of `load`, which it assigns when it asks a peer. -/
def Group.load.fn (key : String) (w : Group × Reply) :
    Except Fault ((Option ByteView × Option String) × (Group × Reply)) :=
  match w.1.peers with
  | some picker =>
    let g1 := { w.1 with events := w.1.events ++ [Event.pickPeer key] }
    match picker key with
    | some peer =>
      match g1.getFromPeer peer key with
      | (g2, (value, none)) => .ok ((some value, none), (g2, (value, none)))
      | (g2, (value, some err)) =>
        match g2.getLocally key with
        | .error f => .error f
        | .ok (g3, (v, e)) => .ok ((some v, e), (g3, (value, some err)))
    | none =>
      match g1.getLocally key with
      | .error f => .error f
      | .ok (g3, (v, e)) => .ok ((some v, e), (g3, w.2))
  | none =>
    match w.1.getLocally key with
    | .error f => .error f
    | .ok (g3, (v, e)) => .ok ((some v, e), (g3, w.2))

/-- `func (g *Group) load(key string) (value ByteView, err error)`. -/
def Group.load (g : Group) (key : String) : Except Fault (Group × Reply) :=
  match singleflight.Do g.loader key (Group.load.fn key) (g, ((⟨""⟩ : ByteView), none)) with
  | .error f => .error f
  | .ok ((view, err), flight, (g', (value, _))) =>
    match err with
    | none =>
      match view with
      | some v => .ok ({ g' with loader := flight }, (v, none))
      | none => .error (.panic "interface conversion: interface is nil, not ByteView")
    | some e => .ok ({ g' with loader := flight }, (value, some e))

/-- `func (g *Group) Get(key string) (ByteView, error)`. -/
def Group.Get (g : Group) (key : String) : Except Fault (Group × Reply) :=
  if key = "" then .ok (g, (⟨""⟩, some "key is required"))
  else
    match g.mainCache.get key with
    | .error f => .error f
    | .ok (c, some v) =>
      .ok ({ g with mainCache := c, events := g.events ++ [Event.cacheGet key] }, (v, none))
    | .ok (c, none) =>
      Group.load { g with mainCache := c, events := g.events ++ [Event.cacheGet key] } key

end yolocache


/-! ## Histories of a cache and of a group, and the seed scenarios -/

namespace yolocache

/-- The zero value of `cache` with a budget, as `NewGroup` makes it. -/
def cache.zero (cacheBytes : Int) : cache := { lru := none, cacheBytes := cacheBytes, once := false }

/-- One call on a concurrent cache. -/
inductive cache.Call where
  | add (key : String) (value : ByteView)
  | get (key : String)
deriving DecidableEq

/-- Effect of one call on a concurrent cache. -/
def cache.step (c : cache) : cache.Call → Except Fault cache
  | .add key value => c.add key value
  | .get key =>
    match c.get key with
    | .error f => .error f
    | .ok (c', _) => .ok c'

/-- Effect of a finite sequence of calls on a concurrent cache, first call first. -/
def cache.run (c : cache) : List cache.Call → Except Fault cache
  | [] => .ok c
  | op :: ops =>
    match c.step op with
    | .error f => .error f
    | .ok c' => c'.run ops

/-- Whether `key` is resident in the local cache of the group. -/
def Group.cached (g : Group) (key : String) : Bool :=
  match g.mainCache.lru with
  | none => false
  | some l => decide (key ∈ l.ll.map (fun e => e.kv.key))

/-- What the peer that the picker names for `key` answers, if there is a picker and it
names one. -/
def Group.peerReply (g : Group) (key : String) : Option (Except String String) :=
  match g.peers with
  | none => none
  | some picker => (picker key).map (fun peer => peer g.name key)

/-- One call on a group. -/
inductive Call where
  | get (key : String)
  | registerPeers (peers : Option PeerPicker)

/-- Effect of one call on a group. -/
def Group.step (g : Group) : Call → Except Fault Group
  | .get key =>
    match g.Get key with
    | .error f => .error f
    | .ok (g', _) => .ok g'
  | .registerPeers peers =>
    match g.RegisterPeers peers with
    | (_, some f) => .error f
    | (g', none) => .ok g'

/-- Effect of a finite sequence of calls on a group, first call first. -/
def Group.run (g : Group) : List Call → Except Fault Group
  | [] => .ok g
  | op :: ops =>
    match g.step op with
    | .error f => .error f
    | .ok g' => g'.run ops

/-- The group that `NewGroup(name, cacheBytes, getter)` returns. -/
def freshGroup (name : String) (cacheBytes : Int) (getter : Getter) : Group :=
  { name := name, getter := getter, mainCache := cache.zero cacheBytes,
    peers := none, loader := { m := none }, events := [] }

/-- The table `db` of the group test. -/
def db : List (String × String) := [("Tom", "630"), ("Jack", "589"), ("Sam", "567")]

/-- The loader of the group test, without its counter. -/
def dbGetter : Getter := fun key =>
  match mapGet db key with
  | some v => .ok v
  | none => .error (key ++ " not exist")

/-- The group of the group test: `NewGroup("scores", 2<<10, ...)`. -/
def scores : Group := freshGroup "scores" 2048 dbGetter

/-- A peer that answers every request with the bytes "remote". -/
def peerUp : PeerGetter := fun _ _ => .ok "remote"

/-- A peer that fails every request. -/
def peerDown : PeerGetter := fun _ _ => .error "connection refused"

end yolocache

namespace lru

/-- The four insertions of the eviction-callback test. -/
def callbackOps : List Op :=
  [.add "key1" (StringValue "1234"), .add "k2" (StringValue "k2"),
    .add "k3" (StringValue "k3"), .add "k4" (StringValue "k4")]

end lru


namespace yolocache

/-- A picker that names the peer `peerUp` for every key. -/
def pickUp : PeerPicker := fun _ => some peerUp

/-- A picker that names the peer `peerDown` for every key. -/
def pickDown : PeerPicker := fun _ => some peerDown

/-- One store behind a concurrent cache with budget `cacheBytes`: the representation
invariant of the store holds, its budget is that of the cache, every value is a
ByteView, and the guard of the eviction loop is false. -/
structure StoreOK (cacheBytes : Int) (l : lru.Cache) : Prop where
  wf : lru.WF l
  budget : l.maxBytes = cacheBytes
  views : ∀ e ∈ l.ll, e.kv.value.Len = (e.kv.value.data.utf8ByteSize : Int)
  guard : ¬ (l.maxBytes ≠ 0 ∧ l.maxBytes < l.nbytes)

/-- Invariant of a concurrent cache: the store exists exactly when `once` has run, and
is as `StoreOK` says. -/
structure cache.WF (c : cache) : Prop where
  once_iff : c.once = c.lru.isSome
  store : ∀ l, c.lru = some l → StoreOK c.cacheBytes l

/-- Invariant of a group between calls: its cache is well formed, no call is in flight,
and every resident value is what the loader returns for its key. -/
structure Group.WF (g : Group) : Prop where
  cache : g.mainCache.WF
  flight : g.loader.m.getD [] = []
  loaded : ∀ l, g.mainCache.lru = some l → ∀ e ∈ l.ll, g.getter e.kv.key = .ok e.kv.value.data

end yolocache


namespace yolocache

/-- What a call leaves alone in a group: its name, its loader function, its picker and
the budget of its cache. -/
def Group.Frame (g g' : Group) : Prop :=
  g'.name = g.name ∧ g'.getter = g.getter ∧ g'.peers = g.peers ∧
    g'.mainCache.cacheBytes = g.mainCache.cacheBytes

/-- The calls on the picker and on the peer it names that a Get of `key` makes once the
local cache has missed. -/
def Group.askPeer (g : Group) (key : String) : List Event :=
  match g.peers with
  | none => []
  | some picker =>
    match picker key with
    | none => [Event.pickPeer key]
    | some _ => [Event.pickPeer key, Event.peerGet g.name key]

end yolocache


namespace yolocache

/-- The scores group with a picker registered. -/
def scoresWith (picker : PeerPicker) : Group := { scores with peers := some picker }

/-- The scores group after a sequence of calls (the scores group itself if the sequence
does not run to its end). -/
def scoresAfter (calls : List Call) : Group :=
  match scores.run calls with
  | .ok g => g
  | .error _ => scores

end yolocache


namespace lru

/-- The eviction loop as the specification words it, `while maxBytes > 0 and
usedBytes > maxBytes`, run for at most `fuel` tests of the guard. -/
def Add.evictSpec : Nat → Cache → Option Cache
  | 0, _ => none
  | fuel + 1, c =>
    if 0 < c.maxBytes ∧ c.maxBytes < c.nbytes then Add.evictSpec fuel (RemoveOldest c)
    else some c

/-- `Add` with the eviction loop as the specification words it. -/
def AddSpec (c : Cache) (key : String) (value : Value) : Option Cache :=
  let c1 := Add.upsert c key value
  Add.evictSpec (c1.ll.length + 1) c1

/-- The eviction loop of `Add` together with the number of calls to `RemoveOldest` it
has made when it stops. -/
def Add.evictCount : Nat → Cache → Option (Cache × Nat)
  | 0, _ => none
  | fuel + 1, c =>
    if c.maxBytes ≠ 0 ∧ c.maxBytes < c.nbytes then
      (Add.evictCount fuel (RemoveOldest c)).map (fun r => (r.1, r.2 + 1))
    else some (c, 0)

/-- A value that reports a size of -100. -/
def oddValue : Value := ⟨"x", -100⟩

/-- The store after `Add("a", oddValue)` on `New(10, callback)`. -/
def oddStore : Cache :=
  { maxBytes := 10, nbytes := -99, ll := [⟨0, ⟨"a", oddValue⟩⟩], cache := [("a", 0)],
    OnEvicted := true, evicted := [], nextPtr := 1 }

/-- The store after `Add("a", "12")` and `Add("b", "3")` on `New(10, callback)`. -/
def smallStore : Cache :=
  { maxBytes := 10, nbytes := 5,
    ll := [⟨1, ⟨"b", StringValue "3"⟩⟩, ⟨0, ⟨"a", StringValue "12"⟩⟩],
    cache := [("b", 1), ("a", 0)], OnEvicted := true, evicted := [], nextPtr := 2 }

end lru

namespace consistenthash

/-- Modelled from the spec: the hash injected into the ring of the seed scenario, which
reads its input bytes as a decimal number (`strconv.Atoi`); an input that is not a
string of decimal digits, which the scenario never passes, is sent to 0. -/
def decimalHash (s : String) : Nat :=
  if s.data.all Char.isDigit then s.data.foldl (fun n ch => 10 * n + (ch.toNat - 48)) 0 else 0

/-- The ring of the seed scenario: `New(3, decimalHash)` after `Add("6", "4", "2")`. -/
def seedRing : Map := Add (New 3 (some decimalHash)) ["6", "4", "2"]

/-- The hash `x` is the one a lookup of `h` lands on in a ring with hashes `l`: the
least hash that is at least `h`, or the least hash of all when none is. -/
def Picked (l : List Int) (h x : Int) : Prop :=
  x ∈ l ∧ ((h ≤ x ∧ ∀ y ∈ l, h ≤ y → x ≤ y) ∨ ((∀ y ∈ l, y < h) ∧ ∀ y ∈ l, x ≤ y))

end consistenthash


namespace lru

/-- Whether a call fits a store with budget `maxBytes`: an `Add` does when the size of
its value is not negative and the budget and the size of the entry together do not
exceed the largest `int64`; calls that pass no value do. -/
def Op.fits (maxBytes : Int) : Op → Bool
  | .add key value =>
    decide (0 ≤ value.Len ∧
      maxBytes + ((key.utf8ByteSize : Int) + value.Len) ≤ 9223372036854775807)
  | _ => true

/-- The sizes of the resident values are not negative and their sum, as an integer, is
within the budget and within `int64`. -/
def Within (c : Cache) : Prop :=
  Nonneg c ∧ liveBytes c.ll ≤ c.maxBytes ∧ liveBytes c.ll < 9223372036854775808

/-- A value whose `Len()` is the largest `int64`. -/
def hugeValue : Value := ⟨"x", 9223372036854775807⟩

/-- The store after `Add("a", hugeValue)` on `New(10, callback)`: the entry is resident
and the byte total has wrapped around to -2^63. -/
def hugeStore : Cache :=
  { maxBytes := 10, nbytes := -9223372036854775808, ll := [⟨0, ⟨"a", hugeValue⟩⟩],
    cache := [("a", 0)], OnEvicted := true, evicted := [], nextPtr := 1 }

end lru


/-! ## Association lists and element lists -/

theorem mapGet_mem {κ ν : Type} [DecidableEq κ] {m : List (κ × ν)} {k : κ} {v : ν}
    (h : mapGet m k = some v) : (k, v) ∈ m := by
  induction m with
  | nil => simp [mapGet] at h
  | cons a rest ih =>
    obtain ⟨k', v'⟩ := a
    simp only [mapGet] at h
    split at h
    · rename_i hk
      simp only [Option.some.injEq] at h
      subst hk; subst h
      exact List.mem_cons_self _ _
    · exact List.mem_cons_of_mem _ (ih h)

theorem mapGet_eq_none_iff {κ ν : Type} [DecidableEq κ] {m : List (κ × ν)} {k : κ} :
    mapGet m k = none ↔ k ∉ m.map Prod.fst := by
  induction m with
  | nil => simp [mapGet]
  | cons a rest ih =>
    obtain ⟨k', v'⟩ := a
    simp only [mapGet, List.map_cons, List.mem_cons, not_or]
    split
    · rename_i hk
      simp [hk]
    · rename_i hk
      rw [ih]
      constructor
      · intro h
        exact ⟨fun e => hk e.symm, h⟩
      · intro h
        exact h.2

theorem mapGet_of_mem {κ ν : Type} [DecidableEq κ] {m : List (κ × ν)} {k : κ} {v : ν}
    (nd : (m.map Prod.fst).Nodup) (h : (k, v) ∈ m) : mapGet m k = some v := by
  induction m with
  | nil => simp at h
  | cons a rest ih =>
    obtain ⟨k', v'⟩ := a
    simp only [List.map_cons, List.nodup_cons] at nd
    simp only [mapGet]
    rcases List.mem_cons.1 h with h | h
    · simp only [Prod.mk.injEq] at h
      simp [h.1, h.2]
    · have hne : k' ≠ k := by
        intro e
        apply nd.1
        rw [e]
        exact List.mem_map_of_mem Prod.fst h
      simp only [hne, if_false]
      exact ih nd.2 h

namespace lru

theorem find_ptr_of_mem {l : List Element} {e : Element}
    (nd : (l.map Element.ptr).Nodup) (h : e ∈ l) :
    l.find? (fun x => decide (x.ptr = e.ptr)) = some e := by
  induction l with
  | nil => simp at h
  | cons a rest ih =>
    simp only [List.map_cons, List.nodup_cons] at nd
    rcases List.mem_cons.1 h with h | h
    · subst h
      simp
    · have hne : a.ptr ≠ e.ptr := by
        intro e'
        apply nd.1
        rw [e']
        exact List.mem_map_of_mem Element.ptr h
      simp only [List.find?_cons, hne, decide_False]
      exact ih nd.2 h

theorem filter_ptr_eq_self {l : List Element} {p : Nat}
    (h : p ∉ l.map Element.ptr) : l.filter (fun x => decide (x.ptr ≠ p)) = l := by
  rw [List.filter_eq_self]
  intro a ha
  simp only [ne_eq, decide_eq_true_eq]
  intro e
  exact h (e ▸ List.mem_map_of_mem Element.ptr ha)

theorem perm_cons_filter_ptr {l : List Element} {e : Element}
    (nd : (l.map Element.ptr).Nodup) (h : e ∈ l) :
    (e :: l.filter (fun x => decide (x.ptr ≠ e.ptr))).Perm l := by
  induction l with
  | nil => simp at h
  | cons a rest ih =>
    simp only [List.map_cons, List.nodup_cons] at nd
    rcases List.mem_cons.1 h with h | h
    · subst h
      simp only [ne_eq, not_true_eq_false, decide_False, Bool.false_eq_true,
        not_false_eq_true, List.filter_cons_of_neg]
      rw [filter_ptr_eq_self nd.1]
    · have hne : a.ptr ≠ e.ptr := by
        intro e'
        apply nd.1
        rw [e']
        exact List.mem_map_of_mem Element.ptr h
      have : (a :: rest).filter (fun x => decide (x.ptr ≠ e.ptr))
          = a :: rest.filter (fun x => decide (x.ptr ≠ e.ptr)) := by
        simp [hne]
      rw [this]
      exact (List.Perm.swap a e _).trans ((ih nd.2 h).cons a)

theorem filter_ptr_eq_filter_key {l : List Element} {e : Element}
    (ndp : (l.map Element.ptr).Nodup) (ndk : (l.map (fun x => x.kv.key)).Nodup) (h : e ∈ l) :
    l.filter (fun x => decide (x.ptr ≠ e.ptr)) = l.filter (fun x => decide (x.kv.key ≠ e.kv.key)) := by
  apply List.filter_congr
  intro x hx
  have h1 : x.ptr = e.ptr → x = e := fun hp =>
    List.inj_on_of_nodup_map ndp hx h hp
  have h2 : x.kv.key = e.kv.key → x = e := fun hk =>
    List.inj_on_of_nodup_map ndk hx h hk
  by_cases hxe : x = e
  · subst hxe
    simp
  · have a1 : x.ptr ≠ e.ptr := fun hp => hxe (h1 hp)
    have a2 : x.kv.key ≠ e.kv.key := fun hk => hxe (h2 hk)
    simp [a1, a2]

theorem filter_ptr_getLast {l : List Element} {e : Element}
    (nd : (l.map Element.ptr).Nodup) (h : l.getLast? = some e) :
    l.filter (fun x => decide (x.ptr ≠ e.ptr)) = l.dropLast := by
  obtain ⟨init, rfl⟩ : ∃ init, l = init ++ [e] := by
    rcases List.eq_nil_or_concat l with h0 | ⟨init, a, h1⟩
    · subst h0
      simp at h
    · subst h1
      simp only [List.concat_eq_append, List.getLast?_append, List.getLast?_singleton,
        Option.or, Option.some.injEq] at h
      subst h
      exact ⟨init, by simp⟩
  simp only [List.map_append, List.map_cons, List.map_nil] at nd
  have hnot : e.ptr ∉ init.map Element.ptr := by
    intro hm
    have := List.disjoint_of_nodup_append nd hm
    simp at this
  rw [List.filter_append, filter_ptr_eq_self hnot]
  simp

/-! ### The representation invariant is kept by every call -/

theorem wrap64_of_range {x : Int} (h1 : -9223372036854775808 ≤ x)
    (h2 : x < 9223372036854775808) : wrap64 x = x := by
  unfold wrap64
  omega

theorem wrap64_range (x : Int) :
    -9223372036854775808 ≤ wrap64 x ∧ wrap64 x < 9223372036854775808 := by
  unfold wrap64
  omega

theorem wrap64_zero : wrap64 0 = 0 := by decide

theorem wrap64_le_self {x : Int} (h : 0 ≤ x) : wrap64 x ≤ x := by
  unfold wrap64
  omega

theorem WF_New (maxBytes : Int) (cb : Bool) : WF (New maxBytes cb) := by
  constructor <;> simp [New, liveBytes, wrap64_zero]

theorem WF.of_perm {c c' : Cache} (wf : WF c) (hp : c'.ll.Perm c.ll)
    (hc : c'.cache = c.cache) (hn : c'.nbytes = c.nbytes) (hx : c'.nextPtr = c.nextPtr) :
    WF c' := by
  constructor
  · exact ((hp.map Element.ptr).nodup_iff).2 wf.ptrNodup
  · exact ((hp.map _).nodup_iff).2 wf.keyNodup
  · rw [hc]
    exact wf.index.trans (hp.map indexPair).symm
  · intro e he
    rw [hx]
    exact wf.fresh e (hp.subset he)
  · rw [hn, wf.bytes]
    unfold liveBytes
    rw [(hp.map (fun e => entrySize e.kv)).sum_eq]

theorem WF.index_keys_nodup {c : Cache} (wf : WF c) : (c.cache.map Prod.fst).Nodup := by
  have h := (wf.index.map Prod.fst).nodup_iff
  rw [h, List.map_map]
  exact wf.keyNodup

theorem WF.mapGet_some {c : Cache} (wf : WF c) {key : String} {p : Nat}
    (h : mapGet c.cache key = some p) : ∃ e ∈ c.ll, e.kv.key = key ∧ e.ptr = p := by
  have hm := wf.index.subset (mapGet_mem h)
  rcases List.mem_map.1 hm with ⟨e, he, hpair⟩
  simp only [indexPair, Prod.mk.injEq] at hpair
  exact ⟨e, he, hpair.1, hpair.2⟩

theorem WF.index_of_mem {c : Cache} (wf : WF c) {e : Element} (he : e ∈ c.ll) :
    mapGet c.cache e.kv.key = some e.ptr := by
  apply YoloCache.mapGet_of_mem wf.index_keys_nodup
  exact wf.index.symm.subset (List.mem_map_of_mem indexPair he)

theorem WF.mapGet_none {c : Cache} (wf : WF c) {key : String} :
    mapGet c.cache key = none ↔ key ∉ c.ll.map (fun e => e.kv.key) := by
  rw [mapGet_eq_none_iff]
  have h := (wf.index.map Prod.fst).mem_iff (a := key)
  rw [List.map_map] at h
  exact not_congr h

theorem WF.deref {c : Cache} (wf : WF c) {e : Element} (he : e ∈ c.ll) :
    deref c.ll e.ptr = some e.kv := by
  simp [lru.deref, find_ptr_of_mem wf.ptrNodup he]

theorem WF.moveToFront {c : Cache} (wf : WF c) {e : Element} (he : e ∈ c.ll) :
    MoveToFront c.ll e.ptr = e :: c.ll.filter (fun x => decide (x.kv.key ≠ e.kv.key)) := by
  simp only [MoveToFront, find_ptr_of_mem wf.ptrNodup he]
  rw [filter_ptr_eq_filter_key wf.ptrNodup wf.keyNodup he]

/-- Get on a live key: the entry comes to the front, nothing else changes. -/
theorem Get_live {c : Cache} (wf : WF c) {e : Element} (he : e ∈ c.ll) :
    Get c e.kv.key =
      ({ c with ll := e :: c.ll.filter (fun x => decide (x.kv.key ≠ e.kv.key)) },
        some e.kv.value) := by
  simp only [Get, wf.index_of_mem he, wf.deref he, wf.moveToFront he]

/-- Get on a key that is not live: a miss, the store is untouched. -/
theorem Get_miss {c : Cache} (wf : WF c) {key : String}
    (h : key ∉ c.ll.map (fun e => e.kv.key)) : Get c key = (c, none) := by
  simp only [Get, wf.mapGet_none.2 h]

theorem perm_cons_filter_key {c : Cache} (wf : WF c) {e : Element} (he : e ∈ c.ll) :
    (e :: c.ll.filter (fun x => decide (x.kv.key ≠ e.kv.key))).Perm c.ll := by
  rw [← filter_ptr_eq_filter_key wf.ptrNodup wf.keyNodup he]
  exact perm_cons_filter_ptr wf.ptrNodup he

theorem WF_Get {c : Cache} (wf : WF c) (key : String) : WF (Get c key).1 := by
  by_cases h : key ∈ c.ll.map (fun e => e.kv.key)
  · rcases List.mem_map.1 h with ⟨e, he, hk⟩
    subst hk
    rw [Get_live wf he]
    exact wf.of_perm (perm_cons_filter_key wf he) rfl rfl rfl
  · rw [Get_miss wf h]
    exact wf

theorem RemoveOldest_nil {c : Cache} (h : c.ll = []) : RemoveOldest c = c := by
  simp [RemoveOldest, Back, h]

/-- RemoveOldest on a non-empty store drops the back element and its index entry. -/
theorem RemoveOldest_concat {c : Cache} (wf : WF c) {init : List Element} {e : Element}
    (h : c.ll = init ++ [e]) :
    RemoveOldest c =
      { c with
        ll := init
        cache := mapDelete c.cache e.kv.key
        nbytes := wrap64 (c.nbytes - entryBytes e.kv)
        evicted := if c.OnEvicted then c.evicted ++ [e.kv] else c.evicted
        seen :=
          if c.OnEvicted then
            c.seen ++ [⟨init, mapDelete c.cache e.kv.key, wrap64 (c.nbytes - entryBytes e.kv)⟩]
          else c.seen } := by
  have hb : Back c.ll = some e := by simp [Back, h]
  have hr : Remove c.ll e.ptr = init := by
    unfold Remove
    rw [filter_ptr_getLast wf.ptrNodup hb, h]
    simp
  simp only [RemoveOldest, RemoveOldest.notify, hb, hr]

theorem filter_indexPair (l : List Element) (key : String) :
    (l.map indexPair).filter (fun p => decide (p.1 ≠ key))
      = (l.filter (fun x => decide (x.kv.key ≠ key))).map indexPair := by
  induction l with
  | nil => rfl
  | cons a rest ih =>
    by_cases hk : a.kv.key = key
    · simp [indexPair, hk] at ih ⊢
      exact ih
    · simp [indexPair, hk] at ih ⊢
      exact ih

theorem liveBytes_append (l₁ l₂ : List Element) :
    liveBytes (l₁ ++ l₂) = liveBytes l₁ + liveBytes l₂ := by
  simp [liveBytes]

theorem liveBytes_cons (e : Element) (l : List Element) :
    liveBytes (e :: l) = entrySize e.kv + liveBytes l := by
  simp [liveBytes]

theorem WF_RemoveOldest {c : Cache} (wf : WF c) : WF (RemoveOldest c) := by
  rcases List.eq_nil_or_concat c.ll with h | ⟨init, e, h⟩
  · rw [RemoveOldest_nil h]
    exact wf
  · rw [List.concat_eq_append] at h
    rw [RemoveOldest_concat wf h]
    have he : e ∈ c.ll := by simp [h]
    have hfilter : c.ll.filter (fun x => decide (x.kv.key ≠ e.kv.key)) = init := by
      rw [← filter_ptr_eq_filter_key wf.ptrNodup wf.keyNodup he,
        filter_ptr_getLast wf.ptrNodup (by simp [h]), h]
      simp
    have hsub : init.Sublist c.ll := by
      rw [h]
      exact List.sublist_append_left init [e]
    constructor
    · exact (hsub.map Element.ptr).nodup wf.ptrNodup
    · exact (hsub.map _).nodup wf.keyNodup
    · show (mapDelete c.cache e.kv.key).Perm (init.map indexPair)
      unfold mapDelete
      have := wf.index.filter (fun p => decide (p.1 ≠ e.kv.key))
      rw [filter_indexPair, hfilter] at this
      exact this
    · intro x hx
      exact wf.fresh x (hsub.subset hx)
    · show wrap64 (c.nbytes - entryBytes e.kv) = wrap64 (liveBytes init)
      rw [wf.bytes, h, liveBytes_append]
      simp only [liveBytes, List.map_cons, List.map_nil, List.sum_cons, List.sum_nil,
        entryBytes, entrySize, wrap64]
      omega

/-- The first half of Add on a live key: the value is replaced in place, the entry
comes to the front and the total moves by the difference of the two sizes. -/
theorem upsert_live {c : Cache} (wf : WF c) {e : Element} (he : e ∈ c.ll) (value : Value) :
    Add.upsert c e.kv.key value =
      { c with
        ll := ⟨e.ptr, ⟨e.kv.key, value⟩⟩ :: c.ll.filter (fun x => decide (x.kv.key ≠ e.kv.key))
        nbytes := wrap64 (c.nbytes + wrap64 (value.Len - e.kv.value.Len)) } := by
  have hset : setValue (e :: c.ll.filter (fun x => decide (x.kv.key ≠ e.kv.key))) e.ptr value
      = ⟨e.ptr, ⟨e.kv.key, value⟩⟩ :: c.ll.filter (fun x => decide (x.kv.key ≠ e.kv.key)) := by
    rw [← filter_ptr_eq_filter_key wf.ptrNodup wf.keyNodup he]
    simp only [setValue, List.map_cons, if_true, List.cons.injEq, true_and]
    conv_rhs => rw [← List.map_id (c.ll.filter (fun x => decide (x.ptr ≠ e.ptr)))]
    apply List.map_congr_left
    intro a ha
    have := (List.mem_filter.1 ha).2
    simp only [ne_eq, decide_eq_true_eq] at this
    simp [this]
  simp only [Add.upsert, wf.index_of_mem he, wf.deref he, wf.moveToFront he, hset]

/-- The first half of Add on a key that is not live: a new entry at the front. -/
theorem upsert_new {c : Cache} (wf : WF c) {key : String}
    (h : key ∉ c.ll.map (fun e => e.kv.key)) (value : Value) :
    Add.upsert c key value =
      { c with
        ll := ⟨c.nextPtr, ⟨key, value⟩⟩ :: c.ll
        cache := (key, c.nextPtr) :: c.cache
        nbytes := wrap64 (c.nbytes + entryBytes ⟨key, value⟩)
        nextPtr := c.nextPtr + 1 } := by
  have hnone := wf.mapGet_none.2 h
  have hdel : mapDelete c.cache key = c.cache := by
    unfold mapDelete
    rw [List.filter_eq_self]
    intro a ha
    simp only [ne_eq, decide_eq_true_eq]
    intro hk
    exact (mapGet_eq_none_iff.1 hnone) (hk ▸ List.mem_map_of_mem Prod.fst ha)
  simp only [Add.upsert, hnone, PushFront, mapSet, hdel]

theorem WF_upsert {c : Cache} (wf : WF c) (key : String) (value : Value) :
    WF (Add.upsert c key value) := by
  by_cases h : key ∈ c.ll.map (fun e => e.kv.key)
  · rcases List.mem_map.1 h with ⟨e, he, hk⟩
    subst hk
    rw [upsert_live wf he]
    have hp := perm_cons_filter_key wf he
    have h1 := (hp.map Element.ptr).nodup_iff.2 wf.ptrNodup
    have h2 := (hp.map (fun x => x.kv.key)).nodup_iff.2 wf.keyNodup
    have h3 := wf.index.trans (hp.map indexPair).symm
    have h5 : liveBytes c.ll
        = entrySize e.kv + liveBytes (c.ll.filter (fun x => decide (x.kv.key ≠ e.kv.key))) := by
      rw [← liveBytes_cons]
      unfold liveBytes
      exact ((hp.map (fun e => entrySize e.kv)).sum_eq).symm
    constructor
    · simpa using h1
    · simpa using h2
    · simpa [indexPair] using h3
    · intro x hx
      rcases List.mem_cons.1 hx with hx | hx
      · subst hx
        exact wf.fresh e he
      · exact wf.fresh x (List.mem_of_mem_filter hx)
    · show wrap64 (c.nbytes + wrap64 (value.Len - e.kv.value.Len)) = wrap64 (liveBytes (_ :: _))
      rw [liveBytes_cons, wf.bytes, h5]
      simp only [entrySize, wrap64]
      omega
  · rw [upsert_new wf h]
    constructor
    · simp only [List.map_cons, List.nodup_cons]
      refine ⟨?_, wf.ptrNodup⟩
      intro hm
      rcases List.mem_map.1 hm with ⟨x, hx, hxp⟩
      have := wf.fresh x hx
      omega
    · simp only [List.map_cons, List.nodup_cons]
      exact ⟨h, wf.keyNodup⟩
    · simp only [List.map_cons, indexPair]
      exact wf.index.cons _
    · intro x hx
      rcases List.mem_cons.1 hx with hx | hx
      · subst hx
        simp
      · have := wf.fresh x hx
        show x.ptr < c.nextPtr + 1
        omega
    · show wrap64 (c.nbytes + entryBytes ⟨key, value⟩) = wrap64 (liveBytes (_ :: _))
      rw [liveBytes_cons, wf.bytes]
      simp only [entryBytes, entrySize, wrap64]
      omega

theorem WF_evict (fuel : Nat) {c c' : Cache} (wf : WF c) (h : Add.evict fuel c = some c') :
    WF c' := by
  induction fuel generalizing c with
  | zero => simp [Add.evict] at h
  | succ n ih =>
    simp only [Add.evict] at h
    split at h
    · exact ih (WF_RemoveOldest wf) h
    · simp only [Option.some.injEq] at h
      exact h ▸ wf

theorem WF_Add {c c' : Cache} (wf : WF c) {key : String} {value : Value}
    (h : Add c key value = some c') : WF c' :=
  WF_evict _ (WF_upsert wf key value) h

theorem WF_step {c c' : Cache} (wf : WF c) {op : Op} (h : step c op = some c') : WF c' := by
  cases op with
  | add key value => exact WF_Add wf h
  | get key =>
    simp only [step, Option.some.injEq] at h
    exact h ▸ WF_Get wf key
  | removeOldest =>
    simp only [step, Option.some.injEq] at h
    exact h ▸ WF_RemoveOldest wf

theorem WF_run {c c' : Cache} (wf : WF c) {ops : List Op} (h : run c ops = some c') : WF c' := by
  induction ops generalizing c with
  | nil =>
    simp only [run, Option.some.injEq] at h
    exact h ▸ wf
  | cons op ops ih =>
    simp only [run] at h
    cases hs : step c op with
    | none => simp [hs] at h
    | some c1 =>
      rw [hs] at h
      exact ih (WF_step wf hs) h

/-! ### The eviction loop: fuel and termination -/

theorem RemoveOldest_length_lt {c : Cache} (h : c.ll ≠ []) :
    (RemoveOldest c).ll.length < c.ll.length := by
  rcases List.eq_nil_or_concat c.ll with h0 | ⟨init, e, h1⟩
  · exact absurd h0 h
  · have hb : Back c.ll = some e := by simp [Back, h1]
    simp only [RemoveOldest, hb, Remove]
    have hlt : ∃ x ∈ c.ll, ¬ (decide (x.ptr ≠ e.ptr) = true) := ⟨e, by simp [h1], by simp⟩
    exact List.length_filter_lt_length_iff_exists.2 hlt

theorem evict_spin {c : Cache} (h : c.ll = []) (g : c.maxBytes ≠ 0 ∧ c.maxBytes < c.nbytes)
    (fuel : Nat) : Add.evict fuel c = none := by
  induction fuel with
  | zero => rfl
  | succ n ih =>
    simp only [Add.evict]
    rw [if_pos g, RemoveOldest_nil h, ih]

theorem evict_stable (k : Nat) : ∀ (c : Cache) (n m : Nat), c.ll.length ≤ k → k < n → k < m →
    Add.evict n c = Add.evict m c := by
  induction k with
  | zero =>
    intro c n m hk hn hm
    have hnil : c.ll = [] := List.length_eq_zero.1 (Nat.le_zero.1 hk)
    obtain ⟨n', rfl⟩ : ∃ n', n = n' + 1 := ⟨n - 1, by omega⟩
    obtain ⟨m', rfl⟩ : ∃ m', m = m' + 1 := ⟨m - 1, by omega⟩
    simp only [Add.evict]
    split
    · rename_i g
      rw [RemoveOldest_nil hnil, evict_spin hnil g, evict_spin hnil g]
    · rfl
  | succ k ih =>
    intro c n m hk hn hm
    obtain ⟨n', rfl⟩ : ∃ n', n = n' + 1 := ⟨n - 1, by omega⟩
    obtain ⟨m', rfl⟩ : ∃ m', m = m' + 1 := ⟨m - 1, by omega⟩
    simp only [Add.evict]
    split
    · rename_i g
      by_cases hnil : c.ll = []
      · rw [RemoveOldest_nil hnil, evict_spin hnil g, evict_spin hnil g]
      · have := RemoveOldest_length_lt hnil
        exact ih (RemoveOldest c) n' m' (by omega) (by omega) (by omega)
    · rfl

/-- More fuel than the loop of `Add` is given never changes what the loop returns: the
loop either stops within one test of the guard per element and one more, or never. -/
theorem evict_fuel_irrelevant (c : Cache) (n : Nat) (h : c.ll.length + 1 ≤ n) :
    Add.evict n c = Add.evict (c.ll.length + 1) c :=
  evict_stable c.ll.length c n (c.ll.length + 1) (Nat.le_refl _) (by omega) (by omega)

theorem RemoveOldest_maxBytes (c : Cache) : (RemoveOldest c).maxBytes = c.maxBytes := by
  unfold RemoveOldest
  split <;> rfl

theorem RemoveOldest_OnEvicted (c : Cache) : (RemoveOldest c).OnEvicted = c.OnEvicted := by
  unfold RemoveOldest
  split <;> rfl

theorem upsert_maxBytes (c : Cache) (key : String) (value : Value) :
    (Add.upsert c key value).maxBytes = c.maxBytes := by
  unfold Add.upsert
  split
  · split <;> rfl
  · rfl

theorem Get_maxBytes (c : Cache) (key : String) : (Get c key).1.maxBytes = c.maxBytes := by
  unfold Get
  split
  · split <;> rfl
  · rfl

theorem evict_maxBytes (fuel : Nat) {c c' : Cache} (h : Add.evict fuel c = some c') :
    c'.maxBytes = c.maxBytes := by
  induction fuel generalizing c with
  | zero => simp [Add.evict] at h
  | succ n ih =>
    simp only [Add.evict] at h
    split at h
    · rw [ih h, RemoveOldest_maxBytes]
    · simp only [Option.some.injEq] at h
      rw [← h]

theorem step_maxBytes {c c' : Cache} {op : Op} (h : step c op = some c') :
    c'.maxBytes = c.maxBytes := by
  cases op with
  | add key value =>
    simp only [step, Add] at h
    rw [evict_maxBytes _ h, upsert_maxBytes]
  | get key =>
    simp only [step, Option.some.injEq] at h
    rw [← h, Get_maxBytes]
  | removeOldest =>
    simp only [step, Option.some.injEq] at h
    rw [← h, RemoveOldest_maxBytes]

/-- With a budget that is not negative the loop of `Add` stops: an empty store has zero
bytes. -/
theorem evict_terminates (k : Nat) : ∀ (c : Cache), WF c → 0 ≤ c.maxBytes → c.ll.length = k →
    ∃ c', Add.evict (k + 1) c = some c' := by
  induction k with
  | zero =>
    intro c wf h0 hk
    have hnil : c.ll = [] := List.length_eq_zero.1 hk
    have hb : c.nbytes = 0 := by rw [wf.bytes, hnil]; exact wrap64_zero
    simp only [Add.evict]
    split
    · rename_i g
      omega
    · exact ⟨c, rfl⟩
  | succ k ih =>
    intro c wf h0 hk
    simp only [Add.evict]
    split
    · rcases List.eq_nil_or_concat c.ll with h | ⟨init, e, h⟩
      · rw [h] at hk
        simp at hk
      · rw [List.concat_eq_append] at h
        have hlen : (RemoveOldest c).ll.length = k := by
          rw [RemoveOldest_concat wf h]
          rw [h] at hk
          simpa using hk
        exact ih (RemoveOldest c) (WF_RemoveOldest wf) (by rw [RemoveOldest_maxBytes]; exact h0) hlen
    · exact ⟨c, rfl⟩

theorem Add_terminates {c : Cache} (wf : WF c) (h0 : 0 ≤ c.maxBytes) (key : String)
    (value : Value) : ∃ c', Add c key value = some c' :=
  evict_terminates _ _ (WF_upsert wf key value) (by rw [upsert_maxBytes]; exact h0) rfl

theorem step_terminates {c : Cache} (wf : WF c) (h0 : 0 ≤ c.maxBytes) (op : Op) :
    ∃ c', step c op = some c' := by
  cases op with
  | add key value => exact Add_terminates wf h0 key value
  | get key => exact ⟨_, rfl⟩
  | removeOldest => exact ⟨_, rfl⟩

theorem run_terminates {c : Cache} (wf : WF c) (h0 : 0 ≤ c.maxBytes) (ops : List Op) :
    ∃ c', run c ops = some c' := by
  induction ops generalizing c with
  | nil => exact ⟨c, rfl⟩
  | cons op ops ih =>
    obtain ⟨c1, h1⟩ := step_terminates wf h0 op
    obtain ⟨c2, h2⟩ := ih (WF_step wf h1) (by rw [step_maxBytes h1]; exact h0)
    exact ⟨c2, by simp [run, h1, h2]⟩

/-! ### Budget -/

theorem RemoveOldest_sublist (c : Cache) : (RemoveOldest c).ll.Sublist c.ll := by
  unfold RemoveOldest
  split
  · exact List.filter_sublist _
  · exact List.Sublist.refl _

theorem evict_sublist (fuel : Nat) {c c' : Cache} (h : Add.evict fuel c = some c') :
    c'.ll.Sublist c.ll := by
  induction fuel generalizing c with
  | zero => simp [Add.evict] at h
  | succ n ih =>
    simp only [Add.evict] at h
    split at h
    · exact (ih h).trans (RemoveOldest_sublist c)
    · simp only [Option.some.injEq] at h
      rw [← h]

theorem evict_guard (fuel : Nat) {c c' : Cache} (h : Add.evict fuel c = some c') :
    ¬ (c'.maxBytes ≠ 0 ∧ c'.maxBytes < c'.nbytes) := by
  induction fuel generalizing c with
  | zero => simp [Add.evict] at h
  | succ n ih =>
    simp only [Add.evict] at h
    split at h
    · exact ih h
    · rename_i g
      simp only [Option.some.injEq] at h
      rw [← h]
      exact g

theorem entrySize_nonneg {kv : entry} (h : 0 ≤ kv.value.Len) : 0 ≤ entrySize kv := by
  unfold entrySize
  have : (0 : Int) ≤ (kv.key.utf8ByteSize : Int) := Int.ofNat_nonneg _
  omega

theorem liveBytes_nonneg {l : List Element} (h : ∀ e ∈ l, 0 ≤ e.kv.value.Len) :
    0 ≤ liveBytes l := by
  induction l with
  | nil => simp [liveBytes]
  | cons e rest ih =>
    rw [liveBytes_cons]
    have h1 := entrySize_nonneg (h e (List.mem_cons_self _ _))
    have h2 := ih (fun x hx => h x (List.mem_cons_of_mem _ hx))
    omega

theorem liveBytes_sublist_le {l l' : List Element} (h : l'.Sublist l)
    (nn : ∀ e ∈ l, 0 ≤ e.kv.value.Len) : liveBytes l' ≤ liveBytes l := by
  induction h with
  | slnil => exact le_refl _
  | cons a _ ih =>
    rw [liveBytes_cons]
    have h1 := entrySize_nonneg (nn a (List.mem_cons_self _ _))
    have h2 := ih (fun x hx => nn x (List.mem_cons_of_mem _ hx))
    omega
  | cons₂ a _ ih =>
    rw [liveBytes_cons, liveBytes_cons]
    have h2 := ih (fun x hx => nn x (List.mem_cons_of_mem _ hx))
    omega

theorem liveBytes_perm {l l' : List Element} (h : l'.Perm l) : liveBytes l' = liveBytes l := by
  unfold liveBytes
  exact (h.map (fun e => entrySize e.kv)).sum_eq

theorem WF.nbytes_range {c : Cache} (wf : WF c) :
    -9223372036854775808 ≤ c.nbytes ∧ c.nbytes < 9223372036854775808 := by
  rw [wf.bytes]
  exact wrap64_range _

theorem Nonneg_upsert {c : Cache} (wf : WF c) (nn : Nonneg c) (key : String) {value : Value}
    (hv : 0 ≤ value.Len) : Nonneg (Add.upsert c key value) := by
  by_cases h : key ∈ c.ll.map (fun e => e.kv.key)
  · rcases List.mem_map.1 h with ⟨e, he, hk⟩
    subst hk
    rw [upsert_live wf he]
    intro x hx
    rcases List.mem_cons.1 hx with hx | hx
    · subst hx
      exact hv
    · exact nn x (List.mem_of_mem_filter hx)
  · rw [upsert_new wf h]
    intro x hx
    rcases List.mem_cons.1 hx with hx | hx
    · subst hx
      exact hv
    · exact nn x hx

theorem Nonneg_Get {c : Cache} (wf : WF c) (nn : Nonneg c) (key : String) :
    Nonneg (Get c key).1 := by
  by_cases h : key ∈ c.ll.map (fun e => e.kv.key)
  · rcases List.mem_map.1 h with ⟨e, he, hk⟩
    subst hk
    rw [Get_live wf he]
    intro x hx
    exact nn x ((perm_cons_filter_key wf he).subset hx)
  · rw [Get_miss wf h]
    exact nn

theorem Get_nbytes {c : Cache} (key : String) : (Get c key).1.nbytes = c.nbytes := by
  unfold Get
  split
  · split <;> rfl
  · rfl

theorem Get_liveBytes {c : Cache} (wf : WF c) (key : String) :
    liveBytes (Get c key).1.ll = liveBytes c.ll := by
  by_cases h : key ∈ c.ll.map (fun e => e.kv.key)
  · rcases List.mem_map.1 h with ⟨e, he, hk⟩
    subst hk
    rw [Get_live wf he]
    exact liveBytes_perm (perm_cons_filter_key wf he)
  · rw [Get_miss wf h]

/-- The sum of the sizes after the first half of Add: the new entry is added, and on a
live key the old entry of the key is taken off. -/
theorem upsert_liveBytes {c : Cache} (wf : WF c) (key : String) (value : Value) :
    liveBytes (Add.upsert c key value).ll
      = entrySize ⟨key, value⟩
        + liveBytes (c.ll.filter (fun x => decide (x.kv.key ≠ key))) := by
  by_cases h : key ∈ c.ll.map (fun e => e.kv.key)
  · rcases List.mem_map.1 h with ⟨e, he, hk⟩
    subst hk
    rw [upsert_live wf he, liveBytes_cons]
  · rw [upsert_new wf h, liveBytes_cons]
    have hf : c.ll.filter (fun x => decide (x.kv.key ≠ key)) = c.ll := by
      rw [List.filter_eq_self]
      intro x hx
      have : x.kv.key ≠ key := fun hxk => h (List.mem_map.mpr ⟨x, hx, hxk⟩)
      simpa using this
    rw [hf]

theorem upsert_liveBytes_le {c : Cache} (wf : WF c) (nn : Nonneg c) (key : String)
    (value : Value) :
    liveBytes (Add.upsert c key value).ll ≤ liveBytes c.ll + entrySize ⟨key, value⟩ := by
  rw [upsert_liveBytes wf]
  have := liveBytes_sublist_le
    (List.filter_sublist (p := fun x => decide (x.kv.key ≠ key)) c.ll) nn
  omega

theorem Within.nbytes {c : Cache} (wf : WF c) (w : Within c) : c.nbytes = liveBytes c.ll := by
  rw [wf.bytes]
  have h0 := liveBytes_nonneg w.1
  exact wrap64_of_range (by omega) w.2.2

/-- The loop of Add on a store whose sizes are not negative and sum to less than 2^63:
no subtraction wraps, and the loop stops within the budget. -/
theorem evict_within (fuel : Nat) {c c' : Cache} (wf : WF c) (nn : Nonneg c)
    (hlt : liveBytes c.ll < 9223372036854775808) (hm : 0 < c.maxBytes)
    (h : Add.evict fuel c = some c') : Within c' := by
  have hsub := evict_sublist _ h
  have nn' : Nonneg c' := fun e he => nn e (hsub.subset he)
  have hle := liveBytes_sublist_le hsub nn
  have h0 := liveBytes_nonneg nn'
  have wf' := WF_evict _ wf h
  have hg := evict_guard _ h
  have hmb := evict_maxBytes _ h
  have hnb : c'.nbytes = liveBytes c'.ll := by
    rw [wf'.bytes]
    exact wrap64_of_range (by omega) (by omega)
  refine ⟨nn', ?_, by omega⟩
  by_contra hgt
  exact hg ⟨by omega, by omega⟩

theorem Within_step {c c' : Cache} (wf : WF c) (w : Within c) (hm : 0 < c.maxBytes)
    {op : Op} (hop : op.fits c.maxBytes = true) (h : step c op = some c') : Within c' := by
  cases op with
  | add key value =>
    simp only [Op.fits, decide_eq_true_eq] at hop
    have hev : Add.evict ((Add.upsert c key value).ll.length + 1) (Add.upsert c key value)
        = some c' := h
    have hle := upsert_liveBytes_le wf w.1 key value
    have hs : entrySize ⟨key, value⟩ = (key.utf8ByteSize : Int) + value.Len := rfl
    exact evict_within _ (WF_upsert wf key value) (Nonneg_upsert wf w.1 key hop.1)
      (by have := w.2.1; omega) (by rw [upsert_maxBytes]; exact hm) hev
  | get key =>
    simp only [step, Option.some.injEq] at h
    subst h
    refine ⟨Nonneg_Get wf w.1 key, ?_, ?_⟩
    · rw [Get_liveBytes wf, Get_maxBytes]
      exact w.2.1
    · rw [Get_liveBytes wf]
      exact w.2.2
  | removeOldest =>
    simp only [step, Option.some.injEq] at h
    subst h
    have hle := liveBytes_sublist_le (RemoveOldest_sublist c) w.1
    refine ⟨fun x hx => w.1 x ((RemoveOldest_sublist c).subset hx), ?_, ?_⟩
    · rw [RemoveOldest_maxBytes]
      have := w.2.1
      omega
    · have := w.2.2
      omega

theorem Within_run {c c' : Cache} (wf : WF c) (w : Within c) (hm : 0 < c.maxBytes)
    {ops : List Op} (hops : ∀ op ∈ ops, op.fits c.maxBytes = true)
    (h : run c ops = some c') : Within c' := by
  induction ops generalizing c with
  | nil =>
    simp only [run, Option.some.injEq] at h
    exact h ▸ w
  | cons op ops ih =>
    simp only [run] at h
    cases hs : step c op with
    | none => simp [hs] at h
    | some c1 =>
      rw [hs] at h
      have hop := hops op (List.mem_cons_self _ _)
      have hmb := step_maxBytes hs
      exact ih (WF_step wf hs) (Within_step wf w hm hop hs) (by rw [hmb]; exact hm)
        (fun o ho => by rw [hmb]; exact hops o (List.mem_cons_of_mem _ ho)) h

theorem Within_New (maxBytes : Int) (cb : Bool) (hm : 0 < maxBytes) :
    Within (New maxBytes cb) := by
  refine ⟨fun e he => by simp [New] at he, ?_, ?_⟩
  · simp only [New, liveBytes, List.map_nil, List.sum_nil]
    omega
  · simp only [New, liveBytes, List.map_nil, List.sum_nil]
    decide

theorem run_maxBytes {c c' : Cache} {ops : List Op} (h : run c ops = some c') :
    c'.maxBytes = c.maxBytes := by
  induction ops generalizing c with
  | nil =>
    simp only [run, Option.some.injEq] at h
    rw [← h]
  | cons op ops ih =>
    simp only [run] at h
    cases hs : step c op with
    | none => simp [hs] at h
    | some c1 =>
      rw [hs] at h
      rw [ih h, step_maxBytes hs]

/-! ### Claims on the invariants of the store -/

/-- C1, as amended: after every finite sequence of Add / Get / RemoveOldest calls on a
store made by New, the tracked nbytes is the sum, over the entries of the recency list,
of len(key) + value.Len(), reduced to an int64 (modulo 2^64); it is that sum itself
whenever the sum lies in the range of int64. -/
theorem nbytes_accounting (maxBytes : Int) (cb : Bool) (ops : List Op) (c : Cache)
    (h : run (New maxBytes cb) ops = some c) :
    c.nbytes
        = wrap64 (c.ll.map (fun e => (e.kv.key.utf8ByteSize : Int) + e.kv.value.Len)).sum ∧
      (-9223372036854775808
          ≤ (c.ll.map (fun e => (e.kv.key.utf8ByteSize : Int) + e.kv.value.Len)).sum →
        (c.ll.map (fun e => (e.kv.key.utf8ByteSize : Int) + e.kv.value.Len)).sum
          < 9223372036854775808 →
        c.nbytes
          = (c.ll.map (fun e => (e.kv.key.utf8ByteSize : Int) + e.kv.value.Len)).sum) := by
  have hb : c.nbytes
      = wrap64 (c.ll.map (fun e => (e.kv.key.utf8ByteSize : Int) + e.kv.value.Len)).sum :=
    (WF_run (WF_New maxBytes cb) h).bytes
  refine ⟨hb, fun h1 h2 => ?_⟩
  rw [hb]
  exact wrap64_of_range h1 h2

/-- The budget-20 seed scenario ends in `seedStore`, whose 14 tracked bytes are the sum over
its two entries. -/
theorem nbytes_accounting_witness :
    run (New 20 false) seedOps = some seedStore ∧
      seedStore.nbytes = 14 ∧
      (seedStore.ll.map (fun e => (e.kv.key.utf8ByteSize : Int) + e.kv.value.Len)).sum = 14 ∧
      seedStore.nbytes
        = wrap64
            (seedStore.ll.map (fun e => (e.kv.key.utf8ByteSize : Int) + e.kv.value.Len)).sum ∧
      (-9223372036854775808
          ≤ (seedStore.ll.map (fun e => (e.kv.key.utf8ByteSize : Int) + e.kv.value.Len)).sum →
        (seedStore.ll.map (fun e => (e.kv.key.utf8ByteSize : Int) + e.kv.value.Len)).sum
          < 9223372036854775808 →
        seedStore.nbytes
          = (seedStore.ll.map
              (fun e => (e.kv.key.utf8ByteSize : Int) + e.kv.value.Len)).sum) :=
  ⟨by decide, by decide, by decide, nbytes_accounting 20 false seedOps seedStore (by decide)⟩

/-- C1 fails as stated: after Add("a", v) on New(10, callback), where v.Len() is the
largest int64, the entry is resident (the guard 10 < nbytes is false), the sum of
len(key) + value.Len() over the entries is 2^63, and the tracked nbytes is -2^63. -/
theorem huge_value_wraps_total :
    run (New 10 true) [.add "a" hugeValue] = some hugeStore ∧
      hugeStore.ll.map Element.kv = [⟨"a", hugeValue⟩] ∧
      (hugeStore.ll.map (fun e => (e.kv.key.utf8ByteSize : Int) + e.kv.value.Len)).sum
        = 9223372036854775808 ∧
      hugeStore.nbytes = -9223372036854775808 := by
  decide

/-- C2, as amended: on a store made with maxBytes > 0, every finite sequence of Add / Get
/ RemoveOldest calls in which every added value has a size that is not negative and
maxBytes + len(key) + value.Len() is at most the largest int64 runs to its end and
leaves nbytes at most maxBytes. -/
theorem nbytes_within_budget (maxBytes : Int) (cb : Bool) (ops : List Op)
    (hmax : 0 < maxBytes) (hfit : ∀ op ∈ ops, op.fits maxBytes = true) :
    ∃ c, run (New maxBytes cb) ops = some c ∧ c.nbytes ≤ maxBytes := by
  obtain ⟨c, hc⟩ := run_terminates (WF_New maxBytes cb) (le_of_lt hmax) ops
  refine ⟨c, hc, ?_⟩
  have wf := WF_run (WF_New maxBytes cb) hc
  have w := Within_run (WF_New maxBytes cb) (Within_New maxBytes cb hmax) hmax hfit hc
  rw [Within.nbytes wf w]
  have := w.2.1
  rw [run_maxBytes hc] at this
  exact this

/-- The budget-20 seed scenario followed by a Get and a RemoveOldest stays within 20 bytes. -/
theorem nbytes_within_budget_witness :
    ∃ c, run (New 20 true) (seedOps ++ [.get "key2", .removeOldest]) = some c ∧ c.nbytes ≤ 20 :=
  nbytes_within_budget 20 true (seedOps ++ [.get "key2", .removeOldest]) (by decide) (by decide)

/-- C2 fails as stated: under a budget of 10, Add("x", v) with v.Len() the largest int64
wraps nbytes to -2^63, Add("y", w) with w.Len() = 2^62 - 1 brings it to -2^62, and
RemoveOldest, which takes "x" away, leaves nbytes = 2^62, above the budget. No size in
the sequence is negative. -/
theorem wrapped_total_exceeds_budget :
    (∀ op ∈ [Op.add "x" hugeValue, Op.add "y" ⟨"w", 4611686018427387903⟩, Op.removeOldest],
        op.sizeNonneg = true) ∧
      ∃ c, run (New 10 false)
          [.add "x" hugeValue, .add "y" ⟨"w", 4611686018427387903⟩, .removeOldest] = some c ∧
        c.ll.map (fun e => e.kv.key) = ["y"] ∧
        c.nbytes = 4611686018427387904 ∧ ¬ c.nbytes ≤ 10 :=
  ⟨by decide,
    { maxBytes := 10, nbytes := 4611686018427387904,
      ll := [⟨1, ⟨"y", ⟨"w", 4611686018427387903⟩⟩⟩], cache := [("y", 1)],
      OnEvicted := false, evicted := [], nextPtr := 2 },
    by decide, by decide, by decide, by decide⟩

/-- C3: after every finite sequence of Add / Get / RemoveOldest calls on a store made by
New, no key occurs twice in the recency list, the index map has exactly the keys of the
list, each once (so the two have the same size), every index entry holds the address of
the list element with that key, and Len() is that number of entries. -/
theorem index_agrees_with_list (maxBytes : Int) (cb : Bool) (ops : List Op) (c : Cache)
    (h : run (New maxBytes cb) ops = some c) :
    (c.ll.map (fun e => e.kv.key)).Nodup ∧
      (c.cache.map Prod.fst).Nodup ∧
      (∀ key, key ∈ c.cache.map Prod.fst ↔ key ∈ c.ll.map (fun e => e.kv.key)) ∧
      (∀ key p, mapGet c.cache key = some p ↔ ∃ e ∈ c.ll, e.kv.key = key ∧ e.ptr = p) ∧
      c.cache.length = c.ll.length ∧
      Len c = c.cache.length := by
  have wf := WF_run (WF_New maxBytes cb) h
  have hlen : c.cache.length = c.ll.length := by
    rw [wf.index.length_eq, List.length_map]
  refine ⟨wf.keyNodup, wf.index_keys_nodup, ?_, ?_, hlen, ?_⟩
  · intro key
    have hk := (wf.index.map Prod.fst).mem_iff (a := key)
    rw [List.map_map] at hk
    exact hk
  · intro key p
    constructor
    · exact wf.mapGet_some
    · rintro ⟨e, he, hk, hp⟩
      rw [← hk, ← hp]
      exact wf.index_of_mem he
  · rw [hlen]
    rfl

/-- The list and the index of `seedStore` hold the same two keys. -/
theorem index_agrees_with_list_witness :
    run (New 20 false) seedOps = some seedStore ∧
      (seedStore.ll.map (fun e => e.kv.key)).Nodup ∧
      (seedStore.cache.map Prod.fst).Nodup ∧
      (∀ key, key ∈ seedStore.cache.map Prod.fst ↔ key ∈ seedStore.ll.map (fun e => e.kv.key)) ∧
      (∀ key p, mapGet seedStore.cache key = some p ↔
        ∃ e ∈ seedStore.ll, e.kv.key = key ∧ e.ptr = p) ∧
      seedStore.cache.length = seedStore.ll.length ∧
      Len seedStore = seedStore.cache.length :=
  ⟨by decide, index_agrees_with_list 20 false seedOps seedStore (by decide)⟩

/-! ### Resident values are the latest values added -/

theorem Tracks_step {f : String → Option Value} {c c' : Cache} (wf : WF c) (tr : Tracks f c)
    {op : Op} (h : step c op = some c') : Tracks (recordAdd f op) c' := by
  cases op with
  | add key value =>
    simp only [step, Add] at h
    intro x hx
    have hx1 := (evict_sublist _ h).subset hx
    simp only [recordAdd]
    by_cases hk : key ∈ c.ll.map (fun e => e.kv.key)
    · rcases List.mem_map.1 hk with ⟨e, he, hke⟩
      subst hke
      rw [upsert_live wf he] at hx1
      rcases List.mem_cons.1 hx1 with hx2 | hx2
      · subst hx2
        simp
      · have hmem := List.mem_filter.1 hx2
        have hne : x.kv.key ≠ e.kv.key := by simpa using hmem.2
        simp only [hne, if_false]
        exact tr x hmem.1
    · rw [upsert_new wf hk] at hx1
      rcases List.mem_cons.1 hx1 with hx2 | hx2
      · subst hx2
        simp
      · have hne : x.kv.key ≠ key := by
          intro e
          exact hk (e ▸ List.mem_map_of_mem (fun e => e.kv.key) hx2)
        simp only [hne, if_false]
        exact tr x hx2
  | get key =>
    simp only [step, Option.some.injEq] at h
    subst h
    intro x hx
    simp only [recordAdd]
    by_cases hk : key ∈ c.ll.map (fun e => e.kv.key)
    · rcases List.mem_map.1 hk with ⟨e, he, hke⟩
      subst hke
      rw [Get_live wf he] at hx
      exact tr x ((perm_cons_filter_key wf he).subset hx)
    · rw [Get_miss wf hk] at hx
      exact tr x hx
  | removeOldest =>
    simp only [step, Option.some.injEq] at h
    subst h
    intro x hx
    exact tr x ((RemoveOldest_sublist c).subset hx)

theorem Tracks_run {c c' : Cache} {ops : List Op} :
    ∀ {f : String → Option Value}, WF c → Tracks f c → run c ops = some c' →
      Tracks (ops.foldl recordAdd f) c' := by
  induction ops generalizing c with
  | nil =>
    intro f _ tr h
    simp only [run, Option.some.injEq] at h
    exact h ▸ tr
  | cons op ops ih =>
    intro f wf tr h
    simp only [run] at h
    cases hs : step c op with
    | none => simp [hs] at h
    | some c1 =>
      rw [hs] at h
      exact ih (WF_step wf hs) (Tracks_step wf tr hs) h

theorem Tracks_New (maxBytes : Int) (cb : Bool) : Tracks (fun _ => none) (New maxBytes cb) := by
  intro e he
  simp [New] at he

/-! ### Claims on Get -/

/-- C4: in every store reached from New, Get of a live key returns the value of the
latest Add under that key with ok = true and brings the entry to the front, the other
entries keeping their order and the index, nbytes and every other field being
unchanged; Get of a key that is not live, as is every key that was never added, returns
a miss and leaves the store as it was. -/
theorem Get_hit_or_miss (maxBytes : Int) (cb : Bool) (ops : List Op) (c : Cache)
    (key : String) (h : run (New maxBytes cb) ops = some c) :
    (∀ e ∈ c.ll, e.kv.key = key →
        Get c key
          = ({ c with ll := e :: c.ll.filter (fun x => decide (x.kv.key ≠ key)) },
              some e.kv.value) ∧
        lastAdded ops key = some e.kv.value) ∧
      (key ∉ c.ll.map (fun e => e.kv.key) → Get c key = (c, none)) ∧
      (lastAdded ops key = none → Get c key = (c, none)) := by
  have wf := WF_run (WF_New maxBytes cb) h
  have tr := Tracks_run (WF_New maxBytes cb) (Tracks_New maxBytes cb) h
  refine ⟨?_, Get_miss wf, ?_⟩
  · intro e he hk
    subst hk
    exact ⟨Get_live wf he, tr e he⟩
  · intro hnone
    apply Get_miss wf
    intro hk
    rcases List.mem_map.1 hk with ⟨e, he, hke⟩
    have := tr e he
    rw [hke] at this
    unfold lastAdded at hnone
    rw [hnone] at this
    exact absurd this (by simp)

/-- The first seed scenario: on the unlimited store after Add("key1", "1234"), Get("key1")
hits with "1234" and Get("key") misses. -/
theorem Get_hit_or_miss_witness :
    run (New 0 false) [.add "key1" (StringValue "1234")] = some hitStore ∧
      Get hitStore "key1" = (hitStore, some (StringValue "1234")) ∧
      lastAdded [.add "key1" (StringValue "1234")] "key1" = some (StringValue "1234") ∧
      Get hitStore "key" = (hitStore, none) :=
  have h := Get_hit_or_miss 0 false [.add "key1" (StringValue "1234")] hitStore
  ⟨by decide,
    ((h "key1" (by decide)).1 ⟨0, ⟨"key1", StringValue "1234"⟩⟩ (by decide) rfl).1.trans
      (by decide),
    ((h "key1" (by decide)).1 ⟨0, ⟨"key1", StringValue "1234"⟩⟩ (by decide) rfl).2,
    (h "key" (by decide)).2.2 (by decide)⟩

/-! ### What the eviction loop removes -/

theorem evict_spec (fuel : Nat) : ∀ (c c' : Cache), WF c → Add.evict fuel c = some c' →
    ∃ keep gone, c.ll = keep ++ gone ∧ c'.ll = keep ∧
      c'.nbytes = wrap64 (c.nbytes - liveBytes gone) ∧
      c'.evicted = c.evicted ++ (if c.OnEvicted then gone.reverse.map Element.kv else []) ∧
      (∀ g₁ g₂, gone = g₁ ++ g₂ → g₁ ≠ [] →
        c.maxBytes ≠ 0 ∧ c.maxBytes < wrap64 (c.nbytes - liveBytes g₂)) := by
  induction fuel with
  | zero =>
    intro c c' _ h
    simp [Add.evict] at h
  | succ n ih =>
    intro c c' wf h
    have hrange := wf.nbytes_range
    simp only [Add.evict] at h
    split at h
    · rename_i g
      rcases List.eq_nil_or_concat c.ll with hnil | ⟨init, e, hcat⟩
      · rw [RemoveOldest_nil hnil] at h
        exact ih c c' wf h
      · rw [List.concat_eq_append] at hcat
        obtain ⟨keep, gone, h1, h2, h3, h4, h5⟩ := ih _ c' (WF_RemoveOldest wf) h
        rw [RemoveOldest_concat wf hcat] at h1 h3 h4 h5
        simp only at h1 h3 h4 h5
        refine ⟨keep, gone ++ [e], ?_, h2, ?_, ?_, ?_⟩
        · rw [hcat, h1, List.append_assoc]
        · rw [h3, liveBytes_append]
          simp only [liveBytes, List.map_cons, List.map_nil, List.sum_cons, List.sum_nil,
            entryBytes, entrySize, wrap64]
          omega
        · rw [h4]
          cases hcb : c.OnEvicted <;> simp
        · intro g₁ g₂ hg hne
          rcases List.eq_nil_or_concat g₂ with h0 | ⟨g₂', e', hg2⟩
          · subst h0
            refine ⟨g.1, ?_⟩
            have hw : wrap64 (c.nbytes - liveBytes []) = c.nbytes := by
              simp only [liveBytes, List.map_nil, List.sum_nil, Int.sub_zero]
              exact wrap64_of_range hrange.1 hrange.2
            rw [hw]
            exact g.2
          · rw [List.concat_eq_append] at hg2
            subst hg2
            rw [← List.append_assoc] at hg
            have hinj := List.append_inj' hg rfl
            have he : e' = e := by
              have := hinj.2
              simp only [List.cons.injEq, and_true] at this
              exact this.symm
            subst he
            have := h5 g₁ g₂' hinj.1 hne
            rw [liveBytes_append]
            simp only [liveBytes, List.map_cons, List.map_nil, List.sum_cons, List.sum_nil,
              entryBytes, entrySize, wrap64]
            simp only [liveBytes, entryBytes, entrySize, wrap64] at this
            constructor
            · exact this.1
            · omega
    · simp only [Option.some.injEq] at h
      subst h
      refine ⟨c.ll, [], by simp, rfl, ?_, by simp, ?_⟩
      · simp only [liveBytes, List.map_nil, List.sum_nil, Int.sub_zero]
        exact (wrap64_of_range hrange.1 hrange.2).symm
      · intro g₁ g₂ hg hne
        have : g₁ = [] := (List.append_eq_nil.1 hg.symm).1
        exact absurd this hne

theorem upsert_OnEvicted (c : Cache) (key : String) (value : Value) :
    (Add.upsert c key value).OnEvicted = c.OnEvicted := by
  unfold Add.upsert
  split
  · split <;> rfl
  · rfl

theorem upsert_evicted (c : Cache) (key : String) (value : Value) :
    (Add.upsert c key value).evicted = c.evicted := by
  unfold Add.upsert
  split
  · split <;> rfl
  · rfl

theorem evict_OnEvicted (fuel : Nat) {c c' : Cache} (h : Add.evict fuel c = some c') :
    c'.OnEvicted = c.OnEvicted := by
  induction fuel generalizing c with
  | zero => simp [Add.evict] at h
  | succ n ih =>
    simp only [Add.evict] at h
    split at h
    · rw [ih h, RemoveOldest_OnEvicted]
    · simp only [Option.some.injEq] at h
      rw [← h]

theorem Get_OnEvicted (c : Cache) (key : String) : (Get c key).1.OnEvicted = c.OnEvicted := by
  unfold Get
  split
  · split <;> rfl
  · rfl

theorem step_OnEvicted {c c' : Cache} {op : Op} (h : step c op = some c') :
    c'.OnEvicted = c.OnEvicted := by
  cases op with
  | add key value =>
    simp only [step, Add] at h
    rw [evict_OnEvicted _ h, upsert_OnEvicted]
  | get key =>
    simp only [step, Option.some.injEq] at h
    rw [← h, Get_OnEvicted]
  | removeOldest =>
    simp only [step, Option.some.injEq] at h
    rw [← h, RemoveOldest_OnEvicted]

theorem run_OnEvicted {c c' : Cache} {ops : List Op} (h : run c ops = some c') :
    c'.OnEvicted = c.OnEvicted := by
  induction ops generalizing c with
  | nil =>
    simp only [run, Option.some.injEq] at h
    rw [← h]
  | cons op ops ih =>
    simp only [run] at h
    cases hs : step c op with
    | none => simp [hs] at h
    | some c1 =>
      rw [hs] at h
      rw [ih h, step_OnEvicted hs]

/-! ### Claims on eviction -/

theorem evict_iterate (fuel : Nat) : ∀ (c c' : Cache), Add.evict fuel c = some c' →
    ∃ k, k < fuel ∧ c' = Nat.iterate RemoveOldest k c ∧
      ∀ j, j < k →
        (Nat.iterate RemoveOldest j c).maxBytes ≠ 0 ∧
          (Nat.iterate RemoveOldest j c).maxBytes < (Nat.iterate RemoveOldest j c).nbytes := by
  induction fuel with
  | zero =>
    intro c c' h
    simp [Add.evict] at h
  | succ n ih =>
    intro c c' h
    simp only [Add.evict] at h
    split at h
    · rename_i g
      obtain ⟨k, hk, hc', hj⟩ := ih _ _ h
      refine ⟨k + 1, by omega, ?_, ?_⟩
      · rw [hc', Function.iterate_succ_apply]
      · intro j hjk
        cases j with
        | zero => exact g
        | succ j' =>
          rw [Function.iterate_succ_apply]
          exact hj j' (by omega)
    · simp only [Option.some.injEq] at h
      exact ⟨0, by omega, h.symm, fun j hj => absurd hj (by omega)⟩

theorem RemoveOldest_ll {c : Cache} (wf : WF c) : (RemoveOldest c).ll = c.ll.dropLast := by
  rcases List.eq_nil_or_concat c.ll with h | ⟨init, e, h⟩
  · rw [RemoveOldest_nil h, h]
    rfl
  · rw [List.concat_eq_append] at h
    rw [RemoveOldest_concat wf h, h]
    simp

theorem iterate_WF {c : Cache} (wf : WF c) (j : Nat) : WF (Nat.iterate RemoveOldest j c) := by
  induction j with
  | zero => exact wf
  | succ n ih =>
    rw [Function.iterate_succ_apply']
    exact WF_RemoveOldest ih

theorem iterate_ll {c : Cache} (wf : WF c) (j : Nat) :
    (Nat.iterate RemoveOldest j c).ll = c.ll.take (c.ll.length - j) := by
  induction j with
  | zero => simp
  | succ n ih =>
    rw [Function.iterate_succ_apply']
    rw [RemoveOldest_ll (iterate_WF wf n), ih, List.dropLast_eq_take, List.take_take,
      List.length_take]
    congr 1
    omega

/-- C5: in every store reached from New with maxBytes > 0, Add returns the store that k
calls of RemoveOldest make of the store u in which the added key has been inserted or
refreshed, k being at most the length of the list of u; every one of these calls takes
the back-most entry, so the survivors are the front part of the list of u in the same
order, the evicted entries are its k back-most entries (passed to the callback from
the back), and the index holds exactly the keys of the survivors. k is the least
number of removals that brings nbytes to at most maxBytes: after fewer removals nbytes
is above maxBytes, after k it is not. nbytes is what the int64 subtractions of the k
removals leave. -/
theorem Add_evicts_from_back (maxBytes : Int) (cb : Bool) (ops : List Op) (c : Cache)
    (key : String) (value : Value) (hmax : 0 < maxBytes)
    (h : run (New maxBytes cb) ops = some c) :
    ∃ c' k, Add c key value = some c' ∧
      k ≤ (Add.upsert c key value).ll.length ∧
      c' = Nat.iterate RemoveOldest k (Add.upsert c key value) ∧
      (∀ j, (Nat.iterate RemoveOldest j (Add.upsert c key value)).ll
        = (Add.upsert c key value).ll.take ((Add.upsert c key value).ll.length - j)) ∧
      c'.ll = (Add.upsert c key value).ll.take ((Add.upsert c key value).ll.length - k) ∧
      c'.evicted = c.evicted ++
        (if cb then (((Add.upsert c key value).ll.drop
          ((Add.upsert c key value).ll.length - k)).reverse.map Element.kv) else []) ∧
      c'.nbytes = wrap64 ((Add.upsert c key value).nbytes -
        (((Add.upsert c key value).ll.drop ((Add.upsert c key value).ll.length - k)).map
          (fun e => (e.kv.key.utf8ByteSize : Int) + e.kv.value.Len)).sum) ∧
      c'.nbytes ≤ maxBytes ∧
      (∀ j, j < k → maxBytes < (Nat.iterate RemoveOldest j (Add.upsert c key value)).nbytes) ∧
      (∀ key', (mapGet c'.cache key').isSome ↔ key' ∈ c'.ll.map (fun e => e.kv.key)) := by
  have wf := WF_run (WF_New maxBytes cb) h
  have hmb : c.maxBytes = maxBytes := run_maxBytes h
  have hcb : c.OnEvicted = cb := run_OnEvicted h
  have wf1 := WF_upsert wf key value
  obtain ⟨c', hc'⟩ := Add_terminates wf (by omega) key value
  have hev : Add.evict ((Add.upsert c key value).ll.length + 1) (Add.upsert c key value)
      = some c' := hc'
  obtain ⟨keep, gone, h1, h2, h3, h4, _⟩ := evict_spec _ _ _ wf1 hev
  obtain ⟨k, hk, hit, hmin⟩ := evict_iterate _ _ _ hev
  have wf' := WF_evict _ wf1 hev
  have hg := evict_guard _ hev
  have hmb' : c'.maxBytes = maxBytes := by rw [evict_maxBytes _ hev, upsert_maxBytes, hmb]
  have hlen : (Add.upsert c key value).ll.length = keep.length + gone.length := by
    rw [h1, List.length_append]
  have hkeep : keep.length = (Add.upsert c key value).ll.length - k := by
    have := congrArg List.length (iterate_ll wf1 k)
    rw [← hit, h2, List.length_take] at this
    omega
  have hgk : gone.length = k := by omega
  refine ⟨c', k, hc', by omega, hit, iterate_ll wf1, ?_, ?_, ?_, ?_, ?_, ?_⟩
  · rw [hit]
    exact iterate_ll wf1 k
  · rw [h4, upsert_evicted, upsert_OnEvicted, hcb, ← hgk, hlen, Nat.add_sub_cancel, h1,
      List.drop_left']
    rfl
  · rw [h3, ← hgk, hlen, Nat.add_sub_cancel, h1, List.drop_left']
    · rfl
    · rfl
  · by_contra hlt
    exact hg ⟨by omega, by omega⟩
  · intro j hj
    have := (hmin j hj).2
    have hmj : (Nat.iterate RemoveOldest j (Add.upsert c key value)).maxBytes = maxBytes := by
      clear this
      induction j with
      | zero => rw [Function.iterate_zero_apply, upsert_maxBytes, hmb]
      | succ n ih =>
        rw [Function.iterate_succ_apply', RemoveOldest_maxBytes]
        exact ih (by omega)
    rw [hmj] at this
    exact this
  · intro key'
    rw [← not_iff_not, Option.not_isSome_iff_eq_none]
    exact wf'.mapGet_none

/-- The second seed scenario: under a budget of 20 the third insertion evicts "key1", the
back entry, by one call of RemoveOldest, and leaves two entries. -/
theorem Add_evicts_from_back_witness :
    run (New 20 false) [.add "key1" (StringValue "value1"), .add "key2" (StringValue "value2")]
        = some seedTwo ∧
      Add seedTwo "k3" (StringValue "v3") = some seedStore ∧
      seedStore = RemoveOldest (Add.upsert seedTwo "k3" (StringValue "v3")) ∧
      (Get seedStore "key1").2 = none ∧ Len seedStore = 2 ∧
      ∃ c' k, Add seedTwo "k3" (StringValue "v3") = some c' ∧
        k ≤ (Add.upsert seedTwo "k3" (StringValue "v3")).ll.length ∧
        c' = Nat.iterate RemoveOldest k (Add.upsert seedTwo "k3" (StringValue "v3")) ∧
        (∀ j, (Nat.iterate RemoveOldest j (Add.upsert seedTwo "k3" (StringValue "v3"))).ll
          = (Add.upsert seedTwo "k3" (StringValue "v3")).ll.take
              ((Add.upsert seedTwo "k3" (StringValue "v3")).ll.length - j)) ∧
        c'.ll = (Add.upsert seedTwo "k3" (StringValue "v3")).ll.take
          ((Add.upsert seedTwo "k3" (StringValue "v3")).ll.length - k) ∧
        c'.evicted = seedTwo.evicted ++
          (if false then (((Add.upsert seedTwo "k3" (StringValue "v3")).ll.drop
            ((Add.upsert seedTwo "k3" (StringValue "v3")).ll.length - k)).reverse.map
              Element.kv) else []) ∧
        c'.nbytes = wrap64 ((Add.upsert seedTwo "k3" (StringValue "v3")).nbytes -
          (((Add.upsert seedTwo "k3" (StringValue "v3")).ll.drop
            ((Add.upsert seedTwo "k3" (StringValue "v3")).ll.length - k)).map
              (fun e => (e.kv.key.utf8ByteSize : Int) + e.kv.value.Len)).sum) ∧
        c'.nbytes ≤ 20 ∧
        (∀ j, j < k →
          20 < (Nat.iterate RemoveOldest j (Add.upsert seedTwo "k3" (StringValue "v3"))).nbytes) ∧
        (∀ key', (mapGet c'.cache key').isSome ↔ key' ∈ c'.ll.map (fun e => e.kv.key)) :=
  ⟨by decide, by decide, by decide, by decide, by decide,
    Add_evicts_from_back 20 false
      [.add "key1" (StringValue "value1"), .add "key2" (StringValue "value2")]
      seedTwo "k3" (StringValue "v3") (by decide) (by decide)⟩

/-- On the store that holds an entry whose value reports the largest int64 as its size,
nbytes is -2^63, below every budget, and the Add that has put the entry there evicts
nothing: k is 0. -/
theorem huge_value_is_not_evicted :
    Add (New 10 true) "a" hugeValue = some hugeStore ∧
      hugeStore = Nat.iterate RemoveOldest 0 (Add.upsert (New 10 true) "a" hugeValue) ∧
      hugeStore.nbytes ≤ 10 := by
  decide

/-! ### The unlimited store -/

theorem evict_unlimited {c : Cache} (h : c.maxBytes = 0) (fuel : Nat) :
    Add.evict (fuel + 1) c = some c := by
  simp [Add.evict, h]

theorem Add_unlimited {c : Cache} (h : c.maxBytes = 0) (key : String) (value : Value) :
    Add c key value = some (Add.upsert c key value) := by
  unfold Add
  exact evict_unlimited (by rw [upsert_maxBytes]; exact h) _

theorem Get_evicted (c : Cache) (key : String) : (Get c key).1.evicted = c.evicted := by
  unfold Get
  split
  · split <;> rfl
  · rfl

theorem Holds_step {f : String → Option Value} {c c' : Cache} (wf : WF c) (hm : c.maxBytes = 0)
    (ho : Holds f c) {op : Op} (hop : op.isAddOrGet = true) (h : step c op = some c') :
    Holds (recordAdd f op) c' ∧ c'.evicted = c.evicted := by
  cases op with
  | add key value =>
    simp only [step, Add_unlimited hm, Option.some.injEq] at h
    subst h
    refine ⟨?_, upsert_evicted c key value⟩
    intro k v hk
    simp only [recordAdd] at hk
    by_cases hlive : key ∈ c.ll.map (fun e => e.kv.key)
    · rcases List.mem_map.1 hlive with ⟨e, he, hke⟩
      subst hke
      rw [upsert_live wf he]
      by_cases hkk : k = e.kv.key
      · simp only [hkk, if_true, Option.some.injEq] at hk
        exact ⟨_, List.mem_cons_self _ _, hkk.symm, hk⟩
      · simp only [hkk, if_false] at hk
        obtain ⟨x, hx, hxk, hxv⟩ := ho k v hk
        refine ⟨x, List.mem_cons_of_mem _ (List.mem_filter.2 ⟨hx, ?_⟩), hxk, hxv⟩
        simp only [ne_eq, decide_eq_true_eq]
        rw [hxk]
        exact hkk
    · rw [upsert_new wf hlive]
      by_cases hkk : k = key
      · simp only [hkk, if_true, Option.some.injEq] at hk
        exact ⟨_, List.mem_cons_self _ _, hkk.symm, hk⟩
      · simp only [hkk, if_false] at hk
        obtain ⟨x, hx, hxk, hxv⟩ := ho k v hk
        exact ⟨x, List.mem_cons_of_mem _ hx, hxk, hxv⟩
  | get key =>
    simp only [step, Option.some.injEq] at h
    subst h
    refine ⟨?_, Get_evicted c key⟩
    intro k v hk
    simp only [recordAdd] at hk
    obtain ⟨x, hx, hxk, hxv⟩ := ho k v hk
    by_cases hlive : key ∈ c.ll.map (fun e => e.kv.key)
    · rcases List.mem_map.1 hlive with ⟨e, he, hke⟩
      subst hke
      rw [Get_live wf he]
      exact ⟨x, (perm_cons_filter_key wf he).symm.subset hx, hxk, hxv⟩
    · rw [Get_miss wf hlive]
      exact ⟨x, hx, hxk, hxv⟩
  | removeOldest => simp [Op.isAddOrGet] at hop

theorem Holds_run {c c' : Cache} {ops : List Op} :
    ∀ {f : String → Option Value}, WF c → c.maxBytes = 0 → Holds f c →
      (∀ op ∈ ops, op.isAddOrGet = true) → run c ops = some c' →
      Holds (ops.foldl recordAdd f) c' ∧ c'.evicted = c.evicted := by
  induction ops generalizing c with
  | nil =>
    intro f _ _ ho _ h
    simp only [run, Option.some.injEq] at h
    subst h
    exact ⟨ho, rfl⟩
  | cons op ops ih =>
    intro f wf hm ho hops h
    simp only [run] at h
    cases hs : step c op with
    | none => simp [hs] at h
    | some c1 =>
      rw [hs] at h
      obtain ⟨ho1, he1⟩ := Holds_step wf hm ho (hops op (List.mem_cons_self _ _)) hs
      obtain ⟨ho2, he2⟩ := ih (WF_step wf hs) (by rw [step_maxBytes hs]; exact hm) ho1
        (fun o hmem => hops o (List.mem_cons_of_mem _ hmem)) h
      exact ⟨ho2, by rw [he2, he1]⟩

/-- C6: on a store made with maxBytes = 0 every finite sequence of Add and Get calls
runs to its end, never invokes the eviction callback, leaves live exactly the keys
that were ever added (no entry is removed), and a Get of any of them returns the value
of the latest Add under that key. -/
theorem unlimited_never_evicts (cb : Bool) (ops : List Op)
    (hops : ∀ op ∈ ops, op.isAddOrGet = true) :
    ∃ c, run (New 0 cb) ops = some c ∧ c.evicted = [] ∧
      (∀ key, key ∈ c.ll.map (fun e => e.kv.key) ↔ (lastAdded ops key).isSome) ∧
      (∀ key v, lastAdded ops key = some v → (Get c key).2 = some v) := by
  have wf0 := WF_New 0 cb
  obtain ⟨c, hc⟩ := run_terminates wf0 (le_refl _) ops
  have wf := WF_run wf0 hc
  have tr := Tracks_run wf0 (Tracks_New 0 cb) hc
  have ho := Holds_run (f := fun _ => none) wf0 rfl (fun _ _ hk => by simp at hk) hops hc
  refine ⟨c, hc, ho.2, ?_, ?_⟩
  · intro key
    constructor
    · intro hk
      rcases List.mem_map.1 hk with ⟨e, he, hke⟩
      subst hke
      unfold lastAdded
      rw [tr e he]
      rfl
    · intro hk
      obtain ⟨v, hv⟩ := Option.isSome_iff_exists.1 hk
      obtain ⟨e, he, hke, _⟩ := ho.1 key v hv
      exact hke ▸ List.mem_map_of_mem (fun e => e.kv.key) he
  · intro key v hv
    obtain ⟨e, he, hke, hev⟩ := ho.1 key v hv
    subst hke
    rw [Get_live wf he, ← hev]

/-- An unlimited store with a callback, through two insertions, a Get and a refresh. -/
theorem unlimited_never_evicts_witness :
    ∃ c, run (New 0 true)
        [.add "key1" (StringValue "1234"), .get "key1", .add "k2" (StringValue "v2"),
          .add "key1" (StringValue "5")] = some c ∧
      c.evicted = [] ∧
      (∀ key, key ∈ c.ll.map (fun e => e.kv.key) ↔
        (lastAdded [.add "key1" (StringValue "1234"), .get "key1",
          .add "k2" (StringValue "v2"), .add "key1" (StringValue "5")] key).isSome) ∧
      (∀ key v,
        lastAdded [.add "key1" (StringValue "1234"), .get "key1",
          .add "k2" (StringValue "v2"), .add "key1" (StringValue "5")] key = some v →
        (Get c key).2 = some v) :=
  unlimited_never_evicts true
    [.add "key1" (StringValue "1234"), .get "key1", .add "k2" (StringValue "v2"),
      .add "key1" (StringValue "5")] (by decide)

end lru

/-! ## The ring -/

namespace consistenthash

/-! ### Binary search -/

/-- Fuel beyond `j - i` never changes what the loop of `sort.Search` returns. -/
theorem Search_loop_fuel (f : Nat → Option Bool) :
    ∀ (a b i j : Nat), j - i ≤ a → j - i ≤ b → Search.loop f a i j = Search.loop f b i j := by
  intro a
  induction a with
  | zero =>
    intro b i j ha _
    have hij : ¬ i < j := by omega
    cases b with
    | zero => rfl
    | succ b => simp [Search.loop, hij]
  | succ a ih =>
    intro b i j ha hb
    by_cases hij : i < j
    · cases b with
      | zero => omega
      | succ b =>
        simp only [Search.loop, hij, if_true]
        have h1 : i ≤ (i + j) / 2 := by omega
        have h2 : (i + j) / 2 < j := by omega
        cases f ((i + j) / 2) with
        | none => rfl
        | some v =>
          cases v with
          | false => exact ih b _ _ (by omega) (by omega)
          | true => exact ih b _ _ (by omega) (by omega)
    · cases b with
      | zero => simp [Search.loop, hij]
      | succ b => simp [Search.loop, hij]

theorem Search_loop_spec {f : Nat → Option Bool} {p : Nat → Bool} {n : Nat}
    (hf : ∀ i, i < n → f i = some (p i))
    (mono : ∀ a b, a ≤ b → b < n → p a = true → p b = true) :
    ∀ (fuel i j : Nat), i ≤ j → j ≤ n → j - i ≤ fuel → (∀ k, k < i → p k = false) →
      (∀ k, j ≤ k → k < n → p k = true) →
      ∃ r, Search.loop f fuel i j = some r ∧ r ≤ n ∧ (∀ k, k < r → p k = false) ∧
        (∀ k, r ≤ k → k < n → p k = true) := by
  intro fuel
  induction fuel with
  | zero =>
    intro i j hij hjn hfuel hlo hhi
    have : i = j := by omega
    subst this
    exact ⟨i, by simp [Search.loop], hjn, hlo, hhi⟩
  | succ fuel ih =>
    intro i j hij hjn hfuel hlo hhi
    by_cases hlt : i < j
    · have h1 : i ≤ (i + j) / 2 := by omega
      have h2 : (i + j) / 2 < j := by omega
      simp only [Search.loop, hlt, if_true, hf _ (lt_of_lt_of_le h2 hjn)]
      cases hp : p ((i + j) / 2) with
      | false =>
        refine ih _ _ (by omega) hjn (by omega) ?_ hhi
        intro k hk
        cases hk' : p k with
        | false => rfl
        | true =>
          have := mono k _ (by omega) (lt_of_lt_of_le h2 hjn) hk'
          rw [hp] at this
          exact absurd this (by simp)
      | true =>
        refine ih _ _ h1 (by omega) (by omega) hlo ?_
        intro k hk hkn
        exact mono _ k hk hkn hp
    · have : i = j := by omega
      subst this
      exact ⟨i, by simp [Search.loop], hjn, hlo, hhi⟩

/-- On a sorted hash array that is not empty, Get returns the peer recorded for the
first hash that is at least the key's hash, or for the first hash of the array when
there is none. -/
theorem Get_of_sorted (m : Map) (key : String) (hs : m.keys.Sorted (· ≤ ·))
    (hne : m.keys ≠ []) :
    ∃ i, ∃ hi : i < m.keys.length,
      (m.keys.findIdx? (fun k => decide (k ≥ hashInt m key))).getD 0 = i ∧
      Get m key = some ((mapGet m.hashMap (m.keys.get ⟨i, hi⟩)).getD "") := by
  have hpos : 0 < m.keys.length := List.length_pos.2 hne
  have hlen : ¬ m.keys.length = 0 := by omega
  have hpw := List.pairwise_iff_getElem.1 hs
  have hf : ∀ i, i < m.keys.length →
      (fun i => (m.keys[i]?).map (fun k => decide (k ≥ hashInt m key))) i
        = some ((fun i => ((m.keys[i]?).map (fun k => decide (k ≥ hashInt m key))).getD false) i) := by
    intro i hi
    simp [List.getElem?_eq_getElem hi]
  have mono : ∀ a b, a ≤ b → b < m.keys.length →
      (fun i => ((m.keys[i]?).map (fun k => decide (k ≥ hashInt m key))).getD false) a = true →
      (fun i => ((m.keys[i]?).map (fun k => decide (k ≥ hashInt m key))).getD false) b = true := by
    intro a b hab hb ha
    have ha' : a < m.keys.length := by omega
    simp only [List.getElem?_eq_getElem ha', List.getElem?_eq_getElem hb, Option.map_some',
      Option.getD_some, decide_eq_true_eq, ge_iff_le] at ha ⊢
    rcases Nat.lt_or_ge a b with hlt | hge
    · exact le_trans ha (hpw a b ha' hb hlt)
    · have : a = b := by omega
      subst this
      exact ha
  obtain ⟨r, hr, hrn, hlo, hhi⟩ := Search_loop_spec hf mono m.keys.length 0 m.keys.length
    (Nat.zero_le _) (Nat.le_refl _) (by omega) (fun k hk => absurd hk (by omega))
    (fun k hk hkn => absurd hkn (by omega))
  have hsearch : Search m.keys.length
      (fun i => (m.keys[i]?).map (fun k => decide (k ≥ hashInt m key))) = some r := hr
  rcases Nat.lt_or_ge r m.keys.length with hlt | hge
  · refine ⟨r, hlt, ?_, ?_⟩
    · have : m.keys.findIdx? (fun k => decide (k ≥ hashInt m key)) = some r := by
        rw [List.findIdx?_eq_some_iff_getElem]
        refine ⟨hlt, ?_, ?_⟩
        · have := hhi r (Nat.le_refl _) hlt
          simpa [List.getElem?_eq_getElem hlt] using this
        · intro j hj
          have := hlo j hj
          have hj' : j < m.keys.length := by omega
          simpa [List.getElem?_eq_getElem hj'] using this
      rw [this]
      rfl
    · simp only [Get, hlen, if_false, hsearch, Nat.mod_eq_of_lt hlt,
        List.getElem?_eq_getElem hlt]
      rfl
  · have hrn' : r = m.keys.length := by omega
    refine ⟨0, hpos, ?_, ?_⟩
    · have : m.keys.findIdx? (fun k => decide (k ≥ hashInt m key)) = none := by
        rw [List.findIdx?_eq_none_iff]
        intro x hx
        obtain ⟨j, hj, hjx⟩ := List.getElem_of_mem hx
        have := hlo j (by omega)
        simp only [List.getElem?_eq_getElem hj, Option.map_some', Option.getD_some] at this
        rw [← hjx]
        exact this
      rw [this]
      rfl
    · simp only [Get, hlen, if_false, hsearch, hrn', Nat.mod_self,
        List.getElem?_eq_getElem hpos]
      rfl

/-! ### What Add does to the ring -/

theorem hashInt_congr {m m' : Map} (h : m'.hash = m.hash) (s : String) :
    hashInt m' s = hashInt m s := by
  simp [hashInt, h]

theorem replicas_fold (key : String) : ∀ (is : List Nat) (m : Map),
    (is.foldl (Add.replica key) m).hash = m.hash ∧
      (is.foldl (Add.replica key) m).replicas = m.replicas ∧
      (is.foldl (Add.replica key) m).keys
        = m.keys ++ is.map (fun i => hashInt m (toString i ++ key)) := by
  intro is
  induction is with
  | nil =>
    intro m
    simp
  | cons i is ih =>
    intro m
    obtain ⟨h1, h2, h3⟩ := ih (Add.replica key m i)
    refine ⟨h1, h2, ?_⟩
    rw [List.foldl_cons, h3]
    have hh : (Add.replica key m i).hash = m.hash := rfl
    simp only [hashInt_congr hh]
    simp [Add.replica]

theorem peers_fold : ∀ (peers : List String) (m : Map),
    (peers.foldl Add.peer m).hash = m.hash ∧
      (peers.foldl Add.peer m).replicas = m.replicas ∧
      (peers.foldl Add.peer m).keys = m.keys ++ replicaHashes m peers := by
  intro peers
  induction peers with
  | nil =>
    intro m
    simp [replicaHashes]
  | cons key peers ih =>
    intro m
    obtain ⟨h1, h2, h3⟩ := ih (Add.peer m key)
    obtain ⟨g1, g2, g3⟩ := replicas_fold key (List.range m.replicas.toNat) m
    have e1 : (Add.peer m key).hash = m.hash := g1
    have e2 : (Add.peer m key).replicas = m.replicas := g2
    have e3 : (Add.peer m key).keys
        = m.keys ++ (List.range m.replicas.toNat).map (fun i => hashInt m (toString i ++ key)) :=
      g3
    refine ⟨by rw [List.foldl_cons, h1, e1], by rw [List.foldl_cons, h2, e2], ?_⟩
    rw [List.foldl_cons, h3, e3]
    simp only [replicaHashes, e2, hashInt_congr e1, List.flatMap_cons, List.append_assoc]

theorem Add_keys_perm (m : Map) (peers : List String) :
    (Add m peers).keys.Perm (m.keys ++ replicaHashes m peers) := by
  have h := (peers_fold peers m).2.2
  show (sortInts (peers.foldl Add.peer m).keys).Perm _
  rw [h]
  exact List.perm_insertionSort _ _

theorem Add_keys_sorted (m : Map) (peers : List String) :
    (Add m peers).keys.Sorted (· ≤ ·) :=
  List.sorted_insertionSort _ _

theorem Add_replicas (m : Map) (peers : List String) : (Add m peers).replicas = m.replicas :=
  (peers_fold peers m).2.1

theorem Add_hash (m : Map) (peers : List String) : (Add m peers).hash = m.hash :=
  (peers_fold peers m).1

theorem calls_fold_replicas : ∀ (calls : List (List String)) (m : Map),
    (calls.foldl Add m).replicas = m.replicas := by
  intro calls
  induction calls with
  | nil => intro m; rfl
  | cons peers calls ih =>
    intro m
    rw [List.foldl_cons, ih, Add_replicas]

theorem calls_fold_sorted : ∀ (calls : List (List String)) (m : Map),
    m.keys.Sorted (· ≤ ·) → (calls.foldl Add m).keys.Sorted (· ≤ ·) := by
  intro calls
  induction calls with
  | nil => intro m h; exact h
  | cons peers calls ih =>
    intro m _
    rw [List.foldl_cons]
    exact ih _ (Add_keys_sorted m peers)

theorem ringAfter_sorted (replicas : Int) (fn : Option (String → Nat))
    (calls : List (List String)) : (ringAfter replicas fn calls).keys.Sorted (· ≤ ·) :=
  calls_fold_sorted calls _ List.sorted_nil

theorem replicaHashes_length (m : Map) (peers : List String) :
    (replicaHashes m peers).length = m.replicas.toNat * peers.length := by
  induction peers with
  | nil => simp [replicaHashes]
  | cons key peers ih =>
    simp only [replicaHashes, List.flatMap_cons, List.length_append, List.length_map,
      List.length_range, List.length_cons] at ih ⊢
    rw [ih]
    ring

theorem calls_fold_length : ∀ (calls : List (List String)) (m : Map),
    (calls.foldl Add m).keys.length
      = m.keys.length + m.replicas.toNat * (calls.map List.length).sum := by
  intro calls
  induction calls with
  | nil => intro m; simp
  | cons peers calls ih =>
    intro m
    rw [List.foldl_cons, ih, Add_replicas, (Add_keys_perm m peers).length_eq,
      List.length_append, replicaHashes_length]
    simp only [List.map_cons, List.sum_cons]
    ring

/-! ### Every hash of the ring has an owner -/

theorem mapGet_mapDelete_ne {κ ν : Type} [DecidableEq κ] (m : List (κ × ν)) {k k' : κ}
    (h : k ≠ k') : mapGet (mapDelete m k) k' = mapGet m k' := by
  induction m with
  | nil => rfl
  | cons a rest ih =>
    obtain ⟨k₀, v₀⟩ := a
    by_cases h0 : k₀ = k
    · subst h0
      have : mapDelete ((k₀, v₀) :: rest) k₀ = mapDelete rest k₀ := by
        simp [mapDelete]
      rw [this, ih]
      simp [mapGet, h]
    · have : mapDelete ((k₀, v₀) :: rest) k = (k₀, v₀) :: mapDelete rest k := by
        simp [mapDelete, h0]
      rw [this]
      simp only [mapGet, ih]

theorem mapGet_mapSet {κ ν : Type} [DecidableEq κ] (m : List (κ × ν)) (k k' : κ) (v : ν) :
    mapGet (mapSet m k v) k' = if k = k' then some v else mapGet m k' := by
  simp only [mapSet, mapGet]
  split
  · rfl
  · rename_i h
    exact mapGet_mapDelete_ne m h

theorem Owned_replicas (P : String → Prop) (key : String) (hk : P key) :
    ∀ (is : List Nat) (m : Map),
      (∀ k ∈ m.keys, ∃ peer, mapGet m.hashMap k = some peer ∧ P peer) →
      ∀ k ∈ (is.foldl (Add.replica key) m).keys,
        ∃ peer, mapGet (is.foldl (Add.replica key) m).hashMap k = some peer ∧ P peer := by
  intro is
  induction is with
  | nil => intro m h; exact h
  | cons i is ih =>
    intro m h
    rw [List.foldl_cons]
    apply ih
    intro k hkm
    simp only [Add.replica, List.mem_append, List.mem_singleton] at hkm
    simp only [Add.replica, mapGet_mapSet]
    by_cases he : hashInt m (toString i ++ key) = k
    · exact ⟨key, by simp [he], hk⟩
    · rcases hkm with hkm | hkm
      · obtain ⟨peer, hp1, hp2⟩ := h k hkm
        exact ⟨peer, by simp [he, hp1], hp2⟩
      · exact absurd hkm.symm he

theorem Owned_peers (P : String → Prop) : ∀ (peers : List String) (m : Map),
    (∀ key ∈ peers, P key) →
    (∀ k ∈ m.keys, ∃ peer, mapGet m.hashMap k = some peer ∧ P peer) →
    ∀ k ∈ (peers.foldl Add.peer m).keys,
      ∃ peer, mapGet (peers.foldl Add.peer m).hashMap k = some peer ∧ P peer := by
  intro peers
  induction peers with
  | nil => intro m _ h; exact h
  | cons key peers ih =>
    intro m hP h
    rw [List.foldl_cons]
    apply ih _ (fun k hk => hP k (List.mem_cons_of_mem _ hk))
    exact Owned_replicas P key (hP key (List.mem_cons_self _ _)) _ m h

theorem Owned_Add (P : String → Prop) (peers : List String) (m : Map)
    (hP : ∀ key ∈ peers, P key)
    (h : ∀ k ∈ m.keys, ∃ peer, mapGet m.hashMap k = some peer ∧ P peer) :
    ∀ k ∈ (Add m peers).keys, ∃ peer, mapGet (Add m peers).hashMap k = some peer ∧ P peer := by
  intro k hk
  have hk' : k ∈ (peers.foldl Add.peer m).keys :=
    (List.perm_insertionSort _ _).subset hk
  exact Owned_peers P peers m hP h k hk'

theorem Owned_calls (P : String → Prop) : ∀ (calls : List (List String)) (m : Map),
    (∀ peers ∈ calls, ∀ key ∈ peers, P key) →
    (∀ k ∈ m.keys, ∃ peer, mapGet m.hashMap k = some peer ∧ P peer) →
    ∀ k ∈ (calls.foldl Add m).keys,
      ∃ peer, mapGet (calls.foldl Add m).hashMap k = some peer ∧ P peer := by
  intro calls
  induction calls with
  | nil => intro m _ h; exact h
  | cons peers calls ih =>
    intro m hP h
    rw [List.foldl_cons]
    apply ih _ (fun ps hps => hP ps (List.mem_cons_of_mem _ hps))
    exact Owned_Add P peers m (hP peers (List.mem_cons_self _ _)) h

theorem ringAfter_owned (replicas : Int) (fn : Option (String → Nat))
    (calls : List (List String)) :
    ∀ k ∈ (ringAfter replicas fn calls).keys,
      ∃ peer, mapGet (ringAfter replicas fn calls).hashMap k = some peer ∧
        peer ∈ calls.flatten := by
  apply Owned_calls (fun peer => peer ∈ calls.flatten) calls (New replicas fn)
  · intro peers hps key hkey
    exact List.mem_flatten.2 ⟨peers, hps, hkey⟩
  · intro k hk
    simp [New] at hk

/-! ### Claims on the ring -/

/-- C7: on every ring built by New and any sequence of Add calls, Get returns what the
specification's lookup returns: the empty identifier on a ring without hashes, and
otherwise the peer recorded for the first entry of the sorted hash array that is at
least the key's hash, the first entry of the array when there is none. -/
theorem Get_refines_GetSpec (replicas : Int) (fn : Option (String → Nat))
    (calls : List (List String)) (key : String) :
    Get (ringAfter replicas fn calls) key
      = some (GetSpec (ringAfter replicas fn calls) key) := by
  by_cases hne : (ringAfter replicas fn calls).keys = []
  · simp [Get, GetSpec, hne]
  · obtain ⟨i, hi, hfind, hget⟩ :=
      Get_of_sorted (ringAfter replicas fn calls) key (ringAfter_sorted replicas fn calls) hne
    rw [hget]
    simp only [GetSpec, hne, if_false, hfind, List.getD_eq_getElem _ _ hi]
    rfl

/-- C8, as amended: on every ring built by New(replicas, hash) and any sequence of Add
calls, the hash array has max(replicas, 0) entries for every peer argument passed, a
peer passed several times counting as often as it was passed; so with replicas not
negative and no peer passed twice its length is replicas times the number of distinct
peers, and with replicas positive it is that product in no other case. -/
theorem ring_size (replicas : Int) (fn : Option (String → Nat)) (calls : List (List String)) :
    ((ringAfter replicas fn calls).keys.length : Int)
        = max replicas 0 * ((calls.flatten.length : Nat) : Int) ∧
      (0 ≤ replicas → calls.flatten.Nodup →
        ((ringAfter replicas fn calls).keys.length : Int)
          = replicas * ((calls.flatten.dedup.length : Nat) : Int)) ∧
      (0 < replicas →
        (((ringAfter replicas fn calls).keys.length : Int)
            = replicas * ((calls.flatten.dedup.length : Nat) : Int) ↔
          calls.flatten.Nodup)) := by
  have h : ((ringAfter replicas fn calls).keys.length : Int)
      = max replicas 0 * ((calls.flatten.length : Nat) : Int) := by
    unfold ringAfter
    rw [calls_fold_length, List.length_flatten]
    simp only [New, List.length_nil, Nat.zero_add, Nat.cast_mul, Int.toNat_eq_max]
  refine ⟨h, ?_, ?_⟩
  · intro h0 hnd
    rw [h, hnd.dedup, max_eq_left h0]
  · intro hpos
    rw [h, max_eq_left (le_of_lt hpos)]
    constructor
    · intro heq
      have hlen : calls.flatten.length = calls.flatten.dedup.length := by
        have := Int.eq_of_mul_eq_mul_left (ne_of_gt hpos) heq
        exact_mod_cast this
      have hd : calls.flatten.dedup = calls.flatten :=
        (List.dedup_sublist calls.flatten).eq_of_length hlen.symm
      rw [← hd]
      exact List.nodup_dedup _
    · intro hnd
      rw [hnd.dedup]

/-- The ring of the seed scenario: three replicas, the peers "6", "4" and "2", each passed
once, give nine hashes. -/
theorem ring_size_witness :
    (0 : Int) ≤ 3 ∧ [["6", "4", "2"]].flatten.Nodup ∧
      ((ringAfter 3 none [["6", "4", "2"]]).keys.length : Int)
        = 3 * (([["6", "4", "2"]].flatten.dedup.length : Nat) : Int) :=
  ⟨by decide, by decide, (ring_size 3 none [["6", "4", "2"]]).2.1 (by decide) (by decide)⟩

/-- C8 fails as stated: one Add call that names the peer "a" twice on a ring with one
replica leaves two hashes, not one times the one distinct peer. -/
theorem repeated_peer_counted_twice :
    ((ringAfter 1 none [["a", "a"]]).keys.length : Int)
      ≠ 1 * (((["a", "a"].dedup).length : Nat) : Int) := by
  decide

/-- C9: on every ring built by New and any sequence of Add calls, the hash array is in
non-decreasing order, and a further Add leaves it in non-decreasing order and a
rearrangement of the array before the call followed by the hashes of the replicas of
the peers of the call. -/
theorem ring_keys_sorted (replicas : Int) (fn : Option (String → Nat))
    (calls : List (List String)) (peers : List String) :
    (ringAfter replicas fn calls).keys.Sorted (· ≤ ·) ∧
      (Add (ringAfter replicas fn calls) peers).keys.Sorted (· ≤ ·) ∧
      (Add (ringAfter replicas fn calls) peers).keys.Perm
        ((ringAfter replicas fn calls).keys ++
          peers.flatMap (fun peer =>
            (List.range (ringAfter replicas fn calls).replicas.toNat).map
              (fun i => hashInt (ringAfter replicas fn calls) (toString i ++ peer)))) :=
  ⟨ringAfter_sorted replicas fn calls, Add_keys_sorted _ peers, Add_keys_perm _ peers⟩

/-- C10: on every ring built by New and any sequence of Add calls, every entry of the
hash array is a key of hashMap and is mapped to a peer that was passed to Add; and when
the ring has a hash, Get returns, for every key, one of the peers that were passed to
Add (no index is out of range, no map lookup misses). -/
theorem ring_membership (replicas : Int) (fn : Option (String → Nat))
    (calls : List (List String)) :
    (∀ k ∈ (ringAfter replicas fn calls).keys,
        ∃ peer ∈ calls.flatten, mapGet (ringAfter replicas fn calls).hashMap k = some peer) ∧
      ((ringAfter replicas fn calls).keys ≠ [] →
        ∀ key, ∃ peer ∈ calls.flatten, Get (ringAfter replicas fn calls) key = some peer) := by
  have hown := ringAfter_owned replicas fn calls
  constructor
  · intro k hk
    obtain ⟨peer, h1, h2⟩ := hown k hk
    exact ⟨peer, h2, h1⟩
  · intro hne key
    obtain ⟨i, hi, _, hget⟩ :=
      Get_of_sorted (ringAfter replicas fn calls) key (ringAfter_sorted replicas fn calls) hne
    obtain ⟨peer, h1, h2⟩ := hown _ (List.get_mem _ i hi)
    refine ⟨peer, h2, ?_⟩
    rw [hget, h1]
    rfl

/-- A ring of two peers with two replicas each under the hash that takes the length of its
input. -/
theorem ring_membership_witness :
    (ringAfter 2 (some (fun s => s.length)) [["a", "bb"]]).keys ≠ [] ∧
      ∀ key, ∃ peer ∈ [["a", "bb"]].flatten,
        Get (ringAfter 2 (some (fun s => s.length)) [["a", "bb"]]) key = some peer :=
  ⟨by decide, (ring_membership 2 (some (fun s => s.length)) [["a", "bb"]]).2 (by decide)⟩

end consistenthash

/-! ## The eviction-callback scenario -/

namespace lru

/-- C20: what the store does in the eviction-callback test as it is written, with
`New(int64(1), callback)`: every entry is larger than one byte, so each of the four
insertions evicts the entry it has just made; the callback receives "key1", "k2", "k3",
"k4" and no entry is left. The test expects the keys "key1", "k2" only. -/
theorem callback_budget_one :
    ∃ c, run (New 1 true) callbackOps = some c ∧
      c.evicted.map entry.key = ["key1", "k2", "k3", "k4"] ∧
      c.ll.map (fun e => e.kv.key) = [] ∧ Len c = 0 := by
  refine ⟨{ maxBytes := 1, nbytes := 0, ll := [], cache := [], OnEvicted := true,
            evicted := [⟨"key1", StringValue "1234"⟩, ⟨"k2", StringValue "k2"⟩,
              ⟨"k3", StringValue "k3"⟩, ⟨"k4", StringValue "k4"⟩],
            nextPtr := 4,
            seen := [⟨[], [], 0⟩, ⟨[], [], 0⟩, ⟨[], [], 0⟩, ⟨[], [], 0⟩] },
    by decide, by decide, by decide, by decide⟩

/-- With the budget of ten bytes that the comment of the eviction-callback test names,
the callback receives "key1" and "k2", in that order, and "k3" and "k4" stay. -/
theorem callback_budget_ten :
    ∃ c, run (New 10 true) callbackOps = some c ∧
      c.evicted.map entry.key = ["key1", "k2"] ∧
      c.ll.map (fun e => e.kv.key) = ["k4", "k3"] := by
  refine ⟨{ maxBytes := 10, nbytes := 8,
            ll := [⟨3, ⟨"k4", StringValue "k4"⟩⟩, ⟨2, ⟨"k3", StringValue "k3"⟩⟩],
            cache := [("k4", 3), ("k3", 2)], OnEvicted := true,
            evicted := [⟨"key1", StringValue "1234"⟩, ⟨"k2", StringValue "k2"⟩],
            nextPtr := 4,
            seen := [⟨[⟨1, ⟨"k2", StringValue "k2"⟩⟩], [("k2", 1)], 4⟩,
              ⟨[⟨3, ⟨"k4", StringValue "k4"⟩⟩, ⟨2, ⟨"k3", StringValue "k3"⟩⟩],
                [("k4", 3), ("k3", 2)], 8⟩] },
    by decide, by decide, by decide⟩

end lru

/-! ## Single flight, one call at a time -/

namespace singleflight

/-- C17: a Do(key, fn) that starts when no call for key is in the index runs fn once on
the world (the world after Do is the world after one run of fn), returns the pair of
fn unchanged, whether the error is nil or not, leaves every other key of the index as it
was and key out of the index; so a Do(key, fn') that follows runs fn' afresh on the
world that fn left and returns the pair of fn'. -/
theorem Do_sequential {σ ρ ε : Type} (g : Group ρ ε) (key : String)
    (fn fn' : σ → Except Fault ((Option ρ × Option ε) × σ)) (w w' w'' : σ)
    (r r' : Option ρ × Option ε)
    (hkey : mapGet (g.m.getD []) key = none) (hfn : fn w = .ok (r, w'))
    (hfn' : fn' w' = .ok (r', w'')) :
    ∃ g' g'', Do g key fn w = .ok (r, g', w') ∧
      mapGet (g'.m.getD []) key = none ∧
      (∀ k, k ≠ key → mapGet (g'.m.getD []) k = mapGet (g.m.getD []) k) ∧
      Do g' key fn' w' = .ok (r', g'', w'') ∧
      mapGet (g''.m.getD []) key = none := by
  have hdel : ∀ (m : List (String × call ρ ε)) (c c' : call ρ ε),
      mapDelete (mapSet (mapSet m key c) key c') key = mapDelete m key := by
    intro m c c'
    simp [mapSet, mapDelete, List.filter_filter]
  have hnone : ∀ (m : List (String × call ρ ε)), mapGet (mapDelete m key) key = none := by
    intro m
    rw [mapGet_eq_none_iff]
    intro hmem
    rcases List.mem_map.1 hmem with ⟨p, hp, hpk⟩
    have := (List.mem_filter.1 hp).2
    simp [hpk] at this
  have hdo : ∀ (g₀ : Group ρ ε) (f : σ → Except Fault ((Option ρ × Option ε) × σ))
      (u u' : σ) (q : Option ρ × Option ε),
      mapGet (g₀.m.getD []) key = none → f u = .ok (q, u') →
      Do g₀ key f u = .ok (q, { m := some (mapDelete (g₀.m.getD []) key) }, u') := by
    intro g₀ f u u' q h0 hf
    obtain ⟨q1, q2⟩ := q
    simp only [Do, h0, hf, hdel]
  refine ⟨{ m := some (mapDelete (g.m.getD []) key) },
    { m := some (mapDelete (mapDelete (g.m.getD []) key) key) },
    hdo g fn w w' r hkey hfn, hnone _, ?_, ?_, hnone _⟩
  · intro k hk
    exact consistenthash.mapGet_mapDelete_ne _ (fun e => hk e.symm)
  · exact hdo _ fn' w' w'' r' (hnone _) hfn'

/-- A fresh single-flight group, a function that counts its runs and fails, and a second
one that succeeds: each of the two calls runs its function once and returns its pair. -/
theorem Do_sequential_witness :
    ∃ g' g'', Do ({ m := none } : Group String String) "x"
          (fun n : Nat => .ok ((none, some "boom"), n + 1)) 0
        = .ok ((none, some "boom"), g', 1) ∧
      mapGet (g'.m.getD []) "x" = none ∧
      (∀ k, k ≠ "x" → mapGet (g'.m.getD []) k
        = mapGet ((({ m := none } : Group String String)).m.getD []) k) ∧
      Do g' "x" (fun n : Nat => .ok ((some "v", none), n + 1)) 1
        = .ok ((some "v", none), g'', 2) ∧
      mapGet (g''.m.getD []) "x" = none :=
  Do_sequential ({ m := none } : Group String String) "x"
    (fun n : Nat => .ok ((none, some "boom"), n + 1))
    (fun n : Nat => .ok ((some "v", none), n + 1)) 0 1 2 (none, some "boom") (some "v", none)
    rfl rfl rfl

end singleflight


/-! ## The concurrent cache -/

namespace yolocache

theorem asByteView_toValue (v : ByteView) : asByteView v.toValue = some v := by
  simp [asByteView, ByteView.toValue, ByteView.Len]

theorem asByteView_of_view {v : lru.Value} (h : v.Len = (v.data.utf8ByteSize : Int)) :
    asByteView v = some ⟨v.data⟩ := by
  simp [asByteView, h]

theorem toValue_Len_nonneg (v : ByteView) : 0 ≤ v.toValue.Len := by
  simp [ByteView.toValue, ByteView.Len]

theorem cache_WF_zero (cacheBytes : Int) : (cache.zero cacheBytes).WF := by
  constructor
  · rfl
  · intro l hl
    simp [cache.zero] at hl

theorem StoreOK_Get {cacheBytes : Int} {l : lru.Cache} (h : StoreOK cacheBytes l)
    (key : String) : StoreOK cacheBytes (lru.Get l key).1 := by
  constructor
  · exact lru.WF_Get h.wf key
  · rw [lru.Get_maxBytes]
    exact h.budget
  · intro e he
    by_cases hk : key ∈ l.ll.map (fun e => e.kv.key)
    · rcases List.mem_map.1 hk with ⟨x, hx, hxk⟩
      subst hxk
      rw [lru.Get_live h.wf hx] at he
      exact h.views e ((lru.perm_cons_filter_key h.wf hx).subset he)
    · rw [lru.Get_miss h.wf hk] at he
      exact h.views e he
  · rw [lru.Get_maxBytes, lru.Get_nbytes]
    exact h.guard

theorem StoreOK_Add {cacheBytes : Int} {l l' : lru.Cache} (hwf : lru.WF l)
    (hbudget : l.maxBytes = cacheBytes)
    (hviews : ∀ e ∈ l.ll, e.kv.value.Len = (e.kv.value.data.utf8ByteSize : Int))
    {key : String} {value : lru.Value} (hv : value.Len = (value.data.utf8ByteSize : Int))
    (hadd : lru.Add l key value = some l') : StoreOK cacheBytes l' := by
  have hev : lru.Add.evict ((lru.Add.upsert l key value).ll.length + 1)
      (lru.Add.upsert l key value) = some l' := hadd
  constructor
  · exact lru.WF_Add hwf hadd
  · rw [lru.evict_maxBytes _ hev, lru.upsert_maxBytes]
    exact hbudget
  · intro e he
    have he1 := (lru.evict_sublist _ hev).subset he
    by_cases hk : key ∈ l.ll.map (fun e => e.kv.key)
    · rcases List.mem_map.1 hk with ⟨x, hx, hxk⟩
      subst hxk
      rw [lru.upsert_live hwf hx] at he1
      rcases List.mem_cons.1 he1 with he2 | he2
      · subst he2
        exact hv
      · exact hviews e (List.mem_of_mem_filter he2)
    · rw [lru.upsert_new hwf hk] at he1
      rcases List.mem_cons.1 he1 with he2 | he2
      · subst he2
        exact hv
      · exact hviews e he2
  · exact lru.evict_guard _ hev

/-- The store that `add` works on: the resident one, or a new one when `once` has not
run. -/
theorem cache_add_eq {c : cache} (wf : c.WF) (key : String) (value : ByteView) :
    c.add key value =
      match lru.Add (c.lru.getD (lru.New c.cacheBytes false)) key value.toValue with
      | none => .error .hang
      | some l' => .ok { lru := some l', cacheBytes := c.cacheBytes, once := true } := by
  obtain ⟨lru₀, cacheBytes, once⟩ := c
  have ho := wf.once_iff
  simp only at ho
  cases lru₀ with
  | none =>
    simp only [Option.isSome_none] at ho
    subst ho
    simp only [cache.add, Bool.false_eq_true, if_false, Option.getD_none]
  | some l =>
    simp only [Option.isSome_some] at ho
    subst ho
    simp only [cache.add, if_true, Option.getD_some]

theorem cache_WF_add {c c' : cache} (wf : c.WF) {key : String} {value : ByteView}
    (h : c.add key value = .ok c') : c'.WF := by
  rw [cache_add_eq wf] at h
  have hbase : lru.WF (c.lru.getD (lru.New c.cacheBytes false)) ∧
      (c.lru.getD (lru.New c.cacheBytes false)).maxBytes = c.cacheBytes ∧
      ∀ e ∈ (c.lru.getD (lru.New c.cacheBytes false)).ll,
        e.kv.value.Len = (e.kv.value.data.utf8ByteSize : Int) := by
    cases hl : c.lru with
    | none => exact ⟨lru.WF_New _ _, rfl, fun e he => by simp [lru.New] at he⟩
    | some l => exact ⟨(wf.store l hl).wf, (wf.store l hl).budget, (wf.store l hl).views⟩
  cases hadd : lru.Add (c.lru.getD (lru.New c.cacheBytes false)) key value.toValue with
  | none => simp [hadd] at h
  | some l' =>
    simp only [hadd, Except.ok.injEq] at h
    subst h
    constructor
    · rfl
    · intro l hl
      simp only [Option.some.injEq] at hl
      subst hl
      exact StoreOK_Add hbase.1 hbase.2.1 hbase.2.2 (by simp [ByteView.toValue, ByteView.Len]) hadd

theorem cache_get_none {c : cache} (h : c.lru = none) (key : String) :
    c.get key = .ok (c, none) := by
  simp [cache.get, h]

/-- On a cache whose store exists, `get` is the `Get` of that store. -/
theorem cache_get_some {c : cache} (wf : c.WF) {l : lru.Cache} (h : c.lru = some l)
    (key : String) :
    c.get key = .ok ({ c with lru := some (lru.Get l key).1 },
      (lru.Get l key).2.map (fun v => (⟨v.data⟩ : ByteView))) := by
  have hs := wf.store l h
  by_cases hk : key ∈ l.ll.map (fun e => e.kv.key)
  · rcases List.mem_map.1 hk with ⟨x, hx, hxk⟩
    subst hxk
    have hview := asByteView_of_view (hs.views x hx)
    simp only [cache.get, h, lru.Get_live hs.wf hx, hview, Option.map_some']
  · simp only [cache.get, h, lru.Get_miss hs.wf hk, Option.map_none']

theorem cache_WF_get {c c' : cache} (wf : c.WF) {key : String} {r : Option ByteView}
    (h : c.get key = .ok (c', r)) : c'.WF := by
  cases hl : c.lru with
  | none =>
    rw [cache_get_none hl] at h
    simp only [Except.ok.injEq, Prod.mk.injEq] at h
    exact h.1 ▸ wf
  | some l =>
    rw [cache_get_some wf hl] at h
    simp only [Except.ok.injEq, Prod.mk.injEq] at h
    rw [← h.1]
    constructor
    · have := wf.once_iff
      rw [hl] at this
      exact this
    · intro l' hl'
      simp only [Option.some.injEq] at hl'
      subst hl'
      exact StoreOK_Get (wf.store l hl) key

theorem cache_WF_step {c c' : cache} (wf : c.WF) {op : cache.Call}
    (h : c.step op = .ok c') : c'.WF := by
  cases op with
  | add key value => exact cache_WF_add wf h
  | get key =>
    simp only [cache.step] at h
    cases hg : c.get key with
    | error f => simp [hg] at h
    | ok p =>
      obtain ⟨c1, r⟩ := p
      simp only [hg, Except.ok.injEq] at h
      subst h
      exact cache_WF_get wf hg

theorem cache_WF_run {c c' : cache} (wf : c.WF) {ops : List cache.Call}
    (h : c.run ops = .ok c') : c'.WF := by
  induction ops generalizing c with
  | nil =>
    simp only [cache.run, Except.ok.injEq] at h
    exact h ▸ wf
  | cons op ops ih =>
    simp only [cache.run] at h
    cases hs : c.step op with
    | error f => simp [hs] at h
    | ok c1 =>
      simp only [hs] at h
      exact ih (cache_WF_step wf hs) h

end yolocache


namespace lru

/-- After an Add that returns, an entry under the added key holds the added value. -/
theorem Add_value {l l' : Cache} (wf : WF l) {key : String} {value : Value}
    (h : Add l key value = some l') : ∀ e ∈ l'.ll, e.kv.key = key → e.kv.value = value := by
  intro e he hek
  have hev : Add.evict ((Add.upsert l key value).ll.length + 1) (Add.upsert l key value)
      = some l' := h
  have he1 := (evict_sublist _ hev).subset he
  by_cases hk : key ∈ l.ll.map (fun e => e.kv.key)
  · rcases List.mem_map.1 hk with ⟨x, hx, hxk⟩
    subst hxk
    rw [upsert_live wf hx] at he1
    rcases List.mem_cons.1 he1 with he2 | he2
    · subst he2
      rfl
    · have := (List.mem_filter.1 he2).2
      simp [hek] at this
  · rw [upsert_new wf hk] at he1
    rcases List.mem_cons.1 he1 with he2 | he2
    · subst he2
      rfl
    · exact absurd (hek ▸ List.mem_map_of_mem (fun e => e.kv.key) he2) hk

end lru

namespace yolocache

theorem cache_add_cacheBytes {c c' : cache} {key : String} {value : ByteView}
    (h : c.add key value = .ok c') : c'.cacheBytes = c.cacheBytes := by
  obtain ⟨l₀, cb, once⟩ := c
  cases once with
  | false =>
    simp only [cache.add, Bool.false_eq_true, if_false] at h
    cases hadd : lru.Add (lru.New cb false) key value.toValue with
    | none => simp [hadd] at h
    | some l' =>
      simp only [hadd, Except.ok.injEq] at h
      rw [← h]
  | true =>
    cases l₀ with
    | none => simp [cache.add] at h
    | some l =>
      simp only [cache.add, if_true] at h
      cases hadd : lru.Add l key value.toValue with
      | none => simp [hadd] at h
      | some l' =>
        simp only [hadd, Except.ok.injEq] at h
        rw [← h]

theorem cache_get_cacheBytes {c c' : cache} {key : String} {r : Option ByteView}
    (h : c.get key = .ok (c', r)) : c'.cacheBytes = c.cacheBytes := by
  unfold cache.get at h
  split at h
  · simp only [Except.ok.injEq, Prod.mk.injEq] at h
    rw [← h.1]
  · split at h
    · split at h
      · simp only [Except.ok.injEq, Prod.mk.injEq] at h
        rw [← h.1]
      · simp at h
    · simp only [Except.ok.injEq, Prod.mk.injEq] at h
      rw [← h.1]

theorem cache_run_cacheBytes {c c' : cache} {ops : List cache.Call}
    (h : c.run ops = .ok c') : c'.cacheBytes = c.cacheBytes := by
  induction ops generalizing c with
  | nil =>
    simp only [cache.run, Except.ok.injEq] at h
    rw [← h]
  | cons op ops ih =>
    simp only [cache.run] at h
    cases hs : c.step op with
    | error f => simp [hs] at h
    | ok c1 =>
      simp only [hs] at h
      rw [ih h]
      cases op with
      | add key value => exact cache_add_cacheBytes hs
      | get key =>
        simp only [cache.step] at hs
        cases hg : c.get key with
        | error f => simp [hg] at hs
        | ok p =>
          obtain ⟨c2, r⟩ := p
          simp only [hg, Except.ok.injEq] at hs
          subst hs
          exact cache_get_cacheBytes hg

/-- After an `add` that returns, a `get` of the added key returns the added view if the
store still holds the key. -/
theorem cache_get_after_add {c c' : cache} (wf : c.WF) {key : String} {value : ByteView}
    (h : c.add key value = .ok c') {l' : lru.Cache} (hl' : c'.lru = some l')
    (hkey : key ∈ l'.ll.map (fun e => e.kv.key)) :
    ∃ c'', c'.get key = .ok (c'', some value) := by
  have wf' := cache_WF_add wf h
  have hbase : lru.WF (c.lru.getD (lru.New c.cacheBytes false)) := by
    cases hl : c.lru with
    | none => exact lru.WF_New _ _
    | some l => exact (wf.store l hl).wf
  rw [cache_add_eq wf] at h
  cases hadd : lru.Add (c.lru.getD (lru.New c.cacheBytes false)) key value.toValue with
  | none => simp [hadd] at h
  | some l₁ =>
    simp only [hadd, Except.ok.injEq] at h
    subst h
    simp only [Option.some.injEq] at hl'
    subst hl'
    rcases List.mem_map.1 hkey with ⟨e, he, hek⟩
    have hval := lru.Add_value hbase hadd e he hek
    subst hek
    have hget := cache_get_some wf' (l := l₁) rfl e.kv.key
    rw [lru.Get_live (wf'.store l₁ rfl).wf he, hval] at hget
    exact ⟨_, hget⟩

/-- C19: on a concurrent cache reached from its zero value by add and get calls, while
the store has never been made a get misses and leaves the cache as it is, store
unmade; the first add makes the store with `lru.New(cacheBytes, nil)` and is the Add of
that store (it returns when cacheBytes is not negative, and the store it leaves has
maxBytes = cacheBytes); once the store exists, add and get are the Add and the Get of
that one store; and a get that follows an add of (key, v) returns v if the store
still holds key. -/
theorem cache_lazy_init (cacheBytes : Int) (ops : List cache.Call) (c : cache)
    (key : String) (value : ByteView) (h : (cache.zero cacheBytes).run ops = .ok c) :
    (c.lru = none → c.get key = .ok (c, none)) ∧
      (c.lru = none →
        c.add key value =
          match lru.Add (lru.New cacheBytes false) key value.toValue with
          | none => .error .hang
          | some l' => .ok { lru := some l', cacheBytes := cacheBytes, once := true }) ∧
      (c.lru = none → 0 ≤ cacheBytes →
        ∃ l', lru.Add (lru.New cacheBytes false) key value.toValue = some l' ∧
          l'.maxBytes = cacheBytes ∧
          c.add key value = .ok { lru := some l', cacheBytes := cacheBytes, once := true }) ∧
      (∀ l, c.lru = some l →
        (c.add key value =
          match lru.Add l key value.toValue with
          | none => .error .hang
          | some l' => .ok { lru := some l', cacheBytes := cacheBytes, once := true }) ∧
        c.get key = .ok ({ c with lru := some (lru.Get l key).1 },
          (lru.Get l key).2.map (fun v => (⟨v.data⟩ : ByteView)))) ∧
      (∀ c' l', c.add key value = .ok c' → c'.lru = some l' →
        key ∈ l'.ll.map (fun e => e.kv.key) → ∃ c'', c'.get key = .ok (c'', some value)) := by
  have wf := cache_WF_run (cache_WF_zero cacheBytes) h
  have hcb : c.cacheBytes = cacheBytes := cache_run_cacheBytes h
  have hadd := cache_add_eq wf key value
  rw [hcb] at hadd
  refine ⟨fun hn => cache_get_none hn key, ?_, ?_, ?_, ?_⟩
  · intro hn
    rw [hadd, hn]
    rfl
  · intro hn h0
    obtain ⟨l', hl'⟩ := lru.Add_terminates (lru.WF_New cacheBytes false) h0 key value.toValue
    refine ⟨l', hl', ?_, ?_⟩
    · have hev : lru.Add.evict
          ((lru.Add.upsert (lru.New cacheBytes false) key value.toValue).ll.length + 1)
          (lru.Add.upsert (lru.New cacheBytes false) key value.toValue) = some l' := hl'
      rw [lru.evict_maxBytes _ hev, lru.upsert_maxBytes]
      rfl
    · rw [hadd, hn]
      simp only [Option.getD_none, hl']
  · intro l hl
    refine ⟨?_, cache_get_some wf hl key⟩
    rw [hadd, hl]
    rfl
  · intro c' l' hc' hl' hkey
    exact cache_get_after_add wf hc' hl' hkey

/-- The cache of the scores group: a get before any add, then the first add of
("Tom", "630") under the budget 2048. -/
theorem cache_lazy_init_witness :
    (cache.zero 2048).run [.get "Tom"] = .ok (cache.zero 2048) ∧
      (cache.zero 2048).get "Tom" = .ok (cache.zero 2048, none) ∧
      ∃ l', lru.Add (lru.New 2048 false) "Tom" (ByteView.toValue ⟨"630"⟩) = some l' ∧
        l'.maxBytes = 2048 ∧
        (cache.zero 2048).add "Tom" ⟨"630"⟩
          = .ok { lru := some l', cacheBytes := 2048, once := true } :=
  have h := cache_lazy_init 2048 [.get "Tom"] (cache.zero 2048) "Tom" ⟨"630"⟩ rfl
  ⟨rfl, h.1 rfl, h.2.2.1 rfl (by decide)⟩

end yolocache


namespace lru

/-- After an Add that returns, every entry is the added one or was there before. -/
theorem Add_mem {l l' : Cache} (wf : WF l) {key : String} {value : Value}
    (h : Add l key value = some l') :
    ∀ e ∈ l'.ll, e.kv = ⟨key, value⟩ ∨ e ∈ l.ll := by
  intro e he
  have hev : Add.evict ((Add.upsert l key value).ll.length + 1) (Add.upsert l key value)
      = some l' := h
  have he1 := (evict_sublist _ hev).subset he
  by_cases hk : key ∈ l.ll.map (fun e => e.kv.key)
  · rcases List.mem_map.1 hk with ⟨x, hx, hxk⟩
    subst hxk
    rw [upsert_live wf hx] at he1
    rcases List.mem_cons.1 he1 with he2 | he2
    · subst he2
      exact Or.inl rfl
    · exact Or.inr (List.mem_of_mem_filter he2)
  · rw [upsert_new wf hk] at he1
    rcases List.mem_cons.1 he1 with he2 | he2
    · subst he2
      exact Or.inl rfl
    · exact Or.inr he2

end lru

namespace yolocache

/-! ## The group keeps its invariant -/

theorem Frame_refl (g : Group) : g.Frame g := ⟨rfl, rfl, rfl, rfl⟩

theorem Frame_trans {g₁ g₂ g₃ : Group} (h₁ : g₁.Frame g₂) (h₂ : g₂.Frame g₃) : g₁.Frame g₃ :=
  ⟨h₂.1.trans h₁.1, h₂.2.1.trans h₁.2.1, h₂.2.2.1.trans h₁.2.2.1, h₂.2.2.2.trans h₁.2.2.2⟩

theorem getLocally_error {g : Group} {key err : String} (h : g.getter key = .error err) :
    g.getLocally key
      = .ok ({ g with events := g.events ++ [Event.getterGet key] }, (⟨""⟩, some err)) := by
  simp only [Group.getLocally, h]

theorem getLocally_ok {g : Group} {key bytes : String} (h : g.getter key = .ok bytes) :
    g.getLocally key =
      match g.mainCache.add key ⟨bytes⟩ with
      | .error f => .error f
      | .ok c =>
        .ok ({ g with mainCache := c
                      events := g.events ++ [Event.getterGet key, Event.cacheAdd key] },
          (⟨bytes⟩, none)) := by
  simp only [Group.getLocally, h, Group.populateCache, cloneBytes]
  cases g.mainCache.add key ⟨bytes⟩ with
  | error f => rfl
  | ok c => simp

theorem cache_add_loaded {c c' : cache} (wf : c.WF) {key bytes : String} {getter : Getter}
    (hload : ∀ l, c.lru = some l → ∀ e ∈ l.ll, getter e.kv.key = .ok e.kv.value.data)
    (hkey : getter key = .ok bytes) (h : c.add key ⟨bytes⟩ = .ok c') :
    ∀ l, c'.lru = some l → ∀ e ∈ l.ll, getter e.kv.key = .ok e.kv.value.data := by
  have hbase : lru.WF (c.lru.getD (lru.New c.cacheBytes false)) := by
    cases hl : c.lru with
    | none => exact lru.WF_New _ _
    | some l => exact (wf.store l hl).wf
  rw [cache_add_eq wf] at h
  cases hadd : lru.Add (c.lru.getD (lru.New c.cacheBytes false)) key
      (ByteView.toValue ⟨bytes⟩) with
  | none => simp [hadd] at h
  | some l₁ =>
    simp only [hadd, Except.ok.injEq] at h
    subst h
    intro l hl e he
    simp only [Option.some.injEq] at hl
    subst hl
    rcases lru.Add_mem hbase hadd e he with hnew | hold
    · rw [hnew]
      exact hkey
    · cases hl : c.lru with
      | none =>
        rw [hl] at hold
        simp [lru.New] at hold
      | some l₀ =>
        rw [hl] at hold
        exact hload l₀ hl e hold

theorem getLocally_WF {g g' : Group} (wf : g.WF) {key : String} {r : Reply}
    (h : g.getLocally key = .ok (g', r)) : g'.WF ∧ g.Frame g' ∧ g'.loader = g.loader := by
  cases hg : g.getter key with
  | error err =>
    rw [getLocally_error hg] at h
    simp only [Except.ok.injEq, Prod.mk.injEq] at h
    rw [← h.1]
    exact ⟨⟨wf.cache, wf.flight, wf.loaded⟩, Frame_refl g, rfl⟩
  | ok bytes =>
    rw [getLocally_ok hg] at h
    cases hadd : g.mainCache.add key ⟨bytes⟩ with
    | error f => simp [hadd] at h
    | ok c =>
      simp only [hadd, Except.ok.injEq, Prod.mk.injEq] at h
      rw [← h.1]
      exact ⟨⟨cache_WF_add wf.cache hadd, wf.flight,
        cache_add_loaded wf.cache wf.loaded hg hadd⟩,
        ⟨rfl, rfl, rfl, cache_add_cacheBytes hadd⟩, rfl⟩

theorem events_WF {g : Group} (wf : g.WF) (es : List Event) :
    ({ g with events := es } : Group).WF :=
  ⟨wf.cache, wf.flight, wf.loaded⟩

theorem load_fn_WF {g g' : Group} (wf : g.WF) {key : String} {rp rp' : Reply}
    {res : Option ByteView × Option String}
    (h : Group.load.fn key (g, rp) = .ok (res, (g', rp'))) :
    g'.WF ∧ g.Frame g' ∧ g'.loader = g.loader := by
  unfold Group.load.fn at h
  simp only at h
  split at h
  · rename_i picker hp
    split at h
    · rename_i peer hpeer
      split at h
      · rename_i g2 value hfp
        simp only [Except.ok.injEq, Prod.mk.injEq] at h
        have : g2 = { g with events := g.events ++ [Event.pickPeer key]
                                ++ [Event.peerGet g.name key] } := by
          simp only [Group.getFromPeer] at hfp
          split at hfp <;> simp only [Prod.mk.injEq] at hfp <;> exact hfp.1.symm
        rw [← h.2.1, this]
        exact ⟨events_WF wf _, Frame_refl g, rfl⟩
      · rename_i g2 value err hfp
        have hg2 : g2 = { g with events := g.events ++ [Event.pickPeer key]
                                ++ [Event.peerGet g.name key] } := by
          simp only [Group.getFromPeer] at hfp
          split at hfp <;> simp only [Prod.mk.injEq] at hfp <;> exact hfp.1.symm
        cases hl : g2.getLocally key with
        | error f => simp [hl] at h
        | ok p =>
          obtain ⟨g3, v, e⟩ := p
          simp only [hl, Except.ok.injEq, Prod.mk.injEq] at h
          rw [← h.2.1]
          rw [hg2] at hl
          have hw := getLocally_WF
            (events_WF wf (g.events ++ [Event.pickPeer key] ++ [Event.peerGet g.name key])) hl
          exact hw
    · cases hl : Group.getLocally { g with events := g.events ++ [Event.pickPeer key] } key with
      | error f => simp [hl] at h
      | ok p =>
        obtain ⟨g3, v, e⟩ := p
        simp only [hl, Except.ok.injEq, Prod.mk.injEq] at h
        rw [← h.2.1]
        have hw := getLocally_WF (events_WF wf (g.events ++ [Event.pickPeer key])) hl
        exact hw
  · cases hl : g.getLocally key with
    | error f => simp [hl] at h
    | ok p =>
      obtain ⟨g3, v, e⟩ := p
      simp only [hl, Except.ok.injEq, Prod.mk.injEq] at h
      rw [← h.2.1]
      exact getLocally_WF wf hl

end yolocache


namespace yolocache

/-- With no call in flight, `load` runs its function literal once and leaves the index of
calls empty. -/
theorem load_eq {g : Group} (hflight : g.loader.m.getD [] = []) (key : String) :
    g.load key =
      match Group.load.fn key (g, ((⟨""⟩ : ByteView), none)) with
      | .error f => .error f
      | .ok ((view, err), (g', (value, _))) =>
        match err with
        | none =>
          match view with
          | some v => .ok ({ g' with loader := { m := some [] } }, (v, none))
          | none => .error (.panic "interface conversion: interface is nil, not ByteView")
        | some e => .ok ({ g' with loader := { m := some [] } }, (value, some e)) := by
  simp only [Group.load, singleflight.Do, hflight, mapGet]
  cases Group.load.fn key (g, ((⟨""⟩ : ByteView), none)) with
  | error f => rfl
  | ok p =>
    obtain ⟨⟨view, err⟩, g', value, e'⟩ := p
    simp [mapSet, mapDelete]

theorem load_WF {g g' : Group} (wf : g.WF) {key : String} {r : Reply}
    (h : g.load key = .ok (g', r)) : g'.WF ∧ g.Frame g' := by
  rw [load_eq wf.flight] at h
  cases hfn : Group.load.fn key (g, ((⟨""⟩ : ByteView), none)) with
  | error f => simp [hfn] at h
  | ok p =>
    obtain ⟨⟨view, err⟩, g₁, value, e'⟩ := p
    obtain ⟨wf₁, fr₁, _⟩ := load_fn_WF wf hfn
    have hres : ({ g₁ with loader := { m := some [] } } : Group).WF ∧
        g.Frame { g₁ with loader := { m := some [] } } :=
      ⟨⟨wf₁.cache, rfl, wf₁.loaded⟩, fr₁⟩
    simp only [hfn] at h
    cases err with
    | none =>
      cases view with
      | none => simp at h
      | some v =>
        simp only [Except.ok.injEq, Prod.mk.injEq] at h
        rw [← h.1]
        exact hres
    | some e =>
      simp only [Except.ok.injEq, Prod.mk.injEq] at h
      rw [← h.1]
      exact hres

theorem cache_get_loaded {c c' : cache} (wf : c.WF) {key : String} {r : Option ByteView}
    {getter : Getter}
    (hload : ∀ l, c.lru = some l → ∀ e ∈ l.ll, getter e.kv.key = .ok e.kv.value.data)
    (h : c.get key = .ok (c', r)) :
    ∀ l, c'.lru = some l → ∀ e ∈ l.ll, getter e.kv.key = .ok e.kv.value.data := by
  cases hl : c.lru with
  | none =>
    rw [cache_get_none hl] at h
    simp only [Except.ok.injEq, Prod.mk.injEq] at h
    rw [← h.1]
    exact hload
  | some l₀ =>
    rw [cache_get_some wf hl] at h
    simp only [Except.ok.injEq, Prod.mk.injEq] at h
    rw [← h.1]
    intro l hl' e he
    simp only [Option.some.injEq] at hl'
    subst hl'
    have hwf := (wf.store l₀ hl).wf
    by_cases hk : key ∈ l₀.ll.map (fun e => e.kv.key)
    · rcases List.mem_map.1 hk with ⟨x, hx, hxk⟩
      subst hxk
      rw [lru.Get_live hwf hx] at he
      exact hload l₀ hl e ((lru.perm_cons_filter_key hwf hx).subset he)
    · rw [lru.Get_miss hwf hk] at he
      exact hload l₀ hl e he

theorem Get_WF {g g' : Group} (wf : g.WF) {key : String} {r : Reply}
    (h : g.Get key = .ok (g', r)) : g'.WF ∧ g.Frame g' := by
  unfold Group.Get at h
  split at h
  · simp only [Except.ok.injEq, Prod.mk.injEq] at h
    rw [← h.1]
    exact ⟨wf, Frame_refl g⟩
  · cases hget : g.mainCache.get key with
    | error f => simp [hget] at h
    | ok p =>
      obtain ⟨c, res⟩ := p
      have hc := cache_WF_get wf.cache hget
      have hl := cache_get_loaded wf.cache wf.loaded hget
      have hcb := cache_get_cacheBytes hget
      have hmid : ({ g with mainCache := c, events := g.events ++ [Event.cacheGet key] }
          : Group).WF := ⟨hc, wf.flight, hl⟩
      cases res with
      | some v =>
        simp only [hget, Except.ok.injEq, Prod.mk.injEq] at h
        rw [← h.1]
        exact ⟨hmid, ⟨rfl, rfl, rfl, hcb⟩⟩
      | none =>
        simp only [hget] at h
        have hw := load_WF hmid h
        exact ⟨hw.1, ⟨hw.2.1, hw.2.2.1, hw.2.2.2.1, hw.2.2.2.2.trans hcb⟩⟩

theorem RegisterPeers_WF {g : Group} (wf : g.WF) (peers : Option PeerPicker) :
    (g.RegisterPeers peers).1.WF := by
  unfold Group.RegisterPeers
  split
  · exact wf
  · exact ⟨wf.cache, wf.flight, wf.loaded⟩

theorem step_registerPeers {g g' : Group} {peers : Option PeerPicker}
    (h : g.step (.registerPeers peers) = .ok g') :
    g.RegisterPeers peers = (g', none) := by
  simp only [Group.step] at h
  split at h
  · simp at h
  · rename_i g₁ heq
    simp only [Except.ok.injEq] at h
    rw [heq, h]

theorem step_WF {g g' : Group} (wf : g.WF) {op : Call} (h : g.step op = .ok g') : g'.WF := by
  cases op with
  | get key =>
    simp only [Group.step] at h
    cases hg : g.Get key with
    | error f => simp [hg] at h
    | ok p =>
      obtain ⟨g₁, r⟩ := p
      simp only [hg, Except.ok.injEq] at h
      subst h
      exact (Get_WF wf hg).1
  | registerPeers peers =>
    have := RegisterPeers_WF wf peers
    rw [step_registerPeers h] at this
    exact this

theorem run_WF {g g' : Group} (wf : g.WF) {ops : List Call} (h : g.run ops = .ok g') :
    g'.WF := by
  induction ops generalizing g with
  | nil =>
    simp only [Group.run, Except.ok.injEq] at h
    exact h ▸ wf
  | cons op ops ih =>
    simp only [Group.run] at h
    cases hs : g.step op with
    | error f => simp [hs] at h
    | ok g₁ =>
      simp only [hs] at h
      exact ih (step_WF wf hs) h

/-- A `NewGroup` with a getter returns `freshGroup`. -/
theorem NewGroup_ok (name : String) (cacheBytes : Int) (getter : Getter) :
    NewGroup name cacheBytes (some getter) = .ok (freshGroup name cacheBytes getter) := rfl

theorem freshGroup_WF (name : String) (cacheBytes : Int) (getter : Getter) :
    (freshGroup name cacheBytes getter).WF := by
  refine ⟨cache_WF_zero cacheBytes, rfl, ?_⟩
  intro l hl
  simp [freshGroup, cache.zero] at hl

end yolocache


namespace lru

/-- An entry that fits the budget is not evicted by the Add that writes it: the Add
returns and leaves it at the front. -/
theorem Add_retains_fitting {l : Cache} (wf : WF l) (key : String) (value : Value)
    (hfit : l.maxBytes = 0 ∨ entrySize ⟨key, value⟩ ≤ l.maxBytes)
    (hsize : 0 ≤ entrySize ⟨key, value⟩) :
    ∃ l' x rest, Add l key value = some l' ∧ l'.ll = x :: rest ∧ x.kv = ⟨key, value⟩ := by
  have h0 : 0 ≤ l.maxBytes := by
    rcases hfit with h | h
    · omega
    · omega
  obtain ⟨l', hl'⟩ := Add_terminates wf h0 key value
  have hev : Add.evict ((Add.upsert l key value).ll.length + 1) (Add.upsert l key value)
      = some l' := hl'
  have wf1 := WF_upsert wf key value
  obtain ⟨keep, gone, h1, h2, _, _, h5⟩ := evict_spec _ _ _ wf1 hev
  have hhead : ∃ x rest, (Add.upsert l key value).ll = x :: rest ∧ x.kv = ⟨key, value⟩ := by
    by_cases hk : key ∈ l.ll.map (fun e => e.kv.key)
    · rcases List.mem_map.1 hk with ⟨e, he, hke⟩
      subst hke
      rw [upsert_live wf he]
      exact ⟨_, _, rfl, rfl⟩
    · rw [upsert_new wf hk]
      exact ⟨_, _, rfl, rfl⟩
  obtain ⟨x, rest, hx, hxkv⟩ := hhead
  cases keep with
  | nil =>
    exfalso
    rw [List.nil_append] at h1
    have hgone : gone = [x] ++ rest := by rw [← h1, hx]; rfl
    have hmin := h5 [x] rest hgone (by simp)
    have hb := wf1.bytes
    rw [hx, liveBytes_cons, hxkv] at hb
    rw [upsert_maxBytes] at hmin
    rcases hfit with h | h
    · exact hmin.1 h
    · have h2 := hmin.2
      rw [hb] at h2
      simp only [wrap64] at h2
      omega
  | cons y keep' =>
    rw [hx, List.cons_append] at h1
    have hy : x = y := (List.cons.inj h1).1
    subst hy
    exact ⟨l', x, keep', hl', h2, hxkv⟩

end lru

namespace yolocache

/-! ## The paths of Get -/

theorem mainCache_get_miss {g : Group} (wf : g.WF) {key : String}
    (h : g.cached key = false) : g.mainCache.get key = .ok (g.mainCache, none) := by
  cases hl : g.mainCache.lru with
  | none => exact cache_get_none hl key
  | some l =>
    have hk : key ∉ l.ll.map (fun e => e.kv.key) := by
      simpa [Group.cached, hl] using h
    rw [cache_get_some wf.cache hl, lru.Get_miss (wf.cache.store l hl).wf hk]
    have : ({ g.mainCache with lru := some l } : cache) = g.mainCache := by
      rw [← hl]
    simp only [this, Option.map_none']

theorem mainCache_get_hit {g : Group} (wf : g.WF) {key : String}
    (h : g.cached key = true) :
    ∃ c bytes, g.mainCache.get key = .ok (c, some ⟨bytes⟩) ∧ g.getter key = .ok bytes ∧
      ∃ l, g.mainCache.lru = some l ∧
        ∃ e ∈ l.ll, e.kv.key = key ∧ e.kv.value = ByteView.toValue ⟨bytes⟩ := by
  cases hl : g.mainCache.lru with
  | none => simp [Group.cached, hl] at h
  | some l =>
    have hk : key ∈ l.ll.map (fun e => e.kv.key) := by
      simpa [Group.cached, hl] using h
    rcases List.mem_map.1 hk with ⟨e, he, hek⟩
    subst hek
    have hs := wf.cache.store l hl
    have hget := cache_get_some wf.cache hl e.kv.key
    rw [lru.Get_live hs.wf he] at hget
    refine ⟨_, e.kv.value.data, hget, wf.loaded l hl e he, l, rfl, e, he, rfl, ?_⟩
    have := hs.views e he
    cases hv : e.kv.value with
    | mk data len =>
      rw [hv] at this
      simp only at this
      simp [ByteView.toValue, ByteView.Len, this]

/-- A Get of a non-empty key that misses the local cache is a `load`. -/
theorem Get_miss_load {g : Group} (wf : g.WF) {key : String} (hkey : key ≠ "")
    (h : g.cached key = false) :
    g.Get key = Group.load { g with events := g.events ++ [Event.cacheGet key] } key := by
  simp only [Group.Get, hkey, if_false, mainCache_get_miss wf h]

/-- The function literal of `load` when the peer that the picker names answers. -/
theorem load_fn_peer {g : Group} {key bytes : String} {picker : PeerPicker}
    {peer : PeerGetter} (rp : Reply) (hp : g.peers = some picker)
    (hpick : picker key = some peer) (hpeer : peer g.name key = .ok bytes) :
    Group.load.fn key (g, rp)
      = .ok ((some ⟨bytes⟩, none),
          ({ g with events := g.events ++ [Event.pickPeer key, Event.peerGet g.name key] },
            (⟨bytes⟩, none))) := by
  simp [Group.load.fn, hp, hpick, Group.getFromPeer, hpeer]

/-- The function literal of `load` when no peer answers: it is the loader path, after
the calls on the picker and the peer. -/
theorem load_fn_local {g : Group} {key : String}
    (hpeer : ∀ bytes, g.peerReply key ≠ some (.ok bytes)) :
    Group.load.fn key (g, ((⟨""⟩ : ByteView), none)) =
      match Group.getLocally { g with events := g.events ++ g.askPeer key } key with
      | .error f => .error f
      | .ok (g₃, (v, e)) =>
        .ok ((some v, e), (g₃, ((⟨""⟩ : ByteView),
          match g.peerReply key with
          | some (.error pe) => some pe
          | _ => none))) := by
  obtain ⟨name, getter, mainCache, peers, loader, events⟩ := g
  cases peers with
  | none =>
    simp only [Group.load.fn, Group.askPeer, Group.peerReply, List.append_nil]
  | some picker =>
    cases hpick : picker key with
    | none =>
      simp only [Group.load.fn, hpick, Group.askPeer, Group.peerReply, Option.map_none']
    | some peer =>
      cases hget : peer name key with
      | ok bytes =>
        exact absurd (by simp [Group.peerReply, hpick, hget]) (hpeer bytes)
      | error pe =>
        simp only [Group.load.fn, hpick, Group.getFromPeer, hget, Group.askPeer,
          Group.peerReply, Option.map_some', List.append_assoc, List.singleton_append]

end yolocache


namespace yolocache

/-- A Get of a non-empty key that misses the local cache and that no peer answers is the
loader path, after the calls on the cache, the picker and the peer. -/
theorem Get_local {g : Group} (wf : g.WF) {key : String} (hkey : key ≠ "")
    (hmiss : g.cached key = false) (hpeer : ∀ bytes, g.peerReply key ≠ some (.ok bytes)) :
    g.Get key =
      match Group.getLocally
          { g with events := g.events ++ Event.cacheGet key :: g.askPeer key } key with
      | .error f => .error f
      | .ok (g₃, (v, none)) => .ok ({ g₃ with loader := { m := some [] } }, (v, none))
      | .ok (g₃, (_, some e)) => .ok ({ g₃ with loader := { m := some [] } }, (⟨""⟩, some e)) := by
  rw [Get_miss_load wf hkey hmiss,
    load_eq (g := { g with events := g.events ++ [Event.cacheGet key] }) wf.flight]
  have hfn := load_fn_local (g := { g with events := g.events ++ [Event.cacheGet key] })
    hpeer
  simp only [Group.askPeer, List.append_assoc, List.singleton_append] at hfn
  simp only [Group.askPeer]
  rw [hfn]
  cases Group.getLocally { g with events := g.events ++ Event.cacheGet key ::
      (match g.peers with
        | none => []
        | some picker =>
          match picker key with
          | none => [Event.pickPeer key]
          | some _ => [Event.pickPeer key, Event.peerGet g.name key]) } key with
  | error f => rfl
  | ok p =>
    obtain ⟨g₃, v, e⟩ := p
    cases e <;> rfl

/-- A Get of a non-empty key that misses the local cache and that a peer answers returns
the bytes of the peer and calls neither the loader nor the cache again. -/
theorem Get_remote {g : Group} (wf : g.WF) {key bytes : String} (hkey : key ≠ "")
    (hmiss : g.cached key = false) {picker : PeerPicker} {peer : PeerGetter}
    (hp : g.peers = some picker) (hpick : picker key = some peer)
    (hpeer : peer g.name key = .ok bytes) :
    g.Get key =
      .ok ({ g with
              events := g.events ++
                [Event.cacheGet key, Event.pickPeer key, Event.peerGet g.name key]
              loader := { m := some [] } }, (⟨bytes⟩, none)) := by
  rw [Get_miss_load wf hkey hmiss,
    load_eq (g := { g with events := g.events ++ [Event.cacheGet key] }) wf.flight]
  have hfn := load_fn_peer (g := { g with events := g.events ++ [Event.cacheGet key] })
    ((⟨""⟩ : ByteView), none) hp hpick hpeer
  rw [hfn]
  simp

theorem run_Frame {g g' : Group} (wf : g.WF) {ops : List Call} (h : g.run ops = .ok g') :
    g'.name = g.name ∧ g'.getter = g.getter ∧
      g'.mainCache.cacheBytes = g.mainCache.cacheBytes := by
  induction ops generalizing g with
  | nil =>
    simp only [Group.run, Except.ok.injEq] at h
    rw [← h]
    exact ⟨rfl, rfl, rfl⟩
  | cons op ops ih =>
    simp only [Group.run] at h
    cases hs : g.step op with
    | error f => simp [hs] at h
    | ok g₁ =>
      simp only [hs] at h
      obtain ⟨h1, h2, h3⟩ := ih (step_WF wf hs) h
      have hstep : g₁.name = g.name ∧ g₁.getter = g.getter ∧
          g₁.mainCache.cacheBytes = g.mainCache.cacheBytes := by
        cases op with
        | get key =>
          simp only [Group.step] at hs
          cases hg : g.Get key with
          | error f => simp [hg] at hs
          | ok p =>
            obtain ⟨g₂, r⟩ := p
            simp only [hg, Except.ok.injEq] at hs
            subst hs
            have hf := (Get_WF wf hg).2
            exact ⟨hf.1, hf.2.1, hf.2.2.2⟩
        | registerPeers peers =>
          have hr := step_registerPeers hs
          unfold Group.RegisterPeers at hr
          split at hr
          · simp at hr
          · simp only [Prod.mk.injEq, and_true] at hr
            rw [← hr]
            exact ⟨rfl, rfl, rfl⟩
      exact ⟨h1.trans hstep.1, h2.trans hstep.2.1, h3.trans hstep.2.2⟩

end yolocache


namespace yolocache

/-- The loader path when the loader fails: the error is returned, the cache is not
touched. -/
theorem Get_load_fails {g : Group} (wf : g.WF) {key err : String} (hkey : key ≠ "")
    (hmiss : g.cached key = false) (hpeer : ∀ bytes, g.peerReply key ≠ some (.ok bytes))
    (hload : g.getter key = .error err) :
    g.Get key =
      .ok ({ g with
              events := g.events ++ Event.cacheGet key :: g.askPeer key
                ++ [Event.getterGet key]
              loader := { m := some [] } }, (⟨""⟩, some err)) := by
  rw [Get_local wf hkey hmiss hpeer,
    getLocally_error (g := { g with events := g.events ++ Event.cacheGet key :: g.askPeer key })
      hload]

/-- The loader path when the loader succeeds: the bytes go to the local cache and are
returned, if the write to the cache returns. -/
theorem Get_loads {g : Group} (wf : g.WF) {key bytes : String} (hkey : key ≠ "")
    (hmiss : g.cached key = false) (hpeer : ∀ bytes, g.peerReply key ≠ some (.ok bytes))
    (hload : g.getter key = .ok bytes) :
    g.Get key =
      match g.mainCache.add key ⟨bytes⟩ with
      | .error f => .error f
      | .ok c =>
        .ok ({ g with
                mainCache := c
                events := g.events ++ Event.cacheGet key :: g.askPeer key
                  ++ [Event.getterGet key, Event.cacheAdd key]
                loader := { m := some [] } }, (⟨bytes⟩, none)) := by
  rw [Get_local wf hkey hmiss hpeer,
    getLocally_ok (g := { g with events := g.events ++ Event.cacheGet key :: g.askPeer key })
      hload]
  cases g.mainCache.add key ⟨bytes⟩ with
  | error f => rfl
  | ok c => simp

/-- A Get of a resident key returns the resident bytes, which are the bytes of the
loader, and calls nothing but the cache. -/
theorem Get_hit {g : Group} (wf : g.WF) {key : String} (hkey : key ≠ "")
    (hhit : g.cached key = true) :
    ∃ c bytes, g.getter key = .ok bytes ∧
      g.mainCache.get key = .ok (c, some ⟨bytes⟩) ∧
      g.Get key =
        .ok ({ g with mainCache := c, events := g.events ++ [Event.cacheGet key] },
          (⟨bytes⟩, none)) := by
  obtain ⟨c, bytes, hget, hload, _⟩ := mainCache_get_hit wf hhit
  refine ⟨c, bytes, hload, hget, ?_⟩
  simp only [Group.Get, hkey, if_false, hget]

/-- The write of a fitting entry to the cache of a group returns and leaves the key
resident. -/
theorem cache_add_fitting {c : cache} (wf : c.WF) (key bytes : String)
    (hfit : c.cacheBytes = 0 ∨
      (key.utf8ByteSize : Int) + (bytes.utf8ByteSize : Int) ≤ c.cacheBytes) :
    ∃ c' l', c.add key ⟨bytes⟩ = .ok c' ∧ c'.lru = some l' ∧
      key ∈ l'.ll.map (fun e => e.kv.key) := by
  have hbase : lru.WF (c.lru.getD (lru.New c.cacheBytes false)) ∧
      (c.lru.getD (lru.New c.cacheBytes false)).maxBytes = c.cacheBytes := by
    cases hl : c.lru with
    | none => exact ⟨lru.WF_New _ _, rfl⟩
    | some l => exact ⟨(wf.store l hl).wf, (wf.store l hl).budget⟩
  have hentry : lru.entrySize ⟨key, ByteView.toValue ⟨bytes⟩⟩
      = (key.utf8ByteSize : Int) + (bytes.utf8ByteSize : Int) := by
    simp [lru.entrySize, ByteView.toValue, ByteView.Len]
  obtain ⟨l', x, rest, hadd, hll, hx⟩ :=
    lru.Add_retains_fitting hbase.1 key (ByteView.toValue ⟨bytes⟩)
      (by rw [hbase.2, hentry]; exact hfit) (by rw [hentry]; positivity)
  refine ⟨{ lru := some l', cacheBytes := c.cacheBytes, once := true }, l', ?_, rfl, ?_⟩
  · rw [cache_add_eq wf]
    simp only [hadd]
  · rw [hll]
    simp [hx]

end yolocache


namespace yolocache

/-! ## Claims on the group -/

/-- C11: in a group reached from NewGroup that has no picker, for a non-empty key that is
not resident, on which the loader succeeds with bytes that fit the budget
(cacheBytes = 0 or len(key) + len(bytes) ≤ cacheBytes), two Get calls in a row both
return the bytes of the loader with a nil error; the first calls the cache, the loader
and the cache again, the second only the cache: the loader is called once. -/
theorem Get_memoizes (name : String) (cacheBytes : Int) (getter : Getter) (calls : List Call)
    (g : Group) (key bytes : String)
    (hrun : (freshGroup name cacheBytes getter).run calls = .ok g)
    (hpeers : g.peers = none) (hkey : key ≠ "") (hload : getter key = .ok bytes)
    (hmiss : g.cached key = false)
    (hfit : cacheBytes = 0 ∨
      (key.utf8ByteSize : Int) + (bytes.utf8ByteSize : Int) ≤ cacheBytes) :
    ∃ g₁ g₂, g.Get key = .ok (g₁, (⟨bytes⟩, none)) ∧
      g₁.events = g.events ++
        [Event.cacheGet key, Event.getterGet key, Event.cacheAdd key] ∧
      g₁.Get key = .ok (g₂, (⟨bytes⟩, none)) ∧
      g₂.events = g₁.events ++ [Event.cacheGet key] := by
  have wf := run_WF (freshGroup_WF name cacheBytes getter) hrun
  obtain ⟨_, hgetter, hcb⟩ := run_Frame (freshGroup_WF name cacheBytes getter) hrun
  have hload' : g.getter key = .ok bytes := by rw [hgetter]; exact hload
  have hpeer : ∀ b, g.peerReply key ≠ some (.ok b) := by
    intro b
    simp [Group.peerReply, hpeers]
  have hask : g.askPeer key = [] := by simp [Group.askPeer, hpeers]
  obtain ⟨c, l', hadd, hl', hin⟩ := cache_add_fitting wf.cache key bytes (by rw [hcb]; exact hfit)
  have hget := Get_loads wf hkey hmiss hpeer hload'
  simp only [hadd, hask, List.append_nil] at hget
  have wf₁ := (Get_WF wf hget).1
  have hhit : Group.cached
      { g with
        mainCache := c
        events := g.events ++ [Event.cacheGet key]
          ++ [Event.getterGet key, Event.cacheAdd key]
        loader := { m := some [] } } key = true := by
    simp only [Group.cached, hl']
    exact decide_eq_true hin
  obtain ⟨c₂, bytes₂, hload₂, _, hget₂⟩ := Get_hit wf₁ hkey hhit
  have hb : bytes₂ = bytes := by
    have : (Except.ok bytes₂ : Except String String) = .ok bytes := by
      rw [← hload₂, ← hload']
    exact Except.ok.inj this
  subst hb
  exact ⟨_, _, hget, by simp, hget₂, rfl⟩

/-- The group test: on the scores group with budget 2<<10 each of "Tom", "Jack" and "Sam"
is loaded by its first Get and served from the cache by its second. -/
theorem Get_memoizes_witness :
    (∃ g₁ g₂, scores.Get "Tom" = .ok (g₁, (⟨"630"⟩, none)) ∧
      g₁.events = scores.events ++
        [Event.cacheGet "Tom", Event.getterGet "Tom", Event.cacheAdd "Tom"] ∧
      g₁.Get "Tom" = .ok (g₂, (⟨"630"⟩, none)) ∧
      g₂.events = g₁.events ++ [Event.cacheGet "Tom"]) ∧
    (∃ g₁ g₂, (scoresAfter [.get "Tom", .get "Tom"]).Get "Jack" = .ok (g₁, (⟨"589"⟩, none)) ∧
      g₁.events = (scoresAfter [.get "Tom", .get "Tom"]).events ++
        [Event.cacheGet "Jack", Event.getterGet "Jack", Event.cacheAdd "Jack"] ∧
      g₁.Get "Jack" = .ok (g₂, (⟨"589"⟩, none)) ∧
      g₂.events = g₁.events ++ [Event.cacheGet "Jack"]) ∧
    (∃ g₁ g₂, (scoresAfter [.get "Tom", .get "Tom", .get "Jack", .get "Jack"]).Get "Sam"
        = .ok (g₁, (⟨"567"⟩, none)) ∧
      g₁.events = (scoresAfter [.get "Tom", .get "Tom", .get "Jack", .get "Jack"]).events ++
        [Event.cacheGet "Sam", Event.getterGet "Sam", Event.cacheAdd "Sam"] ∧
      g₁.Get "Sam" = .ok (g₂, (⟨"567"⟩, none)) ∧
      g₂.events = g₁.events ++ [Event.cacheGet "Sam"]) :=
  ⟨Get_memoizes "scores" 2048 dbGetter [] scores "Tom" "630" rfl rfl (by decide) rfl rfl
      (Or.inr (by decide)),
    Get_memoizes "scores" 2048 dbGetter [.get "Tom", .get "Tom"]
      (scoresAfter [.get "Tom", .get "Tom"]) "Jack" "589" rfl rfl (by decide) rfl rfl
      (Or.inr (by decide)),
    Get_memoizes "scores" 2048 dbGetter [.get "Tom", .get "Tom", .get "Jack", .get "Jack"]
      (scoresAfter [.get "Tom", .get "Tom", .get "Jack", .get "Jack"]) "Sam" "567" rfl rfl
      (by decide) rfl rfl (Or.inr (by decide))⟩

/-- C12: in a group reached from NewGroup, for a non-empty key that is not resident and
that no peer answers (no picker, no peer named, or a peer that fails), if the loader
returns the error e then Get returns e with the zero ByteView, the local cache is as it
was and the key is still not resident, and a second Get calls the loader again and
returns e again. -/
theorem Get_loader_error (name : String) (cacheBytes : Int) (getter : Getter)
    (calls : List Call) (g : Group) (key err : String)
    (hrun : (freshGroup name cacheBytes getter).run calls = .ok g)
    (hkey : key ≠ "") (hmiss : g.cached key = false)
    (hpeer : ∀ bytes, g.peerReply key ≠ some (.ok bytes))
    (hload : getter key = .error err) :
    ∃ g₁ g₂, g.Get key = .ok (g₁, (⟨""⟩, some err)) ∧
      g₁.mainCache = g.mainCache ∧ g₁.cached key = false ∧
      g₁.events = g.events ++ Event.cacheGet key :: g.askPeer key ++ [Event.getterGet key] ∧
      g₁.Get key = .ok (g₂, (⟨""⟩, some err)) ∧
      g₂.events = g₁.events ++ Event.cacheGet key :: g.askPeer key ++ [Event.getterGet key] := by
  have wf := run_WF (freshGroup_WF name cacheBytes getter) hrun
  obtain ⟨_, hgetter, _⟩ := run_Frame (freshGroup_WF name cacheBytes getter) hrun
  have hload' : g.getter key = .error err := by rw [hgetter]; exact hload
  have hget := Get_load_fails wf hkey hmiss hpeer hload'
  have wf₁ := (Get_WF wf hget).1
  have hget₂ := Get_load_fails wf₁ hkey hmiss hpeer hload'
  exact ⟨_, _, hget, rfl, hmiss, rfl, hget₂, rfl⟩

/-- The group test: Get("unknown") on the scores group returns the error of the loader,
leaves the cache as it was, and a second Get asks the loader again. -/
theorem Get_loader_error_witness :
    ∃ g₁ g₂, scores.Get "unknown" = .ok (g₁, (⟨""⟩, some "unknown not exist")) ∧
      g₁.mainCache = scores.mainCache ∧ g₁.cached "unknown" = false ∧
      g₁.events = scores.events ++ Event.cacheGet "unknown" :: scores.askPeer "unknown"
        ++ [Event.getterGet "unknown"] ∧
      g₁.Get "unknown" = .ok (g₂, (⟨""⟩, some "unknown not exist")) ∧
      g₂.events = g₁.events ++ Event.cacheGet "unknown" :: scores.askPeer "unknown"
        ++ [Event.getterGet "unknown"] :=
  Get_loader_error "scores" 2048 dbGetter [] scores "unknown" "unknown not exist" rfl
    (by decide) rfl (fun _ h => by simp [Group.peerReply, scores, freshGroup] at h) rfl

/-- C15: in every state of a group, Get("") returns the zero ByteView and the error
"key is required" and leaves the group as it was: nothing is logged, so neither the
cache nor the picker nor the loader has been called. -/
theorem Get_empty_key (g : Group) :
    g.Get "" = .ok (g, ((⟨""⟩ : ByteView), some "key is required")) := by
  simp [Group.Get]

end yolocache


namespace yolocache

theorem cache_add_returns {c : cache} (wf : c.WF) (h0 : 0 ≤ c.cacheBytes) (key : String)
    (value : ByteView) : ∃ c', c.add key value = .ok c' := by
  have hbase : lru.WF (c.lru.getD (lru.New c.cacheBytes false)) ∧
      (c.lru.getD (lru.New c.cacheBytes false)).maxBytes = c.cacheBytes := by
    cases hl : c.lru with
    | none => exact ⟨lru.WF_New _ _, rfl⟩
    | some l => exact ⟨(wf.store l hl).wf, (wf.store l hl).budget⟩
  obtain ⟨l', hl'⟩ := lru.Add_terminates hbase.1 (by rw [hbase.2]; exact h0) key value.toValue
  refine ⟨{ lru := some l', cacheBytes := c.cacheBytes, once := true }, ?_⟩
  rw [cache_add_eq wf]
  simp only [hl']

/-- Writing again the view that is resident under a key returns. -/
theorem cache_add_resident {c : cache} (wf : c.WF) {l : lru.Cache} (hl : c.lru = some l)
    {e : lru.Element} (he : e ∈ l.ll) {bytes : String}
    (hval : e.kv.value = ByteView.toValue ⟨bytes⟩) :
    ∃ c', c.add e.kv.key ⟨bytes⟩ = .ok c' := by
  have hs := wf.store l hl
  have hup := lru.upsert_live hs.wf he (ByteView.toValue ⟨bytes⟩)
  have hadd : lru.Add l e.kv.key (ByteView.toValue ⟨bytes⟩)
      = some (lru.Add.upsert l e.kv.key (ByteView.toValue ⟨bytes⟩)) := by
    unfold lru.Add
    simp only [lru.Add.evict]
    rw [if_neg]
    rw [lru.upsert_maxBytes]
    have hn : (lru.Add.upsert l e.kv.key (ByteView.toValue ⟨bytes⟩)).nbytes = l.nbytes := by
      rw [hup, hval]
      have hr := hs.wf.nbytes_range
      simp only [sub_self, lru.wrap64]
      omega
    rw [hn]
    exact hs.guard
  refine ⟨{ lru := some (lru.Add.upsert l e.kv.key (ByteView.toValue ⟨bytes⟩)),
            cacheBytes := c.cacheBytes, once := true }, ?_⟩
  rw [cache_add_eq wf, hl]
  simp only [Option.getD_some, hadd]

/-- C13, as amended: in a group reached from NewGroup with a picker, for a non-empty
key for which the picker names a peer whose Get fails, Get returns exactly the pair
that the loader path (getLocally) returns for the key, or like it does not return; on
a local miss it leaves the cache that the loader path leaves. So it returns the error
of the loader when the loader fails, and the bytes of the loader when the loader
succeeds and the budget is not negative; the error of the peer is not returned. -/
theorem peer_failure_falls_back (name : String) (cacheBytes : Int) (getter : Getter)
    (calls : List Call) (g : Group) (key perr : String) (picker : PeerPicker)
    (peer : PeerGetter)
    (hrun : (freshGroup name cacheBytes getter).run calls = .ok g)
    (hkey : key ≠ "") (hp : g.peers = some picker) (hpick : picker key = some peer)
    (hfail : peer g.name key = .error perr) :
    Except.map Prod.snd (g.Get key) = Except.map Prod.snd (g.getLocally key) ∧
      (g.cached key = false →
        Except.map (fun p => p.1.mainCache) (g.Get key)
          = Except.map (fun p => p.1.mainCache) (g.getLocally key)) ∧
      (∀ err, getter key = .error err → ∃ g₁, g.Get key = .ok (g₁, (⟨""⟩, some err))) ∧
      (∀ bytes, getter key = .ok bytes → 0 ≤ cacheBytes →
        ∃ g₁, g.Get key = .ok (g₁, (⟨bytes⟩, none))) := by
  have wf := run_WF (freshGroup_WF name cacheBytes getter) hrun
  have hfr := run_Frame (freshGroup_WF name cacheBytes getter) hrun
  have hgetter : g.getter = getter := hfr.2.1
  have hcb' : g.mainCache.cacheBytes = cacheBytes := hfr.2.2
  have hpeer : ∀ b, g.peerReply key ≠ some (.ok b) := by
    intro b
    simp [Group.peerReply, hp, hpick, hfail]
  rw [← hgetter]
  cases hc : g.cached key with
  | false =>
    cases hload : g.getter key with
    | error err =>
      have hget := Get_load_fails wf hkey hc hpeer hload
      refine ⟨?_, ?_, ?_, ?_⟩
      · rw [hget, getLocally_error hload]
        rfl
      · intro _
        rw [hget, getLocally_error hload]
        rfl
      · intro err' herr'
        simp only [Except.error.injEq] at herr'
        subst herr'
        exact ⟨_, hget⟩
      · intro bytes hb
        simp at hb
    | ok bytes =>
      have hget := Get_loads wf hkey hc hpeer hload
      refine ⟨?_, ?_, ?_, ?_⟩
      · rw [hget, getLocally_ok hload]
        cases g.mainCache.add key ⟨bytes⟩ <;> rfl
      · intro _
        rw [hget, getLocally_ok hload]
        cases g.mainCache.add key ⟨bytes⟩ <;> rfl
      · intro err herr
        simp at herr
      · intro bytes' hb h0
        simp only [Except.ok.injEq] at hb
        subst hb
        obtain ⟨c', hc'⟩ := cache_add_returns wf.cache (by rw [hcb']; exact h0) key ⟨bytes⟩
        rw [hc'] at hget
        exact ⟨_, hget⟩
  | true =>
    obtain ⟨c, bytes, hload, _, hget⟩ := Get_hit wf hkey hc
    obtain ⟨c₀, bytes₀, _, hload₀, l, hl, e, he, hek, hval⟩ := mainCache_get_hit wf hc
    have hb : bytes₀ = bytes := by
      have : (Except.ok bytes₀ : Except String String) = .ok bytes := by
        rw [← hload₀, ← hload]
      exact Except.ok.inj this
    subst hb
    subst hek
    obtain ⟨c', hc'⟩ := cache_add_resident wf.cache hl he hval
    refine ⟨?_, ?_, ?_, ?_⟩
    · rw [hget, getLocally_ok hload, hc']
      rfl
    · intro h
      simp at h
    · intro err herr
      rw [hload] at herr
      simp at herr
    · intro bytes' hb _
      rw [hload] at hb
      simp only [Except.ok.injEq] at hb
      subst hb
      exact ⟨_, hget⟩

/-- The scores group with a picker whose peer is down: Get("Tom") returns what the
loader path returns, the bytes "630". -/
theorem peer_failure_falls_back_witness :
    Except.map Prod.snd ((scoresWith pickDown).Get "Tom")
        = Except.map Prod.snd ((scoresWith pickDown).getLocally "Tom") ∧
      ∃ g₁, (scoresWith pickDown).Get "Tom" = .ok (g₁, (⟨"630"⟩, none)) :=
  have h := peer_failure_falls_back "scores" 2048 dbGetter [.registerPeers (some pickDown)]
    (scoresWith pickDown) "Tom" "connection refused" pickDown peerDown rfl (by decide)
    rfl rfl rfl
  ⟨h.1, h.2.2.2 "630" rfl (by decide)⟩

/-- C13 fails as stated for the empty key: with a picker whose peer fails, Get("")
returns the error "key is required", while the loader path returns the error of the
loader for "". -/
theorem empty_key_skips_loader :
    (scoresWith pickDown).peers = some pickDown ∧ pickDown "" = some peerDown ∧
      peerDown (scoresWith pickDown).name "" = .error "connection refused" ∧
      Except.map Prod.snd ((scoresWith pickDown).Get "")
        = .ok ((⟨""⟩ : ByteView), some "key is required") ∧
      Except.map Prod.snd ((scoresWith pickDown).getLocally "")
        = .ok ((⟨""⟩ : ByteView), some " not exist") :=
  ⟨rfl, rfl, rfl, rfl, rfl⟩

/-- C14, as amended: in a group reached from NewGroup with a picker, for a non-empty
key that is not resident and for which the picker names a peer whose Get returns the
bytes b, Get returns b with a nil error after calling the cache, the picker and the
peer, and neither the loader nor the cache again; the local cache is as it was and
the key is still not resident, so a second Get misses the cache and asks the peer
again. -/
theorem peer_value_not_cached (name : String) (cacheBytes : Int) (getter : Getter)
    (calls : List Call) (g : Group) (key bytes : String) (picker : PeerPicker)
    (peer : PeerGetter)
    (hrun : (freshGroup name cacheBytes getter).run calls = .ok g)
    (hkey : key ≠ "") (hmiss : g.cached key = false)
    (hp : g.peers = some picker) (hpick : picker key = some peer)
    (hpeer : peer g.name key = .ok bytes) :
    ∃ g₁ g₂, g.Get key = .ok (g₁, (⟨bytes⟩, none)) ∧
      g₁.mainCache = g.mainCache ∧ g₁.cached key = false ∧
      g₁.events = g.events ++
        [Event.cacheGet key, Event.pickPeer key, Event.peerGet g.name key] ∧
      g₁.Get key = .ok (g₂, (⟨bytes⟩, none)) ∧
      g₂.events = g₁.events ++
        [Event.cacheGet key, Event.pickPeer key, Event.peerGet g.name key] := by
  have wf := run_WF (freshGroup_WF name cacheBytes getter) hrun
  have hget := Get_remote wf hkey hmiss hp hpick hpeer
  have wf₁ := (Get_WF wf hget).1
  have hget₂ := Get_remote wf₁ hkey hmiss hp hpick hpeer
  exact ⟨_, _, hget, rfl, hmiss, rfl, hget₂, rfl⟩

/-- The scores group with a picker whose peer is up: Get("Tom") returns the bytes of the
peer twice and never calls the loader. -/
theorem peer_value_not_cached_witness :
    ∃ g₁ g₂, (scoresWith pickUp).Get "Tom" = .ok (g₁, (⟨"remote"⟩, none)) ∧
      g₁.mainCache = (scoresWith pickUp).mainCache ∧ g₁.cached "Tom" = false ∧
      g₁.events = (scoresWith pickUp).events ++
        [Event.cacheGet "Tom", Event.pickPeer "Tom",
          Event.peerGet (scoresWith pickUp).name "Tom"] ∧
      g₁.Get "Tom" = .ok (g₂, (⟨"remote"⟩, none)) ∧
      g₂.events = g₁.events ++
        [Event.cacheGet "Tom", Event.pickPeer "Tom",
          Event.peerGet (scoresWith pickUp).name "Tom"] :=
  peer_value_not_cached "scores" 2048 dbGetter [.registerPeers (some pickUp)]
    (scoresWith pickUp) "Tom" "remote" pickUp peerUp rfl (by decide) rfl rfl rfl rfl

/-- C14 fails as stated for the empty key: it is not resident, the picker names a peer
that returns bytes for it, and Get("") returns the error "key is required" and no
bytes of the peer. -/
theorem empty_key_skips_peer :
    (scoresWith pickUp).cached "" = false ∧
      (scoresWith pickUp).peers = some pickUp ∧ pickUp "" = some peerUp ∧
      peerUp (scoresWith pickUp).name "" = .ok "remote" ∧
      (scoresWith pickUp).Get ""
        = .ok (scoresWith pickUp, ((⟨""⟩ : ByteView), some "key is required")) :=
  ⟨rfl, rfl, rfl, rfl, rfl⟩

/-- C16, as amended: on a group that has no picker, RegisterPeers(p1) with a picker p1
that is not nil returns and attaches p1, and a RegisterPeers(p2) that follows panics,
for every p2, nil or not, and leaves the group as it was, p1 attached; RegisterPeers
with a nil picker returns and leaves the group without a picker, and a
RegisterPeers(p2) that follows returns and attaches p2. -/
theorem RegisterPeers_once (g : Group) (p₁ : PeerPicker) (p₂ : Option PeerPicker)
    (hfresh : g.peers = none) :
    (g.RegisterPeers (some p₁) = ({ g with peers := some p₁ }, none) ∧
      Group.RegisterPeers { g with peers := some p₁ } p₂
        = ({ g with peers := some p₁ },
            some (.panic "RegisterPeerPicker called more than once")) ∧
      (Group.RegisterPeers { g with peers := some p₁ } p₂).1.peers = some p₁) ∧
    (g.RegisterPeers none = (g, none) ∧ g.RegisterPeers p₂ = ({ g with peers := p₂ }, none)) := by
  obtain ⟨name, getter, mainCache, peers, loader, events⟩ := g
  simp only at hfresh
  subst hfresh
  simp [Group.RegisterPeers]

/-- The scores group: a first picker is attached, a second is refused with a panic and
the first stays. -/
theorem RegisterPeers_once_witness :
    (scores.RegisterPeers (some pickUp) = ({ scores with peers := some pickUp }, none) ∧
      Group.RegisterPeers { scores with peers := some pickUp } (some pickDown)
        = ({ scores with peers := some pickUp },
            some (.panic "RegisterPeerPicker called more than once")) ∧
      (Group.RegisterPeers { scores with peers := some pickUp } (some pickDown)).1.peers
        = some pickUp) ∧
    (scores.RegisterPeers none = (scores, none) ∧
      scores.RegisterPeers (some pickDown) = ({ scores with peers := some pickDown }, none)) :=
  RegisterPeers_once scores pickUp (some pickDown) rfl

/-- C16 fails as stated for a nil first picker: after RegisterPeers(nil) on the scores
group, RegisterPeers(pickUp) returns without a panic and attaches pickUp. -/
theorem nil_picker_can_be_replaced :
    ∃ g₁ g₂, scores.RegisterPeers none = (g₁, none) ∧
      g₁.RegisterPeers (some pickUp) = (g₂, none) ∧ g₂.peers.isSome = true :=
  ⟨scores, { scores with peers := some pickUp }, rfl, rfl, rfl⟩

end yolocache

namespace lru

/-! ### The two halves of Add, and RemoveOldest, call by call -/

theorem mapGet_mapDelete_self {κ ν : Type} [DecidableEq κ] (m : List (κ × ν)) (k : κ) :
    mapGet (mapDelete m k) k = none := by
  rw [mapGet_eq_none_iff]
  simp [mapDelete, List.mem_filter]

/-- C22, as amended: in every store reached from New, the first half of Add(key, v), the
part before the eviction loop, on a key that is live with old value o keeps the number
of entries and the index, puts the entry of key, now holding v, at the front, keeps the
other entries in their order, and adds v.Len() - o.Len() to nbytes in int64 arithmetic
(modulo 2^64); on a key that is not live it puts a new entry (key, v) in front of the
unchanged list, indexes it, and adds len(key) + v.Len() to nbytes in int64 arithmetic.
In both cases the new nbytes is the exact sum whenever that sum lies in the range of
int64. -/
theorem Add_updates_in_place (maxBytes : Int) (cb : Bool) (ops : List Op) (c : Cache)
    (h : run (New maxBytes cb) ops = some c) (key : String) (v : Value) :
    Add c key v = Add.evict ((Add.upsert c key v).ll.length + 1) (Add.upsert c key v) ∧
    (∀ e ∈ c.ll, e.kv.key = key →
      (Add.upsert c key v).ll
          = ⟨e.ptr, ⟨key, v⟩⟩ :: c.ll.filter (fun x => decide (x.kv.key ≠ key)) ∧
        c.ll.filter (fun x => decide (x.kv.key ≠ key)) = c.ll.erase e ∧
        (Add.upsert c key v).ll.length = c.ll.length ∧
        (Add.upsert c key v).cache = c.cache ∧
        (Add.upsert c key v).nextPtr = c.nextPtr ∧
        (Add.upsert c key v).nbytes = wrap64 (c.nbytes + (v.Len - e.kv.value.Len)) ∧
        (-9223372036854775808 ≤ c.nbytes + (v.Len - e.kv.value.Len) →
          c.nbytes + (v.Len - e.kv.value.Len) < 9223372036854775808 →
          (Add.upsert c key v).nbytes = c.nbytes + (v.Len - e.kv.value.Len))) ∧
    (key ∉ c.ll.map (fun e => e.kv.key) →
      (Add.upsert c key v).ll = ⟨c.nextPtr, ⟨key, v⟩⟩ :: c.ll ∧
        (Add.upsert c key v).cache = (key, c.nextPtr) :: c.cache ∧
        (Add.upsert c key v).nbytes
          = wrap64 (c.nbytes + ((key.utf8ByteSize : Int) + v.Len)) ∧
        (-9223372036854775808 ≤ c.nbytes + ((key.utf8ByteSize : Int) + v.Len) →
          c.nbytes + ((key.utf8ByteSize : Int) + v.Len) < 9223372036854775808 →
          (Add.upsert c key v).nbytes = c.nbytes + ((key.utf8ByteSize : Int) + v.Len))) := by
  have wf := WF_run (WF_New maxBytes cb) h
  refine ⟨rfl, ?_, ?_⟩
  · intro e he hk
    subst hk
    rw [upsert_live wf he v]
    have hperm := perm_cons_filter_key wf he
    have herase : c.ll.filter (fun x => decide (x.kv.key ≠ e.kv.key)) = c.ll.erase e := by
      have hnd : c.ll.Nodup := (List.Nodup.of_map _ wf.ptrNodup)
      rw [hnd.erase_eq_filter]
      apply List.filter_congr
      intro x hx
      by_cases hxe : x = e
      · subst hxe
        simp
      · have hkey : x.kv.key ≠ e.kv.key := by
          intro hk
          exact hxe (List.inj_on_of_nodup_map wf.keyNodup hx he hk)
        simp [hxe, hkey]
    have hlen : (e :: c.ll.filter (fun x => decide (x.kv.key ≠ e.kv.key))).length
        = c.ll.length := hperm.length_eq
    have hnb : wrap64 (c.nbytes + wrap64 (v.Len - e.kv.value.Len))
        = wrap64 (c.nbytes + (v.Len - e.kv.value.Len)) := by
      simp only [wrap64]
      omega
    refine ⟨rfl, herase, ?_, rfl, rfl, hnb, fun h1 h2 => ?_⟩
    · simpa using hlen
    · exact hnb.trans (wrap64_of_range h1 h2)
  · intro hk
    rw [upsert_new wf hk v]
    have hnb : wrap64 (c.nbytes + entryBytes ⟨key, v⟩)
        = wrap64 (c.nbytes + ((key.utf8ByteSize : Int) + v.Len)) := by
      simp only [entryBytes, wrap64]
      omega
    exact ⟨rfl, rfl, hnb, fun h1 h2 => hnb.trans (wrap64_of_range h1 h2)⟩

/-- The budget-20 scenario before its third insertion: adding "key1" again, with a
shorter value, refreshes the back entry in place and takes 5 bytes off the total. -/
theorem Add_updates_in_place_witness :
    (Add.upsert seedTwo "key1" (StringValue "v")).nbytes = 15 ∧
    Add seedTwo "key1" (StringValue "v") =
        Add.evict ((Add.upsert seedTwo "key1" (StringValue "v")).ll.length + 1)
          (Add.upsert seedTwo "key1" (StringValue "v")) ∧
    (∀ e ∈ seedTwo.ll, e.kv.key = "key1" →
      (Add.upsert seedTwo "key1" (StringValue "v")).ll
          = ⟨e.ptr, ⟨"key1", StringValue "v"⟩⟩ ::
              seedTwo.ll.filter (fun x => decide (x.kv.key ≠ "key1")) ∧
        seedTwo.ll.filter (fun x => decide (x.kv.key ≠ "key1")) = seedTwo.ll.erase e ∧
        (Add.upsert seedTwo "key1" (StringValue "v")).ll.length = seedTwo.ll.length ∧
        (Add.upsert seedTwo "key1" (StringValue "v")).cache = seedTwo.cache ∧
        (Add.upsert seedTwo "key1" (StringValue "v")).nextPtr = seedTwo.nextPtr ∧
        (Add.upsert seedTwo "key1" (StringValue "v")).nbytes
          = wrap64 (seedTwo.nbytes + ((StringValue "v").Len - e.kv.value.Len)) ∧
        (-9223372036854775808 ≤ seedTwo.nbytes + ((StringValue "v").Len - e.kv.value.Len) →
          seedTwo.nbytes + ((StringValue "v").Len - e.kv.value.Len) < 9223372036854775808 →
          (Add.upsert seedTwo "key1" (StringValue "v")).nbytes
            = seedTwo.nbytes + ((StringValue "v").Len - e.kv.value.Len))) ∧
    ("key1" ∉ seedTwo.ll.map (fun e => e.kv.key) →
      (Add.upsert seedTwo "key1" (StringValue "v")).ll
          = ⟨seedTwo.nextPtr, ⟨"key1", StringValue "v"⟩⟩ :: seedTwo.ll ∧
        (Add.upsert seedTwo "key1" (StringValue "v")).cache
          = ("key1", seedTwo.nextPtr) :: seedTwo.cache ∧
        (Add.upsert seedTwo "key1" (StringValue "v")).nbytes
          = wrap64 (seedTwo.nbytes
              + ((("key1" : String).utf8ByteSize : Int) + (StringValue "v").Len)) ∧
        (-9223372036854775808
            ≤ seedTwo.nbytes + ((("key1" : String).utf8ByteSize : Int) + (StringValue "v").Len) →
          seedTwo.nbytes + ((("key1" : String).utf8ByteSize : Int) + (StringValue "v").Len)
            < 9223372036854775808 →
          (Add.upsert seedTwo "key1" (StringValue "v")).nbytes
            = seedTwo.nbytes
              + ((("key1" : String).utf8ByteSize : Int) + (StringValue "v").Len))) :=
  ⟨by decide, Add_updates_in_place 20 false
    [.add "key1" (StringValue "value1"), .add "key2" (StringValue "value2")]
    seedTwo (by decide) "key1" (StringValue "v")⟩

/-- C22 fails as stated: on the empty store New(10, callback), whose nbytes is 0, the
insertion of the absent key "a" with a value whose Len() is the largest int64 leaves
nbytes at -2^63, which is not 0 + (len("a") + v.Len()) = 2^63: the int64 sum has
wrapped around. -/
theorem huge_value_wraps_on_insert :
    "a" ∉ (New 10 true).ll.map (fun e => e.kv.key) ∧
      (New 10 true).nbytes = 0 ∧
      (New 10 true).nbytes + ((("a" : String).utf8ByteSize : Int) + hugeValue.Len)
        = 9223372036854775808 ∧
      (Add.upsert (New 10 true) "a" hugeValue).nbytes = -9223372036854775808 := by
  decide

/-- C23, as amended: in every store reached from New, RemoveOldest on a list that ends in
the entry e is the callback step on the store from which e has already been taken out of
the list and of the index and whose nbytes has already had len(key) + value.Len() of e
deducted in int64 arithmetic (modulo 2^64; the exact difference whenever that lies in
the range of int64). The callback step is taken only when a callback is registered, once,
with the key and value of e, and the store that the callback finds is that store: its
list is the other entries in their order, its index has no entry for the key of e, its
nbytes is the new one. The other entries stay in their order and keep their index
entries. On an empty list RemoveOldest changes nothing, the callback logs included. -/
theorem RemoveOldest_removes_back (maxBytes : Int) (cb : Bool) (ops : List Op) (c : Cache)
    (h : run (New maxBytes cb) ops = some c) :
    (∀ init e, c.ll = init ++ [e] →
      RemoveOldest c = RemoveOldest.notify
          { c with
            ll := init
            cache := mapDelete c.cache e.kv.key
            nbytes := wrap64 (c.nbytes - ((e.kv.key.utf8ByteSize : Int) + e.kv.value.Len)) }
          e.kv ∧
        (RemoveOldest c).ll = init ∧
        mapGet (RemoveOldest c).cache e.kv.key = none ∧
        (∀ key, key ≠ e.kv.key → mapGet (RemoveOldest c).cache key = mapGet c.cache key) ∧
        (∀ x ∈ init, mapGet (RemoveOldest c).cache x.kv.key = some x.ptr) ∧
        (RemoveOldest c).nbytes
          = wrap64 (c.nbytes - ((e.kv.key.utf8ByteSize : Int) + e.kv.value.Len)) ∧
        (-9223372036854775808 ≤ c.nbytes - ((e.kv.key.utf8ByteSize : Int) + e.kv.value.Len) →
          c.nbytes - ((e.kv.key.utf8ByteSize : Int) + e.kv.value.Len) < 9223372036854775808 →
          (RemoveOldest c).nbytes
            = c.nbytes - ((e.kv.key.utf8ByteSize : Int) + e.kv.value.Len)) ∧
        (RemoveOldest c).evicted = c.evicted ++ (if cb then [e.kv] else []) ∧
        (RemoveOldest c).seen = c.seen ++
          (if cb then
            [⟨init, mapDelete c.cache e.kv.key,
              wrap64 (c.nbytes - ((e.kv.key.utf8ByteSize : Int) + e.kv.value.Len))⟩]
          else [])) ∧
    (c.ll = [] → RemoveOldest c = c) := by
  have wf := WF_run (WF_New maxBytes cb) h
  have hcb : c.OnEvicted = cb := run_OnEvicted h
  refine ⟨?_, fun h0 => RemoveOldest_nil h0⟩
  intro init e hcat
  have wf' := WF_RemoveOldest wf
  have hR := RemoveOldest_concat wf hcat
  have hll : (RemoveOldest c).ll = init := by rw [hR]
  have hcache : (RemoveOldest c).cache = mapDelete c.cache e.kv.key := by rw [hR]
  have hnb : wrap64 (c.nbytes - entryBytes e.kv)
      = wrap64 (c.nbytes - ((e.kv.key.utf8ByteSize : Int) + e.kv.value.Len)) := by
    simp only [entryBytes, wrap64]
    omega
  have hnbytes : (RemoveOldest c).nbytes
      = wrap64 (c.nbytes - ((e.kv.key.utf8ByteSize : Int) + e.kv.value.Len)) := by
    rw [hR]
    exact hnb
  refine ⟨?_, hll, ?_, ?_, ?_, hnbytes, ?_, ?_, ?_⟩
  · rw [hR, ← hnb]
    rfl
  · rw [hcache]
    exact mapGet_mapDelete_self _ _
  · intro key hne
    rw [hcache]
    exact consistenthash.mapGet_mapDelete_ne _ (Ne.symm hne)
  · intro x hx
    exact wf'.index_of_mem (by rw [hll]; exact hx)
  · intro h1 h2
    exact hnbytes.trans (wrap64_of_range h1 h2)
  · rw [hR]
    simp only
    rw [hcb]
    cases cb <;> simp
  · rw [hR]
    simp only
    rw [hcb, hnb]
    cases cb <;> simp

/-- A store with a callback, two entries under a budget of 10: RemoveOldest takes "a",
the back entry, 3 bytes off the total, and the callback finds "b" alone in the list and
in the index, and a total of 2. -/
theorem RemoveOldest_removes_back_witness :
    RemoveOldest smallStore =
        { maxBytes := 10, nbytes := 2, ll := [⟨1, ⟨"b", StringValue "3"⟩⟩],
          cache := [("b", 1)], OnEvicted := true, evicted := [⟨"a", StringValue "12"⟩],
          nextPtr := 2, seen := [⟨[⟨1, ⟨"b", StringValue "3"⟩⟩], [("b", 1)], 2⟩] } ∧
    (∀ init e, smallStore.ll = init ++ [e] →
      RemoveOldest smallStore = RemoveOldest.notify
          { smallStore with
            ll := init
            cache := mapDelete smallStore.cache e.kv.key
            nbytes :=
              wrap64 (smallStore.nbytes - ((e.kv.key.utf8ByteSize : Int) + e.kv.value.Len)) }
          e.kv ∧
        (RemoveOldest smallStore).ll = init ∧
        mapGet (RemoveOldest smallStore).cache e.kv.key = none ∧
        (∀ key, key ≠ e.kv.key →
          mapGet (RemoveOldest smallStore).cache key = mapGet smallStore.cache key) ∧
        (∀ x ∈ init, mapGet (RemoveOldest smallStore).cache x.kv.key = some x.ptr) ∧
        (RemoveOldest smallStore).nbytes
          = wrap64 (smallStore.nbytes - ((e.kv.key.utf8ByteSize : Int) + e.kv.value.Len)) ∧
        (-9223372036854775808
            ≤ smallStore.nbytes - ((e.kv.key.utf8ByteSize : Int) + e.kv.value.Len) →
          smallStore.nbytes - ((e.kv.key.utf8ByteSize : Int) + e.kv.value.Len)
            < 9223372036854775808 →
          (RemoveOldest smallStore).nbytes
            = smallStore.nbytes - ((e.kv.key.utf8ByteSize : Int) + e.kv.value.Len)) ∧
        (RemoveOldest smallStore).evicted = smallStore.evicted ++ (if true then [e.kv] else []) ∧
        (RemoveOldest smallStore).seen = smallStore.seen ++
          (if true then
            [⟨init, mapDelete smallStore.cache e.kv.key,
              wrap64 (smallStore.nbytes - ((e.kv.key.utf8ByteSize : Int) + e.kv.value.Len))⟩]
          else [])) ∧
    (smallStore.ll = [] → RemoveOldest smallStore = smallStore) :=
  ⟨by decide, RemoveOldest_removes_back 10 true
    [.add "a" (StringValue "12"), .add "b" (StringValue "3")] smallStore (by decide)⟩

/-- C23 fails as stated: the store reached by Add("a", v) on New(10, callback), where
v.Len() is the largest int64, has nbytes = -2^63; RemoveOldest takes the entry away and
leaves nbytes = 0, which is 2^63 more than before and not nbytes less
len("a") + v.Len() = 2^63: the int64 difference has wrapped around. -/
theorem huge_value_removal_raises_total :
    run (New 10 true) [.add "a" hugeValue] = some hugeStore ∧
      hugeStore.nbytes = -9223372036854775808 ∧
      (RemoveOldest hugeStore).ll = [] ∧
      (RemoveOldest hugeStore).nbytes = 0 ∧
      hugeStore.nbytes - ((("a" : String).utf8ByteSize : Int) + hugeValue.Len)
        = -18446744073709551616 := by
  decide

end lru


namespace lru

/-! ### The eviction loop: how often it calls RemoveOldest, and its guard -/

theorem evictCount_fst (fuel : Nat) : ∀ (c : Cache),
    (Add.evictCount fuel c).map Prod.fst = Add.evict fuel c := by
  induction fuel with
  | zero => intro c; rfl
  | succ n ih =>
    intro c
    simp only [Add.evictCount, Add.evict]
    split
    · rw [← ih (RemoveOldest c), Option.map_map]
      rfl
    · rfl

theorem evictCount_length (fuel : Nat) : ∀ (c c' : Cache) (n : Nat), WF c → 0 ≤ c.maxBytes →
    Add.evictCount fuel c = some (c', n) → c'.ll.length + n = c.ll.length := by
  induction fuel with
  | zero =>
    intro c c' n _ _ h
    simp [Add.evictCount] at h
  | succ k ih =>
    intro c c' n wf h0 h
    simp only [Add.evictCount] at h
    split at h
    · rename_i g
      rcases List.eq_nil_or_concat c.ll with hnil | ⟨init, e, hcat⟩
      · exfalso
        have hb := wf.bytes
        rw [hnil] at hb
        simp only [liveBytes, List.map_nil, List.sum_nil, wrap64_zero] at hb
        omega
      · rw [List.concat_eq_append] at hcat
        cases hr : Add.evictCount k (RemoveOldest c) with
        | none => simp [hr] at h
        | some r =>
          obtain ⟨c1, n1⟩ := r
          rw [hr] at h
          simp only [Option.map_some', Option.some.injEq, Prod.mk.injEq] at h
          obtain ⟨h1, h2⟩ := h
          subst h1
          subst h2
          have := ih (RemoveOldest c) c1 n1 (WF_RemoveOldest wf)
            (by rw [RemoveOldest_maxBytes]; exact h0) hr
          rw [RemoveOldest_concat wf hcat] at this
          simp only at this
          rw [hcat, List.length_append, List.length_singleton]
          omega
    · simp only [Option.some.injEq, Prod.mk.injEq] at h
      obtain ⟨h1, h2⟩ := h
      subst h1
      subst h2
      rfl

theorem evictSpec_eq (fuel : Nat) : ∀ (c : Cache), 0 ≤ c.maxBytes →
    Add.evict fuel c = Add.evictSpec fuel c := by
  induction fuel with
  | zero => intro c _; rfl
  | succ n ih =>
    intro c h0
    simp only [Add.evict, Add.evictSpec]
    have hg : (c.maxBytes ≠ 0 ∧ c.maxBytes < c.nbytes) ↔ (0 < c.maxBytes ∧ c.maxBytes < c.nbytes) := by
      constructor
      · rintro ⟨a, b⟩
        exact ⟨by omega, b⟩
      · rintro ⟨a, b⟩
        exact ⟨by omega, b⟩
    by_cases g : c.maxBytes ≠ 0 ∧ c.maxBytes < c.nbytes
    · rw [if_pos g, if_pos (hg.mp g)]
      exact ih _ (by rw [RemoveOldest_maxBytes]; exact h0)
    · rw [if_neg g, if_neg (fun g' => g (hg.mpr g'))]

/-- C28: in every store reached from New, an Add(key, value) of a value whose size is not
negative, with maxBytes == 0 or len(key) + value.Len() <= maxBytes, returns and leaves the
added entry at the front of the recency list, so the Get(key) that follows returns
(value, true). -/
theorem fitting_entry_survives (maxBytes : Int) (cb : Bool) (ops : List Op) (c : Cache)
    (h : run (New maxBytes cb) ops = some c) (key : String) (value : Value)
    (hsize : 0 ≤ value.Len)
    (hfit : maxBytes = 0 ∨ (key.utf8ByteSize : Int) + value.Len ≤ maxBytes) :
    ∃ c' x rest, Add c key value = some c' ∧ c'.ll = x :: rest ∧ x.kv = ⟨key, value⟩ ∧
      (Get c' key).2 = some value := by
  have wf := WF_run (WF_New maxBytes cb) h
  have hmb : c.maxBytes = maxBytes := run_maxBytes h
  have hs : 0 ≤ entrySize ⟨key, value⟩ := entrySize_nonneg hsize
  obtain ⟨c', x, rest, hadd, hll, hx⟩ :=
    Add_retains_fitting wf key value (by rw [hmb]; exact hfit) hs
  refine ⟨c', x, rest, hadd, hll, hx, ?_⟩
  have wf' := WF_Add wf hadd
  have hmem : x ∈ c'.ll := by rw [hll]; exact List.mem_cons_self _ _
  have hget := Get_live wf' hmem
  rw [hx] at hget
  simp only at hget
  rw [hget]

/-- The budget-20 scenario before its third insertion: the store is full, and a new entry
of 5 bytes stays at the front although its insertion evicts. -/
theorem fitting_entry_survives_witness :
    ∃ c' x rest, Add seedTwo "k3" (StringValue "v3") = some c' ∧ c'.ll = x :: rest ∧
      x.kv = ⟨"k3", StringValue "v3"⟩ ∧ (Get c' "k3").2 = some (StringValue "v3") :=
  fitting_entry_survives 20 false
    [.add "key1" (StringValue "value1"), .add "key2" (StringValue "value2")]
    seedTwo (by decide) "k3" (StringValue "v3") (by decide) (by decide)

/-- C29: in every store reached from New with maxBytes >= 0 (whatever the sizes of the
values), the eviction loop of Add stops after n calls to RemoveOldest, where n is at most
the number of entries after the insertion: each call takes one entry, so the list left
has n entries fewer, and Add returns the store the loop stops in, on which the guard of
the loop is false. -/
theorem Add_eviction_bounded (maxBytes : Int) (cb : Bool) (ops : List Op) (c : Cache)
    (hmax : 0 ≤ maxBytes) (h : run (New maxBytes cb) ops = some c) (key : String)
    (value : Value) :
    ∃ c' n, Add.evictCount ((Add.upsert c key value).ll.length + 1) (Add.upsert c key value)
        = some (c', n) ∧
      n ≤ (Add.upsert c key value).ll.length ∧
      c'.ll.length + n = (Add.upsert c key value).ll.length ∧
      Add c key value = some c' ∧
      ¬ (c'.maxBytes ≠ 0 ∧ c'.maxBytes < c'.nbytes) := by
  have wf := WF_run (WF_New maxBytes cb) h
  have hmb : c.maxBytes = maxBytes := run_maxBytes h
  have wf1 := WF_upsert wf key value
  have h1 : 0 ≤ (Add.upsert c key value).maxBytes := by rw [upsert_maxBytes, hmb]; exact hmax
  obtain ⟨c', hc'⟩ := Add_terminates wf (by rw [hmb]; exact hmax) key value
  have hev : Add.evict ((Add.upsert c key value).ll.length + 1) (Add.upsert c key value)
      = some c' := hc'
  have hf := evictCount_fst ((Add.upsert c key value).ll.length + 1) (Add.upsert c key value)
  rw [hev] at hf
  cases hr : Add.evictCount ((Add.upsert c key value).ll.length + 1) (Add.upsert c key value) with
  | none => simp [hr] at hf
  | some r =>
    obtain ⟨c1, n⟩ := r
    rw [hr] at hf
    simp only [Option.map_some', Option.some.injEq] at hf
    subst hf
    have hlen := evictCount_length _ _ _ _ wf1 h1 hr
    exact ⟨c1, n, rfl, by omega, hlen, hc', evict_guard _ hev⟩

/-- The budget-20 scenario: the third insertion makes one call to RemoveOldest. -/
theorem Add_eviction_bounded_witness :
    Add.evictCount 4 (Add.upsert seedTwo "k3" (StringValue "v3")) = some (seedStore, 1) ∧
    ∃ c' n, Add.evictCount ((Add.upsert seedTwo "k3" (StringValue "v3")).ll.length + 1)
          (Add.upsert seedTwo "k3" (StringValue "v3")) = some (c', n) ∧
      n ≤ (Add.upsert seedTwo "k3" (StringValue "v3")).ll.length ∧
      c'.ll.length + n = (Add.upsert seedTwo "k3" (StringValue "v3")).ll.length ∧
      Add seedTwo "k3" (StringValue "v3") = some c' ∧
      ¬ (c'.maxBytes ≠ 0 ∧ c'.maxBytes < c'.nbytes) :=
  ⟨by decide, Add_eviction_bounded 20 false
    [.add "key1" (StringValue "value1"), .add "key2" (StringValue "value2")]
    seedTwo (by decide) (by decide) "k3" (StringValue "v3")⟩

end lru


namespace lru

/-! ### Claims on the guard of the eviction loop and on oversize entries -/

/-- C25: on every store whose maxBytes is not negative, the eviction loop of Add is the
loop "while maxBytes > 0 and nbytes > maxBytes, evict from the back": the two agree after
every number of tests of the guard, so Add is Add with that loop, and with maxBytes == 0
Add evicts nothing. -/
theorem eviction_guard_nonneg_budget (c : Cache) (hmax : 0 ≤ c.maxBytes) (key : String)
    (value : Value) :
    (∀ fuel, Add.evict fuel (Add.upsert c key value)
        = Add.evictSpec fuel (Add.upsert c key value)) ∧
      Add c key value = AddSpec c key value ∧
      (c.maxBytes = 0 → Add c key value = some (Add.upsert c key value)) := by
  have h1 : 0 ≤ (Add.upsert c key value).maxBytes := by rw [upsert_maxBytes]; exact hmax
  exact ⟨fun fuel => evictSpec_eq fuel _ h1, evictSpec_eq _ _ h1,
    fun h0 => Add_unlimited h0 key value⟩

/-- The budget-20 scenario: the third insertion evicts "key1" under either wording of
the guard. -/
theorem eviction_guard_nonneg_budget_witness :
    AddSpec seedTwo "k3" (StringValue "v3") = some seedStore ∧
    (∀ fuel, Add.evict fuel (Add.upsert seedTwo "k3" (StringValue "v3"))
        = Add.evictSpec fuel (Add.upsert seedTwo "k3" (StringValue "v3"))) ∧
      Add seedTwo "k3" (StringValue "v3") = AddSpec seedTwo "k3" (StringValue "v3") ∧
      (seedTwo.maxBytes = 0 → Add seedTwo "k3" (StringValue "v3")
        = some (Add.upsert seedTwo "k3" (StringValue "v3"))) :=
  ⟨by decide, eviction_guard_nonneg_budget seedTwo (by decide) "k3" (StringValue "v3")⟩

/-- With maxBytes = -1 the guard `maxBytes != 0 && maxBytes < nbytes` of the code holds
after the insertion of ("a", "1"), so RemoveOldest is called and the callback receives
the entry; on the empty store the guard holds again (-1 < 0) and the loop never stops.
The loop "while maxBytes > 0 and nbytes > maxBytes" evicts nothing and keeps the entry. -/
theorem negative_budget_evicts :
    AddSpec (New (-1) true) "a" (StringValue "1")
        = some (Add.upsert (New (-1) true) "a" (StringValue "1")) ∧
      (Add.upsert (New (-1) true) "a" (StringValue "1")).ll.map Element.kv
        = [⟨"a", StringValue "1"⟩] ∧
      ((Add.upsert (New (-1) true) "a" (StringValue "1")).maxBytes ≠ 0 ∧
        (Add.upsert (New (-1) true) "a" (StringValue "1")).maxBytes
          < (Add.upsert (New (-1) true) "a" (StringValue "1")).nbytes) ∧
      (RemoveOldest (Add.upsert (New (-1) true) "a" (StringValue "1"))).ll = [] ∧
      (RemoveOldest (Add.upsert (New (-1) true) "a" (StringValue "1"))).evicted
        = [⟨"a", StringValue "1"⟩] ∧
      Add (New (-1) true) "a" (StringValue "1") = none ∧
      (∀ fuel, Add.evict fuel (Add.upsert (New (-1) true) "a" (StringValue "1")) = none) := by
  refine ⟨by decide, by decide, by decide, by decide, by decide, by decide, ?_⟩
  intro fuel
  cases fuel with
  | zero => rfl
  | succ n =>
    have hg : (Add.upsert (New (-1) true) "a" (StringValue "1")).maxBytes ≠ 0 ∧
        (Add.upsert (New (-1) true) "a" (StringValue "1")).maxBytes
          < (Add.upsert (New (-1) true) "a" (StringValue "1")).nbytes := by decide
    simp only [Add.evict]
    rw [if_pos hg]
    exact evict_spin (by decide) (by decide) n

theorem upsert_ll {c : Cache} (wf : WF c) (key : String) (value : Value) :
    ∃ p, (Add.upsert c key value).ll
      = ⟨p, ⟨key, value⟩⟩ :: c.ll.filter (fun x => decide (x.kv.key ≠ key)) := by
  by_cases hk : key ∈ c.ll.map (fun e => e.kv.key)
  · obtain ⟨e, he, hek⟩ := List.mem_map.mp hk
    subst hek
    exact ⟨e.ptr, by rw [upsert_live wf he value]⟩
  · refine ⟨c.nextPtr, ?_⟩
    rw [upsert_new wf hk value]
    simp only [List.cons.injEq, true_and]
    symm
    rw [List.filter_eq_self]
    intro x hx
    have : x.kv.key ≠ key := fun hxk => hk (List.mem_map.mpr ⟨x, hx, hxk⟩)
    simpa using this

/-- C24, as amended: in every store reached from New with maxBytes > 0 by calls that fit
(every added value has a size that is not negative, and maxBytes + len(key) +
value.Len() is at most the largest int64), an Add(key, value) that fits in the same way
and has len(key) + value.Len() > maxBytes returns and leaves the store empty (no list
entry, no index entry, Len() == 0, nbytes == 0), so Get(key) misses; the callback, when
one is registered, has received the other entries that were live, from the back of the
list to its front, and then (key, value). -/
theorem oversize_add_empties_store (maxBytes : Int) (cb : Bool) (ops : List Op) (c : Cache)
    (hmax : 0 < maxBytes) (hfit : ∀ op ∈ ops, op.fits maxBytes = true)
    (h : run (New maxBytes cb) ops = some c) (key : String) (value : Value)
    (hroom : (Op.add key value).fits maxBytes = true)
    (hbig : maxBytes < (key.utf8ByteSize : Int) + value.Len) :
    ∃ c', Add c key value = some c' ∧ c'.ll = [] ∧ c'.cache = [] ∧ Len c' = 0 ∧
      c'.nbytes = 0 ∧ Get c' key = (c', none) ∧
      c'.evicted = c.evicted ++
        (if cb then
          (c.ll.filter (fun x => decide (x.kv.key ≠ key))).reverse.map Element.kv
            ++ [⟨key, value⟩]
        else []) := by
  have wf := WF_run (WF_New maxBytes cb) h
  have w := Within_run (WF_New maxBytes cb) (Within_New maxBytes cb hmax) hmax hfit h
  have hmb : c.maxBytes = maxBytes := run_maxBytes h
  have hcb : c.OnEvicted = cb := run_OnEvicted h
  simp only [Op.fits, decide_eq_true_eq] at hroom
  have wf1 := WF_upsert wf key value
  have nn1 := Nonneg_upsert wf w.1 key hroom.1
  have hle := upsert_liveBytes_le wf w.1 key value
  have hs : entrySize ⟨key, value⟩ = (key.utf8ByteSize : Int) + value.Len := rfl
  have hlt : liveBytes (Add.upsert c key value).ll < 9223372036854775808 := by
    have := w.2.1
    omega
  obtain ⟨c', hc'⟩ := Add_terminates wf (by omega) key value
  have hev : Add.evict ((Add.upsert c key value).ll.length + 1) (Add.upsert c key value)
      = some c' := hc'
  obtain ⟨keep, gone, h1, h2, _, h4, _⟩ := evict_spec _ _ _ wf1 hev
  have wf' := WF_evict _ wf1 hev
  have w' := evict_within _ wf1 nn1 hlt (by rw [upsert_maxBytes, hmb]; exact hmax) hev
  have hmb' : c'.maxBytes = maxBytes := by rw [evict_maxBytes _ hev, upsert_maxBytes, hmb]
  obtain ⟨p, hll⟩ := upsert_ll wf key value
  have hkeep : keep = [] := by
    cases keep with
    | nil => rfl
    | cons k0 ks =>
      exfalso
      rw [hll, List.cons_append, List.cons.injEq] at h1
      obtain ⟨hk0, _⟩ := h1
      have hks : ∀ e ∈ ks, 0 ≤ e.kv.value.Len := by
        intro e he
        exact w'.1 e (by rw [h2]; exact List.mem_cons_of_mem _ he)
      have hlive := w'.2.1
      rw [h2, liveBytes_cons, ← hk0, hmb'] at hlive
      change entrySize ⟨key, value⟩ + liveBytes ks ≤ maxBytes at hlive
      have h0 := liveBytes_nonneg hks
      omega
  subst hkeep
  have hnb := wf'.bytes
  rw [h2] at hnb
  have hidx := wf'.index
  rw [h2] at hidx
  refine ⟨c', hc', h2, List.Perm.eq_nil hidx, by simp [Len, h2],
    by simpa [liveBytes, wrap64_zero] using hnb, Get_miss wf' (by simp [h2]), ?_⟩
  rw [h4, upsert_evicted, upsert_OnEvicted, hcb]
  rw [List.nil_append] at h1
  rw [← h1, hll]
  cases cb <;> simp

/-- A store of two entries under a budget of 10: adding "c" with a value of ten bytes
evicts "a", "b" and "c" itself; the callback finds one entry fewer at every call. -/
theorem oversize_add_empties_store_witness :
    Add smallStore "c" (StringValue "0123456789") =
        some { maxBytes := 10, nbytes := 0, ll := [], cache := [], OnEvicted := true,
               evicted := [⟨"a", StringValue "12"⟩, ⟨"b", StringValue "3"⟩,
                 ⟨"c", StringValue "0123456789"⟩],
               nextPtr := 3,
               seen := [⟨[⟨2, ⟨"c", StringValue "0123456789"⟩⟩, ⟨1, ⟨"b", StringValue "3"⟩⟩],
                   [("c", 2), ("b", 1)], 13⟩,
                 ⟨[⟨2, ⟨"c", StringValue "0123456789"⟩⟩], [("c", 2)], 11⟩,
                 ⟨[], [], 0⟩] } ∧
    ∃ c', Add smallStore "c" (StringValue "0123456789") = some c' ∧ c'.ll = [] ∧
      c'.cache = [] ∧ Len c' = 0 ∧ c'.nbytes = 0 ∧ Get c' "c" = (c', none) ∧
      c'.evicted = smallStore.evicted ++
        (if true then
          (smallStore.ll.filter (fun x => decide (x.kv.key ≠ "c"))).reverse.map Element.kv
            ++ [⟨"c", StringValue "0123456789"⟩]
        else []) :=
  ⟨by decide, oversize_add_empties_store 10 true
    [.add "a" (StringValue "12"), .add "b" (StringValue "3")] smallStore
    (by decide) (by decide) (by decide) "c" (StringValue "0123456789") (by decide)
    (by decide)⟩

/-- Under a budget of 10 with the resident entry ("a", oddValue), whose value reports a
size of -100, Add("b", "0123456789") passes an entry of 11 bytes, larger than the budget,
and evicts nothing: nbytes is -88, both entries are live, Get("b") hits, and the callback
has not been called. -/
theorem negative_size_blocks_eviction :
    run (New 10 true) [.add "a" oddValue] = some oddStore ∧
      (10 : Int) < (("b" : String).utf8ByteSize : Int) + (StringValue "0123456789").Len ∧
      ∃ c', Add oddStore "b" (StringValue "0123456789") = some c' ∧ Len c' = 2 ∧
        c'.nbytes = -88 ∧ (Get c' "b").2 = some (StringValue "0123456789") ∧
        c'.evicted = [] :=
  ⟨by decide, by decide,
    { maxBytes := 10, nbytes := -88,
      ll := [⟨1, ⟨"b", StringValue "0123456789"⟩⟩, ⟨0, ⟨"a", oddValue⟩⟩],
      cache := [("b", 1), ("a", 0)], OnEvicted := true, evicted := [], nextPtr := 2 },
    by decide, by decide, by decide, by decide, by decide⟩

end lru


namespace consistenthash

/-! ### The hash a lookup lands on -/

theorem Get_picked (m : Map) (key : String) (hs : m.keys.Sorted (· ≤ ·))
    (hne : m.keys ≠ []) :
    ∃ x, Picked m.keys (hashInt m key) x ∧
      Get m key = some ((mapGet m.hashMap x).getD "") := by
  obtain ⟨i, hi, hidx, hget⟩ := Get_of_sorted m key hs hne
  refine ⟨m.keys.get ⟨i, hi⟩, ⟨List.get_mem _ _ _, ?_⟩, hget⟩
  have hpw := List.pairwise_iff_getElem.1 hs
  cases hf : m.keys.findIdx? (fun k => decide (k ≥ hashInt m key)) with
  | none =>
    rw [hf] at hidx
    simp only [Option.getD_none] at hidx
    subst hidx
    right
    rw [List.findIdx?_eq_none_iff] at hf
    refine ⟨fun y hy => ?_, fun y hy => ?_⟩
    · have := hf y hy
      simpa using this
    · obtain ⟨j, hj, hjy⟩ := List.getElem_of_mem hy
      rw [← hjy]
      rcases Nat.eq_zero_or_pos j with h0 | hp
      · subst h0
        exact le_refl _
      · exact hpw 0 j hi hj hp
  | some j =>
    rw [hf] at hidx
    simp only [Option.getD_some] at hidx
    subst hidx
    left
    rw [List.findIdx?_eq_some_iff_getElem] at hf
    obtain ⟨hj, hp, hlo⟩ := hf
    have hp' : hashInt m key ≤ m.keys[j] := by simpa using hp
    refine ⟨hp', fun y hy hhy => ?_⟩
    obtain ⟨k, hk, hky⟩ := List.getElem_of_mem hy
    rw [← hky]
    rcases Nat.lt_trichotomy k j with hlt | heq | hgt
    · exfalso
      have := hlo k hlt
      rw [← hky] at hhy
      simp only [ge_iff_le, decide_eq_true_eq] at this
      exact this hhy
    · subst heq
      exact le_refl _
    · exact hpw j k hj hk hgt

theorem Picked_unique {l : List Int} {h x y : Int} (hx : Picked l h x) (hy : Picked l h y) :
    x = y := by
  obtain ⟨mx, px⟩ := hx
  obtain ⟨my, py⟩ := hy
  rcases px with ⟨a1, a2⟩ | ⟨a1, a2⟩
  · rcases py with ⟨b1, b2⟩ | ⟨b1, b2⟩
    · exact le_antisymm (a2 y my b1) (b2 x mx a1)
    · have := b1 x mx
      omega
  · rcases py with ⟨b1, b2⟩ | ⟨b1, b2⟩
    · have := a1 y my
      omega
    · exact le_antisymm (a2 y my) (b2 x mx)

theorem Picked_of_superset {l l' new : List Int} {h x : Int}
    (hmem : ∀ y, y ∈ l' ↔ y ∈ l ∨ y ∈ new) (hp : Picked l' h x) (hx : x ∉ new) :
    Picked l h x := by
  obtain ⟨mx, px⟩ := hp
  have mx' : x ∈ l := by
    rcases (hmem x).mp mx with h1 | h1
    · exact h1
    · exact absurd h1 hx
  refine ⟨mx', ?_⟩
  rcases px with ⟨a1, a2⟩ | ⟨a1, a2⟩
  · exact Or.inl ⟨a1, fun y hy hhy => a2 y ((hmem y).mpr (Or.inl hy)) hhy⟩
  · exact Or.inr ⟨fun y hy => a1 y ((hmem y).mpr (Or.inl hy)),
      fun y hy => a2 y ((hmem y).mpr (Or.inl hy))⟩

/-! ### The owner table after Add -/

theorem replicas_fold_hashMap (key : String) : ∀ (is : List Nat) (m : Map) (k : Int),
    mapGet (is.foldl (Add.replica key) m).hashMap k
      = if k ∈ is.map (fun i => hashInt m (toString i ++ key)) then some key
        else mapGet m.hashMap k := by
  intro is
  induction is with
  | nil =>
    intro m k
    simp
  | cons i is ih =>
    intro m k
    rw [List.foldl_cons, ih (Add.replica key m i) k]
    have hh : (Add.replica key m i).hash = m.hash := rfl
    simp only [hashInt_congr hh]
    have hm : mapGet (Add.replica key m i).hashMap k
        = if hashInt m (toString i ++ key) = k then some key else mapGet m.hashMap k :=
      mapGet_mapSet _ _ _ _
    rw [hm]
    by_cases h1 : k ∈ is.map (fun i => hashInt m (toString i ++ key))
    · rw [if_pos h1, if_pos (List.mem_map.mpr (by
        obtain ⟨j, hj, hjk⟩ := List.mem_map.mp h1
        exact ⟨j, List.mem_cons_of_mem _ hj, hjk⟩))]
    · rw [if_neg h1]
      by_cases h2 : hashInt m (toString i ++ key) = k
      · rw [if_pos h2, if_pos (by rw [List.map_cons, ← h2]; exact List.mem_cons_self _ _)]
      · rw [if_neg h2, if_neg]
        rw [List.map_cons, List.mem_cons]
        rintro (h3 | h3)
        · exact h2 h3.symm
        · exact h1 h3

theorem replicaHashes_congr {m m' : Map} (hh : m'.hash = m.hash)
    (hr : m'.replicas = m.replicas) (peers : List String) :
    replicaHashes m' peers = replicaHashes m peers := by
  simp only [replicaHashes, hr, hashInt_congr hh]

theorem replicaHashes_cons (m : Map) (key : String) (peers : List String) :
    replicaHashes m (key :: peers)
      = (List.range m.replicas.toNat).map (fun i => hashInt m (toString i ++ key))
          ++ replicaHashes m peers := by
  simp only [replicaHashes, List.flatMap_cons]

theorem peers_fold_hashMap : ∀ (peers : List String) (m : Map) (k : Int),
    (k ∉ replicaHashes m peers →
      mapGet (peers.foldl Add.peer m).hashMap k = mapGet m.hashMap k) ∧
    (k ∈ replicaHashes m peers →
      ∃ q ∈ peers, mapGet (peers.foldl Add.peer m).hashMap k = some q) := by
  intro peers
  induction peers with
  | nil =>
    intro m k
    simp [replicaHashes]
  | cons key peers ih =>
    intro m k
    obtain ⟨g1, g2, _⟩ := replicas_fold key (List.range m.replicas.toNat) m
    have e1 : (Add.peer m key).hash = m.hash := g1
    have e2 : (Add.peer m key).replicas = m.replicas := g2
    have hrep := replicaHashes_congr e1 e2 peers
    have hone : mapGet (Add.peer m key).hashMap k
        = if k ∈ (List.range m.replicas.toNat).map (fun i => hashInt m (toString i ++ key))
          then some key else mapGet m.hashMap k :=
      replicas_fold_hashMap key _ m k
    obtain ⟨iold, inew⟩ := ih (Add.peer m key) k
    rw [hrep] at iold inew
    rw [List.foldl_cons, replicaHashes_cons, List.mem_append]
    constructor
    · intro hk
      rw [iold (fun h => hk (Or.inr h)), hone, if_neg (fun h => hk (Or.inl h))]
    · intro hk
      by_cases hin : k ∈ replicaHashes m peers
      · obtain ⟨q, hq, hqk⟩ := inew hin
        exact ⟨q, List.mem_cons_of_mem _ hq, hqk⟩
      · have hfirst : k ∈ (List.range m.replicas.toNat).map
            (fun i => hashInt m (toString i ++ key)) := by
          rcases hk with h | h
          · exact h
          · exact absurd h hin
        exact ⟨key, List.mem_cons_self _ _, by rw [iold hin, hone, if_pos hfirst]⟩

theorem Add_churn (m : Map) (hs : m.keys.Sorted (· ≤ ·)) (peers : List String)
    (key : String) :
    Get (Add m peers) key = Get m key ∨ ∃ q ∈ peers, Get (Add m peers) key = some q := by
  have hs' := Add_keys_sorted m peers
  have hperm := Add_keys_perm m peers
  have hhash : hashInt (Add m peers) key = hashInt m key := hashInt_congr (Add_hash m peers) key
  have hmap : (Add m peers).hashMap = (peers.foldl Add.peer m).hashMap := rfl
  by_cases hne' : (Add m peers).keys = []
  · left
    have hnil : m.keys = [] := by
      rw [hne'] at hperm
      have := List.Perm.nil_eq hperm
      exact (List.append_eq_nil.mp this.symm).1
    simp [Get, hne', hnil]
  · obtain ⟨x', hp', hget'⟩ := Get_picked (Add m peers) key hs' hne'
    rw [hhash] at hp'
    obtain ⟨hold, hnew⟩ := peers_fold_hashMap peers m x'
    by_cases hx : x' ∈ replicaHashes m peers
    · right
      obtain ⟨q, hq, hqk⟩ := hnew hx
      refine ⟨q, hq, ?_⟩
      rw [hget', hmap, hqk]
      rfl
    · left
      have hmem : ∀ y, y ∈ (Add m peers).keys ↔ y ∈ m.keys ∨ y ∈ replicaHashes m peers := by
        intro y
        rw [hperm.mem_iff, List.mem_append]
      have hp := Picked_of_superset hmem hp' hx
      have hne : m.keys ≠ [] := List.ne_nil_of_mem hp.1
      obtain ⟨x, hpx, hget⟩ := Get_picked m key hs hne
      have hxx : x = x' := Picked_unique hpx hp
      rw [hget', hget, hxx, hmap, hold hx]

/-! ### Claims on the seed scenario and on churn -/

/-- C21: the ring made by New(3, decimalHash) and Add("6", "4", "2") holds the hashes
2, 4, 6, 12, 14, 16, 22, 24, 26, and Get("2"), Get("11"), Get("23"), Get("27") return "2",
"2", "4", "2"; for "27" the search returns 9, the length of the ring, and the index wraps
to 0. Get leaves the ring as it is, so a repeated Get returns the same peer. -/
theorem ring_seed_scenario :
    seedRing.keys = [2, 4, 6, 12, 14, 16, 22, 24, 26] ∧
      seedRing = ringAfter 3 (some decimalHash) [["6", "4", "2"]] ∧
      Get seedRing "2" = some "2" ∧ Get seedRing "11" = some "2" ∧
      Get seedRing "23" = some "4" ∧ Get seedRing "27" = some "2" ∧
      Search seedRing.keys.length
        (fun i => (seedRing.keys[i]?).map (fun k => decide (k ≥ hashInt seedRing "27")))
        = some 9 :=
  ⟨by decide, rfl, by decide, by decide, by decide, by decide, by decide⟩

/-- C26: for every ring made by New and a sequence of Add calls, every peer p and every
key k, Get(k) after Add(p) is Get(k) before the Add or is p; for an Add of several peers,
Get(k) afterwards is Get(k) before or one of the added peers. -/
theorem Add_moves_keys_to_new_peer (replicas : Int) (fn : Option (String → Nat))
    (calls : List (List String)) (key : String) :
    (∀ p : String,
      Get (Add (ringAfter replicas fn calls) [p]) key = Get (ringAfter replicas fn calls) key ∨
        Get (Add (ringAfter replicas fn calls) [p]) key = some p) ∧
    (∀ peers : List String,
      Get (Add (ringAfter replicas fn calls) peers) key
          = Get (ringAfter replicas fn calls) key ∨
        ∃ q ∈ peers, Get (Add (ringAfter replicas fn calls) peers) key = some q) := by
  have hs := ringAfter_sorted replicas fn calls
  refine ⟨fun p => ?_, fun peers => Add_churn _ hs peers key⟩
  rcases Add_churn _ hs [p] key with h | ⟨q, hq, hqk⟩
  · exact Or.inl h
  · rw [List.mem_singleton] at hq
    subst hq
    exact Or.inr hqk

end consistenthash


namespace yolocache

/-! ## A group without a picker is transparent -/

theorem Get_outcome {g : Group} (wf : g.WF) (hpeers : g.peers = none) {key : String}
    (hkey : key ≠ "") :
    (∀ bytes, g.getter key = .ok bytes →
      (0 ≤ g.mainCache.cacheBytes ∨ g.cached key = true) →
      ∃ g', g.Get key = .ok (g', (⟨bytes⟩, none))) ∧
    (∀ err, g.getter key = .error err → ∃ g', g.Get key = .ok (g', (⟨""⟩, some err))) := by
  have hpeer : ∀ b, g.peerReply key ≠ some (.ok b) := by
    intro b
    simp [Group.peerReply, hpeers]
  constructor
  · intro bytes hload hb
    cases hc : g.cached key with
    | true =>
      obtain ⟨c, bytes₂, hload₂, _, hget⟩ := Get_hit wf hkey hc
      have hbb : bytes₂ = bytes := by
        have : (Except.ok bytes₂ : Except String String) = .ok bytes := by
          rw [← hload₂, ← hload]
        exact Except.ok.inj this
      subst hbb
      exact ⟨_, hget⟩
    | false =>
      have h0 : 0 ≤ g.mainCache.cacheBytes := by
        rcases hb with h | h
        · exact h
        · rw [hc] at h
          exact absurd h (by decide)
      obtain ⟨c', hadd⟩ := cache_add_returns wf.cache h0 key ⟨bytes⟩
      have hget := Get_loads wf hkey hc hpeer hload
      simp only [hadd] at hget
      exact ⟨_, hget⟩
  · intro err hload
    cases hc : g.cached key with
    | true =>
      obtain ⟨c, bytes₂, hload₂, _, _⟩ := Get_hit wf hkey hc
      rw [hload] at hload₂
      exact absurd hload₂ (by simp)
    | false => exact ⟨_, Get_load_fails wf hkey hc hpeer hload⟩

theorem Get_returns {g : Group} (wf : g.WF) (hpeers : g.peers = none)
    (h0 : 0 ≤ g.mainCache.cacheBytes) (key : String) :
    ∃ g' r, g.Get key = .ok (g', r) := by
  by_cases hkey : key = ""
  · subst hkey
    exact ⟨_, _, Get_empty_key g⟩
  · obtain ⟨hok, herr⟩ := Get_outcome wf hpeers hkey
    cases hl : g.getter key with
    | ok bytes =>
      obtain ⟨g', hg'⟩ := hok bytes hl (Or.inl h0)
      exact ⟨_, _, hg'⟩
    | error err =>
      obtain ⟨g', hg'⟩ := herr err hl
      exact ⟨_, _, hg'⟩

theorem run_gets : ∀ (keys : List String) (g : Group), g.WF → g.peers = none →
    0 ≤ g.mainCache.cacheBytes →
    ∃ g', g.run (keys.map Call.get) = .ok g' ∧ g'.WF ∧ g.Frame g' := by
  intro keys
  induction keys with
  | nil =>
    intro g wf _ _
    exact ⟨g, rfl, wf, Frame_refl g⟩
  | cons key keys ih =>
    intro g wf hpeers h0
    obtain ⟨g₁, r, hget⟩ := Get_returns wf hpeers h0 key
    obtain ⟨wf₁, hfr⟩ := Get_WF wf hget
    have hp₁ : g₁.peers = none := by rw [hfr.2.2.1]; exact hpeers
    have hb₁ : 0 ≤ g₁.mainCache.cacheBytes := by rw [hfr.2.2.2]; exact h0
    obtain ⟨g', hrun, wf', hfr'⟩ := ih g₁ wf₁ hp₁ hb₁
    refine ⟨g', ?_, wf', Frame_trans hfr hfr'⟩
    simp only [List.map_cons, Group.run, Group.step, hget]
    exact hrun

/-- C27: a group made by NewGroup with cacheBytes >= 0 that has no picker runs every
finite sequence of Get calls to its end; in the group g so reached no picker is
registered, every resident entry holds the bytes that the loader returns for its key, and
for every non-empty key Get returns the outcome of the loader for that key: its bytes
with a nil error when the loader succeeds, and the empty view with the loader's error
when it fails. -/
theorem single_node_transparent (name : String) (cacheBytes : Int) (getter : Getter)
    (keys : List String) (h0 : 0 ≤ cacheBytes) :
    ∃ g, (freshGroup name cacheBytes getter).run (keys.map Call.get) = .ok g ∧
      g.peers = none ∧
      (∀ l, g.mainCache.lru = some l → ∀ e ∈ l.ll, getter e.kv.key = .ok e.kv.value.data) ∧
      ∀ key, key ≠ "" →
        (∀ bytes, getter key = .ok bytes → ∃ g', g.Get key = .ok (g', (⟨bytes⟩, none))) ∧
        (∀ err, getter key = .error err → ∃ g', g.Get key = .ok (g', (⟨""⟩, some err))) := by
  obtain ⟨g, hrun, wf, hfr⟩ := run_gets keys (freshGroup name cacheBytes getter)
    (freshGroup_WF name cacheBytes getter) rfl h0
  have hgetter : g.getter = getter := hfr.2.1
  have hpeers : g.peers = none := hfr.2.2.1
  have hb : 0 ≤ g.mainCache.cacheBytes := by rw [hfr.2.2.2]; exact h0
  refine ⟨g, hrun, hpeers, ?_, ?_⟩
  · intro l hl e he
    rw [← hgetter]
    exact wf.loaded l hl e he
  · intro key hkey
    obtain ⟨hok, herr⟩ := Get_outcome wf hpeers hkey
    rw [hgetter] at hok herr
    exact ⟨fun bytes hl => hok bytes hl (Or.inl hb), herr⟩

/-- The group test: after Get("Tom"), Get("Tom") and Get("unknown") on the scores group,
"Tom" is served from the cache and "Jack" from the loader, both with the bytes of db,
and "unknown" gets the loader's error. -/
theorem single_node_transparent_witness :
    dbGetter "Tom" = .ok "630" ∧ dbGetter "Jack" = .ok "589" ∧
    dbGetter "unknown" = .error "unknown not exist" ∧
    ∃ g, (freshGroup "scores" 2048 dbGetter).run
          (["Tom", "Tom", "unknown"].map Call.get) = .ok g ∧
      g.peers = none ∧
      (∀ l, g.mainCache.lru = some l → ∀ e ∈ l.ll,
        dbGetter e.kv.key = .ok e.kv.value.data) ∧
      ∀ key, key ≠ "" →
        (∀ bytes, dbGetter key = .ok bytes →
          ∃ g', g.Get key = .ok (g', (⟨bytes⟩, none))) ∧
        (∀ err, dbGetter key = .error err →
          ∃ g', g.Get key = .ok (g', (⟨""⟩, some err))) :=
  ⟨rfl, rfl, rfl,
    single_node_transparent "scores" 2048 dbGetter ["Tom", "Tom", "unknown"] (by decide)⟩

/-- A group made with cacheBytes = -1 and no picker: the loader returns "630" for "Tom",
and Get("Tom") does not return. Its cache misses, the loader runs, and the insertion
into the store of budget -1 evicts the new entry and then spins on the empty store. -/
theorem negative_budget_Get_hangs :
    (freshGroup "scores" (-1) dbGetter).run ([].map Call.get)
        = .ok (freshGroup "scores" (-1) dbGetter) ∧
      (freshGroup "scores" (-1) dbGetter).peers = none ∧
      dbGetter "Tom" = .ok "630" ∧
      (freshGroup "scores" (-1) dbGetter).Get "Tom" = .error Fault.hang ∧
      lru.Add (lru.New (-1) false) "Tom" (ByteView.toValue ⟨"630"⟩) = none :=
  ⟨rfl, rfl, rfl, rfl, by decide⟩

end yolocache


namespace lru

/-- Under a budget of 10 with "b" and "a" resident, Add("a", "0123456789") refreshes
"a" with a value that makes the entry 11 bytes large and then evicts "b" and "a": the
callback receives "b" and then "a" with its new value; the value "12" that "a" held
before is not passed to it. -/
theorem oversize_update_reports_new_value :
    run (New 10 true) [.add "a" (StringValue "12"), .add "b" (StringValue "3")]
        = some smallStore ∧
      Add smallStore "a" (StringValue "0123456789") =
        some { maxBytes := 10, nbytes := 0, ll := [], cache := [], OnEvicted := true,
               evicted := [⟨"b", StringValue "3"⟩, ⟨"a", StringValue "0123456789"⟩],
               nextPtr := 2,
               seen := [⟨[⟨0, ⟨"a", StringValue "0123456789"⟩⟩], [("a", 0)], 11⟩,
                 ⟨[], [], 0⟩] } :=
  ⟨by decide, by decide⟩

end lru


end YoloCache
